import Mathlib

/-!
Verification of the compact BCP 47 language-tag core (language.go):
the Tag representation, the Unicode-locale ('u') key/type index
(findTypeForKey / TypeForKey / SetTypeForKey), extension block scanning,
CLDR parent resolution, region containment, and string synthesis.

Go strings are modelled as lists of characters (the tags are ASCII).
Fallible operations (a Go panic on an out-of-bounds index) return Option.
Loops are modelled with an explicit fuel argument that is always called
with more fuel than the loop can consume on terminating inputs, keeping
every definition kernel-computable.
External collaborators that are not part of the source
(identifier tables, the extension-grammar scanner, nextExtension) are
modelled from the spec and marked as such.
-/

namespace XText

/-- A Go string, modelled as a list of characters. -/
abbrev Str := List Char

/-- Go byte indexing s[i], total with a default character; the places where
Go would panic are guarded separately before this is used. -/
def chr (s : Str) (i : Nat) : Char := s.getD i ' '

/-- Go slicing s[i:j] (length j - i when in bounds). -/
def sl (s : Str) (i j : Nat) : Str := (s.take j).drop i

/-- Checked Go slicing: s[i:j] panics unless i ≤ j ≤ len s. -/
def slChk (s : Str) (i j : Nat) : Option Str :=
  if i ≤ j ∧ j ≤ s.length then some (sl s i j) else none

/-- ASCII alphanumeric, the character class of tag subtags. -/
def isAN (c : Char) : Bool :=
  ('a' ≤ c && c ≤ 'z') || ('A' ≤ c && c ≤ 'Z') || ('0' ≤ c && c ≤ '9')

/-- Go byte-wise string comparison a < b. -/
def strLtB : Str → Str → Bool
  | [], [] => false
  | [], _ :: _ => true
  | _ :: _, [] => false
  | a :: as, b :: bs => if a < b then true else if b < a then false else strLtB as bs

/-- The Tag struct of language.go: compact language, script and region codes,
the offsets pVariant (start of the variants) and pExt (start of the first
extension) into str, and str itself, which is only non-empty when the tag
carries variants, extensions or private-use content. -/
structure Tag where
  lang : Nat
  script : Nat
  region : Nat
  pVariant : Nat
  pExt : Nat
  str : Str
deriving DecidableEq

/-- The root tag "und". -/
def und : Tag := ⟨0, 0, 0, 0, 0, []⟩

/-- A core-only tag (str empty, offsets zero). -/
def mkCore (l s r : Nat) : Tag := ⟨l, s, r, 0, 0, []⟩

/-- The private method of Tag: the tag consists solely of a private use tag. -/
def Tag.privateUseOnly (t : Tag) : Bool := !t.str.isEmpty && t.pVariant == 0

/-- The two named errors of SetTypeForKey plus the scanner's syntax error. -/
inductive GoErr where
  | privateUse
  | invalidArguments
  | malformed
deriving DecidableEq

/-- Modelled from the spec: the external IdentifierTables code-to-string
lookups (tables.go, not in src) consumed by genCoreBytes and String. -/
structure Tables where
  langStr : Nat → Str
  scriptStr : Nat → Str
  regionStr : Nat → Str

/-- Well-formedness of the identifier tables: language codes are 2–3
alphanumeric bytes, script codes exactly 4, region codes 2–3 (§4.1, §9). -/
def Tables.WF (T : Tables) : Prop :=
  (∀ l, 2 ≤ (T.langStr l).length ∧ (T.langStr l).length ≤ 3 ∧ (T.langStr l).all isAN = true)
  ∧ (∀ s, (T.scriptStr s).length = 4 ∧ (T.scriptStr s).all isAN = true)
  ∧ (∀ r, 2 ≤ (T.regionStr r).length ∧ (T.regionStr r).length ≤ 3 ∧ (T.regionStr r).all isAN = true)

/-- genCoreBytes (language.go lines 121–132): the canonical
lang[-script][-region] core. -/
def genCoreBytes (T : Tables) (t : Tag) : Str :=
  T.langStr t.lang
    ++ (if t.script ≠ 0 then '-' :: T.scriptStr t.script else [])
    ++ (if t.region ≠ 0 then '-' :: T.regionStr t.region else [])

/-- String (language.go lines 135–144). -/
def tagString (T : Tables) (t : Tag) : Str :=
  if t.str ≠ [] then t.str
  else if t.script = 0 && t.region = 0 then T.langStr t.lang
  else genCoreBytes T t

/-- MarshalText (language.go lines 147–157): same three branches as String,
and the returned error is always nil. -/
def marshalText (T : Tables) (t : Tag) : Str × Option GoErr :=
  (if t.str ≠ [] then t.str
   else if t.script = 0 && t.region = 0 then T.langStr t.lang
   else genCoreBytes T t, none)

/-- Modelled from the spec: nextExtension (parse.go, not in src). Per §4.2 an
extension block runs from its type byte up to (but not including) the next
occurrence of a dash followed two bytes later by another dash (the "-X-"
pattern introducing a new single-character type), or to the end of the
string; the scan only considers positions p with p < len(s) - 3. -/
def nextExtF : Nat → Str → Nat → Nat
  | 0, s, _ => s.length
  | fuel + 1, s, p =>
    if p < s.length - 3 then
      if chr s p = '-' && chr s (p + 2) = '-' then p else nextExtF fuel s (p + 1)
    else s.length

/-- nextExtension with its standard fuel. -/
def nextExt (s : Str) (p : Nat) : Nat := nextExtF (s.length + 1) s p

/-- Modelled from the spec: getExtension (parse.go, not in src). Skips a
leading dash, returns the whole remainder for a private-use block, and
otherwise the block running to the next block boundary; none models a Go
panic on an out-of-bounds read. -/
def getExt (s : Str) (p : Nat) : Option (Nat × Str) :=
  if p < s.length then
    let q := if chr s p = '-' then p + 1 else p
    if q < s.length then
      if chr s q = 'x' then some (s.length, s.drop q)
      else some (nextExt s q, sl s q (nextExt s q))
    else none
  else none

/-- The loop body of Extensions (language.go lines 301–309). -/
def extensionsF : Nat → Str → Nat → Option (List Str)
  | 0, _, _ => none
  | fuel + 1, s, i =>
    if i + 1 < s.length then
      match getExt s i with
      | none => none
      | some (i2, ext) =>
        match extensionsF fuel s i2 with
        | none => none
        | some rest => some (ext :: rest)
    else some []

/-- Extensions (language.go lines 301–309): all extension blocks of t in
storage order. -/
def Extensions (t : Tag) : Option (List Str) :=
  extensionsF (t.str.length + 1) t.str t.pExt

/-- The loop of Extension (language.go lines 289–298); the inner Option is
the (found? block) result, the outer none a Go panic or divergence. -/
def extensionF : Nat → Str → Nat → Char → Option (Option Str)
  | 0, _, _, _ => none
  | fuel + 1, s, i, x =>
    if i + 1 < s.length then
      match getExt s i with
      | none => none
      | some (i2, ext) =>
        match ext with
        | [] => none
        | c :: _ => if c = x then some (some ext) else extensionF fuel s i2 x
    else some none

/-- Extension (language.go lines 289–298): the extension of type x, if any. -/
def Extension (t : Tag) (x : Char) : Option (Option Str) :=
  extensionF (t.str.length + 1) t.str t.pExt x

/-- The token-skipping loop of findTypeForKey (language.go line 461):
advance p while p < mx and s[p] is not a dash. -/
def scanDashF : Nat → Str → Nat → Nat → Nat
  | 0, _, p, _ => p
  | fuel + 1, s, p, mx =>
    if p < mx && chr s p ≠ '-' then scanDashF fuel s (p + 1) mx else p

/-- The extension-search loop of findTypeForKey (language.go lines 419–427):
walk the blocks in ascending type order looking for the u extension. Returns
either the not-found triple or (inr) the position just after the u type
byte; none models a Go panic. -/
def findUF : Nat → Str → Nat → Option (Sum (Nat × Nat × Bool) Nat)
  | 0, _, _ => none
  | fuel + 1, s, p =>
    if p < s.length then
      if chr s p = 'u' then some (Sum.inr (p + 1))
      else if 'u' < chr s p then some (Sum.inl (p - 1, p - 1, false))
      else
        let q := nextExt s p
        if q = s.length then some (Sum.inl (s.length, s.length, false))
        else findUF fuel s (q + 1)
    else none

/-- The key scan inside the u extension (language.go lines 430–471). p points
at the hyphen preceding the current token, curKey is the most recently seen
key and start the start of its type tokens; none models a Go panic. -/
def uSearchF : Nat → Str → Str → Nat → Str → Nat → Option (Nat × Nat × Bool)
  | 0, _, _, _, _, _ => none
  | fuel + 1, s, key, p, curKey, start =>
    if p + 3 < s.length then
      if chr s (p + 3) = '-' then
        if curKey = key then some (start, p, true)
        else
          let curKey2 := sl s (p + 1) (p + 3)
          if strLtB key curKey2 then some (p, p, true)
          else
            let p2 := scanDashF (s.length + 1) s (p + 7) (min (p + 7 + 5) s.length)
            if p2 = s.length then
              if curKey2 = key then some (p + 4, p2, true) else some (p2, p2, true)
            else if p2 + 2 < s.length then
              if chr s (p2 + 2) = '-' then
                if curKey2 = key then some (p + 4, p2, true) else some (p2, p2, true)
              else uSearchF fuel s key p2 curKey2 (p + 4)
            else none
      else
        let p2 := scanDashF (s.length + 1) s (p + 4) (min (p + 4 + 5) s.length)
        if p2 = s.length then
          if curKey = key then some (start, p2, true) else some (p2, p2, true)
        else if p2 + 2 < s.length then
          if chr s (p2 + 2) = '-' then
            if curKey = key then some (start, p2, true) else some (p2, p2, true)
          else uSearchF fuel s key p2 curKey start
        else none
    else none

/-- findTypeForKey (language.go lines 411–472): the start and end of the type
for key inside the u extension, or the insertion point when absent; hasExt
reports whether a u extension was entered; none models a Go panic. -/
def findTypeForKey (t : Tag) (key : Str) : Option (Nat × Nat × Bool) :=
  let p := t.pExt
  if key.length ≠ 2 || p == t.str.length || p == 0 then some (p, p, false)
  else
    match findUF (t.str.length + 1) t.str (p + 1) with
    | none => none
    | some (Sum.inl r) => some r
    | some (Sum.inr pu) => uSearchF (t.str.length + 1) t.str key pu [] 0

/-- TypeForKey (language.go lines 315–320). -/
def TypeForKey (t : Tag) (key : Str) : Option Str :=
  match findTypeForKey t key with
  | none => none
  | some (start, e, _) => if e ≠ start then slChk t.str start e else some []

/-- Split a string at dashes (the components of a multi-component type). -/
def splitDash : Str → List Str
  | [] => [[]]
  | c :: rest =>
    if c = '-' then [] :: splitDash rest
    else
      match splitDash rest with
      | [] => [[c]]
      | t :: ts => (c :: t) :: ts

/-- Join components with dashes. -/
def joinDash : List Str → Str
  | [] => []
  | c :: rest => c ++ (rest.map (fun x => '-' :: x)).flatten

/-- Modelled from the spec: the scanner validation SetTypeForKey runs on the
synthesized fragment u-key-value (makeScanner / parseExtensions in parse.go,
not in src). Per §4.3 and §9 the fragment grammar requires an alphanumeric
2-byte key and a type made of dash-joined alphanumeric components of 3–8
bytes each. -/
def validFragment (key value : Str) : Bool :=
  key.all isAN
    && (splitDash value).all (fun c => 3 ≤ c.length && c.length ≤ 8 && c.all isAN)

/-- SetTypeForKey (language.go lines 331–404). Mirrors the Go control flow:
the private-use check, the key-length check, the removal path for an empty
value, the value-length check, fragment validation, and the four splice
shapes; none models a Go panic (an out-of-bounds index). -/
def SetTypeForKey (T : Tables) (t : Tag) (key value : Str) : Option (Tag × Option GoErr) :=
  if t.privateUseOnly then some (t, some GoErr.privateUse)
  else if key.length ≠ 2 then some (t, some GoErr.invalidArguments)
  else if value = [] then
    match findTypeForKey t key with
    | none => none
    | some (start, e, _) =>
      if start ≠ e then
        let start1 := start - 4
        if e ≠ t.str.length ∧ ¬ e + 2 < t.str.length then none
        else
          let c1 : Bool := e == t.str.length || chr t.str (e + 2) == '-'
          if c1 = true ∧ ¬(2 ≤ start1 ∧ start1 - 2 < t.str.length) then none
          else
            let c2 : Bool := c1 && (chr t.str (start1 - 2) == '-')
            let start2 := if c2 then start1 - 2 else start1
            if start2 = t.pVariant ∧ e = t.str.length then
              some ({ t with str := [], pVariant := 0, pExt := 0 }, none)
            else
              match slChk t.str 0 start2, slChk t.str e t.str.length with
              | some a, some b => some ({ t with str := a ++ b }, none)
              | _, _ => none
      else some (t, none)
  else if value.length < 3 || 8 < value.length then some (t, some GoErr.invalidArguments)
  else if ¬ validFragment key value then some (t, some GoErr.malformed)
  else if t.str = [] then
    let core := genCoreBytes T t
    let uStart := core.length + 1
    some (⟨t.lang, t.script, t.region, (uStart - 1) % 256, (uStart - 1) % 65536,
           core ++ '-' :: 'u' :: '-' :: (key ++ '-' :: value)⟩, none)
  else
    match findTypeForKey t key with
    | none => none
    | some (start, e, hasExt) =>
      if start = e then
        let b : Str := if hasExt then key ++ '-' :: value
                       else 'u' :: '-' :: (key ++ '-' :: value)
        match slChk t.str 0 start, slChk t.str e t.str.length with
        | some a, some c => some ({ t with str := a ++ '-' :: (b ++ c) }, none)
        | _, _ => none
      else
        match slChk t.str 0 start, slChk t.str e t.str.length with
        | some a, some c => some ({ t with str := a ++ value ++ c }, none)
        | _, _ => none

/-- An entry of the CLDR parent-override table (§4.4, §6). -/
structure PEntry where
  lang : Nat
  maxScript : Nat
  toRegion : Nat
  script : Nat
  fromRegion : List Nat
deriving DecidableEq

/-- Modelled from the spec: the external tables consumed by Parent — the
parent-override entries (tables.go, not in src) and addTags default-script
inference (§6 inferDefaults: the script addTags would fill in). -/
structure PTables where
  parents : List PEntry
  inferScript : Tag → Nat

/-- The override lookup inside Parent (language.go lines 203–215): the first
entry matching the language and effective script whose fromRegion list holds
the region. -/
def lookupParent (P : PTables) (lang maxScript region : Nat) : Option PEntry :=
  P.parents.find?
    (fun e => e.lang == lang && e.maxScript == maxScript && e.fromRegion.contains region)

/-- Parent (language.go lines 182–234); the Go locals t (reassigned) and
maxScript are inlined. -/
def Parent (P : PTables) (t : Tag) : Tag :=
  if t.str ≠ [] then
    if t.region = 0 ∧ t.script ≠ 0 ∧ t.lang ≠ 0 then
      if P.inferScript (mkCore t.lang 0 0) = t.script then mkCore t.lang 0 0
      else mkCore t.lang t.script t.region
    else mkCore t.lang t.script t.region
  else if t.lang ≠ 0 then
    if t.region ≠ 0 then
      match lookupParent P t.lang (if t.script = 0 then P.inferScript t else t.script)
          t.region with
      | some e => mkCore t.lang e.script e.toRegion
      | none =>
        if P.inferScript (mkCore t.lang 0 0) ≠ (if t.script = 0 then P.inferScript t else t.script)
        then mkCore t.lang (if t.script = 0 then P.inferScript t else t.script) 0
        else mkCore t.lang 0 0
    else if t.script ≠ 0 then
      if P.inferScript (mkCore t.lang 0 0) ≠ t.script then und
      else mkCore t.lang 0 0
    else und
  else und

/-- n-fold application of Parent. -/
def ParentIter (P : PTables) : Nat → Tag → Tag
  | 0, t => t
  | n + 1, t => ParentIter P n (Parent P t)

/-- The no-override-chains property of the parent table: the tag an override
entry maps to never itself matches an override entry (this is what §4.4's
strict-progress and §8's four-step bound rest on). -/
def PTables.NoChains (P : PTables) : Prop :=
  ∀ e ∈ P.parents, ∀ ms : Nat, lookupParent P e.lang ms e.toRegion = none

/-- Modelled from the spec: the region containment tables (tables.go, not in
src): regionInclusion maps a region to its group index, regionContainment is
the per-group bitmask (defined for indices below nRegionGroups), and
regionInclusionBits the membership bitmask. -/
structure RTables where
  regionInclusion : Nat → Nat
  regionContainment : Nat → Nat
  regionInclusionBits : Nat → Nat
  nRegionGroups : Nat

/-- Contains (language.go lines 533–553). -/
def Contains (R : RTables) (r c : Nat) : Bool :=
  if r = c then true
  else
    let g := R.regionInclusion r
    if R.nRegionGroups ≤ g then false
    else
      let m := R.regionContainment g
      let d := R.regionInclusion c
      let b := R.regionInclusionBits d
      if R.nRegionGroups ≤ d then decide (Nat.land b m ≠ 0)
      else decide (Nat.ldiff b m = 0)

/-! ### The structured layout of a valid tag string (§3 invariants) -/

/-- A rendered subtag: its preceding dash plus the token. -/
def renderTok (x : Str) : Str := '-' :: x

/-- A rendered token sequence. -/
def renderToks (xs : List Str) : Str := (xs.map renderTok).flatten

/-- A rendered key with its type components. -/
def renderKV (kv : Str × List Str) : Str := ('-' :: kv.1) ++ renderToks kv.2

/-- A rendered sequence of key/type pairs. -/
def renderKVs (kvs : List (Str × List Str)) : Str := (kvs.map renderKV).flatten

/-- A rendered extension block: dash, type byte, subtags. -/
def renderBlock (b : Char × List Str) : Str := '-' :: b.1 :: renderToks b.2

/-- Rendered extension blocks. -/
def renderBlocks (bs : List (Char × List Str)) : Str := (bs.map renderBlock).flatten

/-- The rendered u extension: attributes first, then keys with their types. -/
def renderU (attrs : List Str) (kvs : List (Str × List Str)) : Str :=
  '-' :: 'u' :: (renderToks attrs ++ renderKVs kvs)

/-- The structural decomposition of a valid tag string: the core, the variant
subtags, the extension blocks with type below 'u', the optional u block
(attributes and key/type pairs), and the blocks with type above 'u'. -/
structure Layout where
  core : Str
  variants : List Str
  pre : List (Char × List Str)
  ub : Option (List Str × List (Str × List Str))
  post : List (Char × List Str)

/-- The suffix of a layout: everything after the core. -/
def Layout.renderSuffix (L : Layout) : Str :=
  renderToks L.variants ++ renderBlocks L.pre
    ++ (match L.ub with | none => [] | some p => renderU p.1 p.2)
    ++ renderBlocks L.post

/-- The full rendered string of a layout. -/
def Layout.render (L : Layout) : Str := L.core ++ L.renderSuffix

/-- A token of length between lo and hi, alphanumeric. -/
def tokOK (lo hi : Nat) (x : Str) : Bool := lo ≤ x.length && x.length ≤ hi && x.all isAN

/-- A well-formed non-private extension block: alphanumeric type, nonempty,
subtags of 2–8 alphanumeric bytes. -/
def blockOK (b : Char × List Str) : Bool :=
  isAN b.1 && !b.2.isEmpty && b.2.all (tokOK 2 8)

/-- A well-formed private-use block: subtags may be a single byte. -/
def xBlockOK (b : Char × List Str) : Bool :=
  isAN b.1 && !b.2.isEmpty && b.2.all (tokOK 1 8)

/-- A well-formed key/type pair: 2-byte alphanumeric key, at least one type
component, components of 3–8 alphanumeric bytes. -/
def kvOK (kv : Str × List Str) : Bool :=
  kv.1.length == 2 && kv.1.all isAN && !kv.2.isEmpty && kv.2.all (tokOK 3 8)

/-- Keys in strictly ascending byte order. -/
def sortedKeys : List (Str × List Str) → Bool
  | [] => true
  | [_] => true
  | a :: b :: rest => strLtB a.1 b.1 && sortedKeys (b :: rest)

/-- Block types in strictly ascending byte order. -/
def sortedTyps : List (Char × List Str) → Bool
  | [] => true
  | [_] => true
  | a :: b :: rest => decide (a.1 < b.1) && sortedTyps (b :: rest)

/-- Well-formedness of a layout, the §3 data-model invariants: a nonempty
core; nonempty alphanumeric variant tokens; pre-u blocks sorted below 'u';
u attributes of 3–8 bytes, keys sorted strictly ascending, every key with a
nonempty type; post-u blocks sorted above 'u', a private-use block only in
last position; and a nonempty suffix. -/
def Layout.wf (L : Layout) : Bool :=
  1 ≤ L.core.length
  && L.variants.all (fun v => !v.isEmpty && v.all isAN)
  && L.pre.all (fun b => blockOK b && decide (b.1 < 'u'))
  && sortedTyps L.pre
  && (match L.ub with
      | none => true
      | some p =>
        p.1.all (tokOK 3 8) && p.2.all kvOK && sortedKeys p.2
          && !(p.1.isEmpty && p.2.isEmpty))
  && L.post.all (fun b => decide ('u' < b.1) && (if b.1 = 'x' then xBlockOK b else blockOK b))
  && sortedTyps L.post
  && L.post.dropLast.all (fun b => !(b.1 == 'x'))
  && !(L.variants.isEmpty && L.pre.isEmpty && L.ub.isNone && L.post.isEmpty)

/-- A valid Tag (§3): either core-only with empty str, or private-use-only,
or a tag whose str is a well-formed layout with the offsets pointing at the
variants and at the first extension block. -/
def ValidTag (t : Tag) : Prop :=
  (t.str = [] ∧ t.pVariant = 0 ∧ t.pExt = 0)
  ∨ (t.str.head? = some 'x' ∧ t.pVariant = 0 ∧ t.pExt = 0)
  ∨ ∃ L : Layout, L.wf = true ∧ t.str = L.render ∧ t.pVariant = L.core.length
      ∧ t.pExt = L.core.length + (renderToks L.variants).length

/-- Length of a rendered token sequence. -/
def lenToks (xs : List Str) : Nat := (renderToks xs).length

/-- Length of rendered blocks. -/
def lenBlocks (bs : List (Char × List Str)) : Nat := (renderBlocks bs).length

/-- The structure-level mirror of the key scan: walk the key/type pairs from
dash position p with the scanner's (curKey, start) state. -/
def kvScan (key : Str) : List (Str × List Str) → Nat → Str → Nat → Nat × Nat × Bool
  | [], p, cur, st => if cur = key then (st, p, true) else (p, p, true)
  | (k, cs) :: rest, p, cur, st =>
    if cur = key then (st, p, true)
    else if strLtB key k then (p, p, true)
    else
      let _ := st
      kvScan key rest (p + 3 + lenToks cs) k (p + 4)

/-- The structure-level result of findTypeForKey on a valid layout. -/
def findSpec (L : Layout) (pExt : Nat) (len : Nat) (key : Str) : Nat × Nat × Bool :=
  let pU := pExt + lenBlocks L.pre
  match L.ub with
  | some p => kvScan key p.2 (pU + 2 + lenToks p.1) [] 0
  | none => if L.post.isEmpty then (len, len, false) else (pU, pU, false)

/-! ### Concrete tables and tags used to instantiate theorems -/

/-- A concrete identifier table. -/
def demoTables : Tables :=
  ⟨fun _ => ['e', 'n'], fun _ => ['L', 'a', 't', 'n'], fun _ => ['U', 'S']⟩

/-- A concrete parent table in the shape of the CLDR zh-Hant-MO → zh-Hant-HK
override (language 7, scripts 5/6, regions 90/91). -/
def demoP : PTables :=
  ⟨[⟨7, 5, 90, 5, [91]⟩], fun t => if t.lang = 7 then 6 else 0⟩

/-- A concrete region table: three groups with nested bitmasks. -/
def demoR : RTables :=
  ⟨fun r => r, fun g => 2 ^ (g + 1) - 1, fun d => 2 ^ d, 3⟩

/-- The u-extension tokens of a key/type list, flattened in storage order. -/
def flatKVs (kvs : List (Str × List Str)) : List Str :=
  kvs.flatMap (fun kv => kv.1 :: kv.2)

/-- Length of rendered key/value pairs. -/
def lenKVs (kvs : List (Str × List Str)) : Nat := (renderKVs kvs).length

/-- Well-formed token runs inside a u extension: attributes and type
components are 3-8 alphanumeric bytes; keys are 2 alphanumeric bytes,
each followed by at least one component. -/
inductive UToksWF : List Str → Prop
  | nil : UToksWF []
  | attr (t : Str) (ts : List Str) : 3 ≤ t.length → t.length ≤ 8 → t.all isAN = true →
      UToksWF ts → UToksWF (t :: ts)
  | kv (k c : Str) (ts : List Str) : k.length = 2 → k.all isAN = true → 3 ≤ c.length →
      UToksWF (c :: ts) → UToksWF (k :: c :: ts)

/-- The u-block scan at the token level, mirroring the byte scanner: a 2-byte
token is a key (consumed together with the first component of its type) and
anything else is an attribute or type component. -/
def uSpec (key : Str) : List Str → Nat → Str → Nat → Nat × Nat × Bool
  | [], p, cur, st => if cur = key then (st, p, true) else (p, p, true)
  | t :: ts, p, cur, st =>
    if t.length = 2 then
      if cur = key then (st, p, true)
      else if strLtB key t then (p, p, true)
      else
        match ts with
        | [] => (p, p, true)
        | c :: ts2 => uSpec key ts2 (p + 4 + c.length) t (p + 4)
    else uSpec key ts (p + 1 + t.length) cur st

/-- All extension blocks of a layout in storage order, the u block flattened
to its token list. -/
def allBlocks (L : Layout) : List (Char × List Str) :=
  L.pre ++ (match L.ub with | none => [] | some p => [('u', p.1 ++ flatKVs p.2)]) ++ L.post

/-- Only the last block may carry the private-use type byte. -/
def xLastOK : List (Char × List Str) → Bool
  | [] => true
  | [_] => true
  | b :: rest => (b.1 != 'x') && xLastOK rest

/-! ### Easy claims: guards, error paths, Parent shape, Contains, String -/

/-- Claim C10: for every Tag and every key whose length is not 2, TypeForKey
returns the empty string: findTypeForKey guards on the key length (and on an
empty or absent extension region) and reports absence without scanning. -/
theorem C10_typeForKey_badKeyLength (t : Tag) (key : Str) (h : key.length ≠ 2) :
    TypeForKey t key = some [] ∧ findTypeForKey t key = some (t.pExt, t.pExt, false) := by
  have hf : findTypeForKey t key = some (t.pExt, t.pExt, false) := by
    unfold findTypeForKey
    simp [h]
  refine ⟨?_, hf⟩
  unfold TypeForKey
  rw [hf]
  simp

/-- Witness for C10 at a concrete tag and one-byte key. -/
theorem C10_witness :
    TypeForKey und ['a'] = some [] ∧ findTypeForKey und ['a'] = some (und.pExt, und.pExt, false) :=
  C10_typeForKey_badKeyLength und ['a'] (by decide)

/-- Claim C2: whenever SetTypeForKey returns a non-nil error, the Tag it
returns is exactly the input tag, every field unchanged. -/
theorem C2_error_leaves_tag_unchanged (T : Tables) (t t' : Tag) (key value : Str) (e : GoErr)
    (h : SetTypeForKey T t key value = some (t', some e)) : t' = t := by
  unfold SetTypeForKey at h
  repeat' split at h
  all_goals (try simp_all)
  all_goals (obtain ⟨h1, h2⟩ := h; repeat' split at h2 <;> simp_all)

/-- Witness for C2: the private-use error path at a concrete tag. -/
theorem C2_witness : (⟨0, 0, 0, 0, 0, ['x', '-', 'f']⟩ : Tag) = ⟨0, 0, 0, 0, 0, ['x', '-', 'f']⟩ :=
  C2_error_leaves_tag_unchanged demoTables ⟨0, 0, 0, 0, 0, ['x', '-', 'f']⟩
    ⟨0, 0, 0, 0, 0, ['x', '-', 'f']⟩ ['c', 'o'] ['a', 'b', 'c'] GoErr.privateUse (by decide)

/-- Claim C7 counterexample: on a private-use-only tag with a key of the
wrong length, SetTypeForKey fails with the private-use error, not the
invalid-arguments error the claim requires for every bad key length. -/
theorem C7_counterexample :
    SetTypeForKey demoTables ⟨0, 0, 0, 0, 0, ['x', '-', 'f', 'o', 'o']⟩ ['a', 'b', 'c'] [] =
      some (⟨0, 0, 0, 0, 0, ['x', '-', 'f', 'o', 'o']⟩, some GoErr.privateUse)
    ∧ GoErr.privateUse ≠ GoErr.invalidArguments := by
  constructor
  · decide
  · decide

/-- Claim C7 (amended): SetTypeForKey fails with the private-use error
whenever the tag is private-use-only; and, provided the tag is not
private-use-only, it fails with the invalid-arguments error whenever the key
length is not 2, or the value is non-empty with length outside 3-8. -/
theorem C7_error_conditions (T : Tables) (t : Tag) (key value : Str) :
    (t.privateUseOnly = true →
      SetTypeForKey T t key value = some (t, some GoErr.privateUse))
    ∧ (t.privateUseOnly = false → key.length ≠ 2 →
      SetTypeForKey T t key value = some (t, some GoErr.invalidArguments))
    ∧ (t.privateUseOnly = false → key.length = 2 → value ≠ [] →
        (value.length < 3 ∨ 8 < value.length) →
      SetTypeForKey T t key value = some (t, some GoErr.invalidArguments)) := by
  refine ⟨?_, ?_, ?_⟩
  · intro hp
    unfold SetTypeForKey
    simp [hp]
  · intro hp hk
    unfold SetTypeForKey
    simp [hp, hk]
  · intro hp hk hv hlen
    unfold SetTypeForKey
    rw [if_neg (by simp [hp]), if_neg (by simp [hk]), if_neg (by simp [hv]),
      if_pos (by rcases hlen with h1 | h1 <;> simp [h1])]

/-- Witness for C7 at a concrete non-private tag and bad value length. -/
theorem C7_witness :
    SetTypeForKey demoTables und ['c', 'o'] ['a', 'b'] =
      some (und, some GoErr.invalidArguments) :=
  (C7_error_conditions demoTables und ['c', 'o'] ['a', 'b']).2.2 (by decide) (by decide)
    (by decide) (by decide)

/-- Claim C5: for a Tag with non-empty str, Parent keeps lang, script and
region and strips the suffix, except that when region is unset, script set,
lang set and the script equals the language's inferred default script, the
script is dropped as well, giving the bare-language tag. -/
theorem C5_parent_strips_suffix (P : PTables) (t : Tag) (h : t.str ≠ []) :
    Parent P t =
      if t.region = 0 ∧ t.script ≠ 0 ∧ t.lang ≠ 0
          ∧ P.inferScript (mkCore t.lang 0 0) = t.script
      then mkCore t.lang 0 0
      else mkCore t.lang t.script t.region := by
  unfold Parent
  rw [if_pos h]
  simp only [mkCore]
  split_ifs <;> tauto

/-- Witness for C5 at a concrete suffix-carrying tag. -/
theorem C5_witness :
    Parent demoP ⟨7, 0, 0, 1, 1, ['z', 'h', '-', 'a', '-', 'b', 'c']⟩ =
      mkCore 7 0 0 := by
  have h := C5_parent_strips_suffix demoP ⟨7, 0, 0, 1, 1, ['z', 'h', '-', 'a', '-', 'b', 'c']⟩
    (by decide)
  rw [h]
  decide

/-- Claim C6: the case analysis of Contains — equality, out-of-range group,
leaf-country intersection, group subset — and reflexivity. -/
theorem C6_contains_cases (R : RTables) (r c : Nat) :
    (r = c → Contains R r c = true)
    ∧ (r ≠ c → R.nRegionGroups ≤ R.regionInclusion r → Contains R r c = false)
    ∧ (r ≠ c → R.regionInclusion r < R.nRegionGroups →
        R.nRegionGroups ≤ R.regionInclusion c →
        (Contains R r c = true ↔
          Nat.land (R.regionInclusionBits (R.regionInclusion c))
            (R.regionContainment (R.regionInclusion r)) ≠ 0))
    ∧ (r ≠ c → R.regionInclusion r < R.nRegionGroups →
        R.regionInclusion c < R.nRegionGroups →
        (Contains R r c = true ↔
          Nat.ldiff (R.regionInclusionBits (R.regionInclusion c))
            (R.regionContainment (R.regionInclusion r)) = 0))
    ∧ Contains R r r = true := by
  refine ⟨?_, ?_, ?_, ?_, ?_⟩
  · intro h
    simp [Contains, h]
  · intro h hg
    simp [Contains, h, hg]
  · intro h hg hd
    simp [Contains, h, Nat.not_le.mpr hg, hd]
  · intro h hg hd
    simp [Contains, h, Nat.not_le.mpr hg, Nat.not_le.mpr hd]
  · simp [Contains]

/-- Witness for C6 at concrete regions. -/
theorem C6_witness : Contains demoR 2 2 = true :=
  (C6_contains_cases demoR 2 2).2.2.2.2

/-- Claim C8: String and MarshalText return str when it is non-empty, the
bare language code when script and region are both unset, and otherwise the
synthesized lang[-script][-region] core, which never exceeds 12 bytes; the
marshal error is always nil. -/
theorem C8_string_marshal (T : Tables) (t : Tag) (hT : T.WF) :
    (t.str ≠ [] → tagString T t = t.str)
    ∧ (t.str = [] → t.script = 0 → t.region = 0 → tagString T t = T.langStr t.lang)
    ∧ (t.str = [] → (t.script ≠ 0 ∨ t.region ≠ 0) →
        tagString T t = genCoreBytes T t ∧ (tagString T t).length ≤ 12)
    ∧ marshalText T t = (tagString T t, none) := by
  obtain ⟨hl, hs, hr⟩ := hT
  refine ⟨?_, ?_, ?_, ?_⟩
  · intro h
    simp [tagString, h]
  · intro h h1 h2
    simp [tagString, h, h1, h2]
  · intro h h1
    have hg : tagString T t = genCoreBytes T t := by
      unfold tagString
      rw [if_neg (by simp [h]), if_neg (by rcases h1 with h2 | h2 <;> simp [h2])]
    refine ⟨hg, ?_⟩
    rw [hg]
    unfold genCoreBytes
    obtain ⟨b1, b2, -⟩ := hl t.lang
    obtain ⟨b3, -⟩ := hs t.script
    obtain ⟨b4, b5, -⟩ := hr t.region
    simp only [List.length_append]
    split_ifs <;> simp <;> omega
  · unfold marshalText tagString
    rfl

/-- The demonstration identifier table is well-formed. -/
theorem demoTables_wf : demoTables.WF := by
  refine ⟨fun l => ?_, fun s => ?_, fun r => ?_⟩
  · show 2 ≤ (['e', 'n'] : Str).length ∧ (['e', 'n'] : Str).length ≤ 3
      ∧ (['e', 'n'] : Str).all isAN = true
    decide
  · show (['L', 'a', 't', 'n'] : Str).length = 4 ∧ (['L', 'a', 't', 'n'] : Str).all isAN = true
    decide
  · show 2 ≤ (['U', 'S'] : Str).length ∧ (['U', 'S'] : Str).length ≤ 3
      ∧ (['U', 'S'] : Str).all isAN = true
    decide

/-- Witness for C8 at a concrete tag with script and region set. -/
theorem C8_witness :
    tagString demoTables (mkCore 1 2 3) = genCoreBytes demoTables (mkCore 1 2 3)
      ∧ (tagString demoTables (mkCore 1 2 3)).length ≤ 12 :=
  (C8_string_marshal demoTables (mkCore 1 2 3) demoTables_wf).2.2.1 (by decide) (by decide)

/-! ### Claim C4: Parent terminates at the root within four steps -/

/-- Parent fixes the root tag. -/
theorem parent_und (P : PTables) : Parent P und = und := by
  unfold Parent und
  simp

/-- Unfolding of the iterator. -/
theorem parentIter_succ (P : PTables) (n : Nat) (t : Tag) :
    ParentIter P (n + 1) t = ParentIter P n (Parent P t) := rfl

/-- The iterator fixes the root tag. -/
theorem parentIter_und (P : PTables) (n : Nat) : ParentIter P n und = und := by
  induction n with
  | zero => rfl
  | succ n ih => rw [parentIter_succ, parent_und]; exact ih

/-- Splitting the iterator. -/
theorem parentIter_add (P : PTables) (a b : Nat) (t : Tag) :
    ParentIter P (a + b) t = ParentIter P b (ParentIter P a t) := by
  induction a generalizing t with
  | zero => simp [ParentIter]
  | succ a ih =>
    have h : a + 1 + b = (a + b) + 1 := by omega
    rw [h, parentIter_succ, parentIter_succ, ih]

/-- Once the root is reached it stays reached. -/
theorem parentIter_mono (P : PTables) (m n : Nat) (t : Tag) (h : ParentIter P m t = und)
    (hmn : m ≤ n) : ParentIter P n t = und := by
  have he : n = m + (n - m) := by omega
  rw [he, parentIter_add, h, parentIter_und]

/-- The parent of a bare-language tag is the root. -/
theorem parent_bare (P : PTables) (l : Nat) : Parent P (mkCore l 0 0) = und := by
  unfold Parent mkCore
  simp

/-- For a suffix-free tag with no region, Parent yields und or a bare tag. -/
theorem parent_noregion_cases (P : PTables) (t : Tag) (h : t.str = []) (hr : t.region = 0) :
    Parent P t = und ∨ Parent P t = mkCore t.lang 0 0 := by
  unfold Parent
  split_ifs <;> simp_all

/-- A suffix-free tag with no region reaches the root in two steps. -/
theorem parent_two_noregion (P : PTables) (t : Tag) (h : t.str = []) (hr : t.region = 0) :
    ParentIter P 2 t = und := by
  show Parent P (Parent P t) = und
  rcases parent_noregion_cases P t h hr with hc | hc
  · rw [hc, parent_und]
  · rw [hc, parent_bare]

/-- A core tag whose script is unset or differs from the inferred default
steps directly to the root. -/
theorem parent_core_script_root (P : PTables) (l ms : Nat)
    (hms : ms = 0 ∨ P.inferScript (mkCore l 0 0) ≠ ms) :
    Parent P (mkCore l ms 0) = und := by
  rcases hms with h0 | hne
  · subst h0
    exact parent_bare P l
  · unfold Parent
    split_ifs <;> simp_all [mkCore]

/-- When the override lookup misses, a suffix-free tag with a region reaches
the root in two steps. -/
theorem parent_two_region_nolookup (P : PTables) (t : Tag) (h : t.str = []) (hl : t.lang ≠ 0)
    (hr : t.region ≠ 0)
    (hnone : lookupParent P t.lang (if t.script = 0 then P.inferScript t else t.script)
      t.region = none) :
    ParentIter P 2 t = und := by
  show Parent P (Parent P t) = und
  have hstep : Parent P t =
      if P.inferScript (mkCore t.lang 0 0) ≠ (if t.script = 0 then P.inferScript t else t.script)
      then mkCore t.lang (if t.script = 0 then P.inferScript t else t.script) 0
      else mkCore t.lang 0 0 := by
    unfold Parent
    rw [if_neg (by simp [h]), if_pos hl, if_pos hr, hnone]
  set ms := if t.script = 0 then P.inferScript t else t.script with hms
  by_cases hd : P.inferScript (mkCore t.lang 0 0) ≠ ms
  · rw [hstep, if_pos hd]
    exact parent_core_script_root P t.lang ms (Or.inr hd)
  · rw [hstep, if_neg hd, parent_bare]

/-- A suffix-free tag reaches the root in three steps when the override
table has no chains. -/
theorem parent_three_nostr (P : PTables) (hP : P.NoChains) (t : Tag) (h : t.str = []) :
    ParentIter P 3 t = und := by
  by_cases hl : t.lang = 0
  · have h1 : Parent P t = und := by
      unfold Parent
      rw [if_neg (by simp [h]), if_neg (by simp [hl])]
    refine parentIter_mono P 1 3 t ?_ (by omega)
    exact h1
  by_cases hr : t.region = 0
  · exact parentIter_mono P 2 3 t (parent_two_noregion P t h hr) (by omega)
  cases hlook : lookupParent P t.lang (if t.script = 0 then P.inferScript t else t.script)
      t.region with
  | none =>
    exact parentIter_mono P 2 3 t (parent_two_region_nolookup P t h hl hr hlook) (by omega)
  | some e =>
    have hstep : Parent P t = mkCore t.lang e.script e.toRegion := by
      unfold Parent
      rw [if_neg (by simp [h]), if_pos hl, if_pos hr, hlook]
    have hmem : e ∈ P.parents := List.mem_of_find?_eq_some hlook
    have hpred := List.find?_some hlook
    have helang : e.lang = t.lang := by
      simp only [Bool.and_eq_true, beq_iff_eq] at hpred
      exact hpred.1.1
    show ParentIter P 2 (Parent P t) = und
    rw [hstep]
    by_cases hto : e.toRegion = 0
    · exact parent_two_noregion P (mkCore t.lang e.script e.toRegion) rfl hto
    · refine parent_two_region_nolookup P (mkCore t.lang e.script e.toRegion) rfl
        (by simpa [mkCore] using hl) (by simpa [mkCore] using hto) ?_
      have hnc := hP e hmem
        (if (mkCore t.lang e.script e.toRegion).script = 0
         then P.inferScript (mkCore t.lang e.script e.toRegion)
         else (mkCore t.lang e.script e.toRegion).script)
      rw [helang] at hnc
      simpa [mkCore] using hnc

/-- Claim C4: for every Tag, iterating Parent reaches the root tag und in at
most 4 applications (und itself being a fixed point, so there are no
cycles), provided the parent-override table maps into override-free tags,
which is what the strict-progress property of the parent state machine
states. -/
theorem C4_parent_reaches_root (P : PTables) (hP : P.NoChains) (t : Tag) :
    ParentIter P 4 t = und ∧ Parent P und = und := by
  refine ⟨?_, parent_und P⟩
  by_cases h : t.str = []
  · exact parentIter_mono P 3 4 t (parent_three_nostr P hP t h) (by omega)
  · have hs : (Parent P t).str = [] := by
      unfold Parent
      rw [if_pos h]
      split_ifs <;> rfl
    show ParentIter P 3 (Parent P t) = und
    exact parent_three_nostr P hP (Parent P t) hs

/-- The demonstration parent table has no override chains. -/
theorem demoP_noChains : demoP.NoChains := by
  intro e he ms
  simp only [demoP, List.mem_singleton] at he
  subst he
  simp [lookupParent, demoP, List.find?]

/-- Witness for C4 at a concrete tag (override shape: lang 7 script 5
region 91 with a variant suffix). -/
theorem C4_witness :
    ParentIter demoP 4 ⟨7, 5, 91, 2, 2, ['z', 'h', '-', 'a', '-', 'b', 'c']⟩ = und
      ∧ Parent demoP und = und :=
  C4_parent_reaches_root demoP demoP_noChains ⟨7, 5, 91, 2, 2, ['z', 'h', '-', 'a', '-', 'b', 'c']⟩

/-! ### String position toolkit -/

theorem chr_cons_succ (c : Char) (l : Str) (i : Nat) : chr (c :: l) (i + 1) = chr l i := by
  simp [chr]

theorem chr_cons_zero (c : Char) (l : Str) : chr (c :: l) 0 = c := rfl

theorem chr_append_right (a b : Str) (i : Nat) : chr (a ++ b) (a.length + i) = chr b i := by
  induction a with
  | nil => simp [chr]
  | cons c a ih =>
    have h : (c :: a).length + i = (a.length + i) + 1 := by simp; omega
    rw [List.cons_append, h, chr_cons_succ]
    exact ih

theorem chr_append_left (a b : Str) (i : Nat) (h : i < a.length) : chr (a ++ b) i = chr a i := by
  induction a generalizing i with
  | nil => simp at h
  | cons c a ih =>
    cases i with
    | zero => rfl
    | succ i =>
      rw [List.cons_append, chr_cons_succ, chr_cons_succ]
      exact ih i (by simpa using h)

theorem chr_concat (pre : Str) (c : Char) (rest : Str) (q : Nat) (hq : q = pre.length) :
    chr (pre ++ c :: rest) q = c := by
  subst hq
  simpa using chr_append_right pre (c :: rest) 0

theorem chr_in_mid (pre mid rest : Str) (i q : Nat) (hi : i < mid.length)
    (hq : q = pre.length + i) :
    chr (pre ++ (mid ++ rest)) q = chr mid i := by
  subst hq
  rw [chr_append_right, chr_append_left _ _ _ hi]

theorem chr_tok (x : Str) (hx : x.all isAN = true) (i : Nat) (h : i < x.length) :
    isAN (chr x i) = true := by
  induction x generalizing i with
  | nil => simp at h
  | cons c xs ih =>
    simp only [List.all_cons, Bool.and_eq_true] at hx
    cases i with
    | zero => exact hx.1
    | succ i =>
      rw [chr_cons_succ]
      exact ih hx.2 i (by simpa using h)

theorem isAN_ne_dash (c : Char) (h : isAN c = true) : c ≠ '-' := by
  intro he
  subst he
  exact absurd h (by decide)

theorem take_at (P Q : Str) (i : Nat) (hi : i = P.length) : (P ++ Q).take i = P := by
  subst hi
  simp

theorem drop_at (P Q : Str) (i : Nat) (hi : i = P.length) : (P ++ Q).drop i = Q := by
  subst hi
  simp

theorem sl_exact (pre mid rest : Str) (i j : Nat) (hi : i = pre.length)
    (hj : j = pre.length + mid.length) :
    sl (pre ++ (mid ++ rest)) i j = mid := by
  subst hi hj
  unfold sl
  rw [← List.append_assoc]
  have h1 : ((pre ++ mid) ++ rest).take (pre.length + mid.length) = pre ++ mid :=
    take_at (pre ++ mid) rest _ (by simp)
  rw [h1]
  exact drop_at pre mid _ rfl

theorem slChk_exact (pre mid rest : Str) (i j : Nat) (hi : i = pre.length)
    (hj : j = pre.length + mid.length) :
    slChk (pre ++ (mid ++ rest)) i j = some mid := by
  unfold slChk
  rw [if_pos ⟨by omega, by simp only [List.length_append]; omega⟩]
  exact congrArg some (sl_exact pre mid rest i j hi hj)

theorem slChk_prefix (s : Str) (j : Nat) (hj : j ≤ s.length) : slChk s 0 j = some (s.take j) := by
  unfold slChk
  rw [if_pos (by omega)]
  rfl

theorem slChk_suffix (s : Str) (i : Nat) (hi : i ≤ s.length) :
    slChk s i s.length = some (s.drop i) := by
  unfold slChk
  rw [if_pos (by omega)]
  unfold sl
  rw [List.take_length]

/-! ### Render lemmas -/

theorem renderToks_nil : renderToks [] = [] := rfl

theorem renderToks_cons (x : Str) (xs : List Str) :
    renderToks (x :: xs) = '-' :: (x ++ renderToks xs) := by
  simp [renderToks, renderTok]

theorem renderToks_append (xs ys : List Str) :
    renderToks (xs ++ ys) = renderToks xs ++ renderToks ys := by
  simp [renderToks]

theorem lenToks_nil : lenToks [] = 0 := rfl

theorem lenToks_cons (x : Str) (xs : List Str) :
    lenToks (x :: xs) = 1 + x.length + lenToks xs := by
  simp [lenToks, renderToks_cons]
  omega

theorem lenToks_append (xs ys : List Str) :
    lenToks (xs ++ ys) = lenToks xs + lenToks ys := by
  simp [lenToks, renderToks_append]

theorem renderKV_eq (k : Str) (cs : List Str) : renderKV (k, cs) = renderToks (k :: cs) := by
  simp [renderKV, renderToks_cons]

theorem renderKVs_nil : renderKVs [] = [] := rfl

theorem renderKVs_cons (kv : Str × List Str) (kvs : List (Str × List Str)) :
    renderKVs (kv :: kvs) = renderKV kv ++ renderKVs kvs := by
  simp [renderKVs]

theorem renderKVs_append (a b : List (Str × List Str)) :
    renderKVs (a ++ b) = renderKVs a ++ renderKVs b := by
  simp [renderKVs]

theorem renderKVs_eq_flat (kvs : List (Str × List Str)) :
    renderKVs kvs = renderToks (flatKVs kvs) := by
  induction kvs with
  | nil => rfl
  | cons kv kvs ih =>
    obtain ⟨k, cs⟩ := kv
    simp only [renderKVs_cons, flatKVs, List.flatMap_cons, renderToks_append, renderKV_eq]
    rw [← flatKVs, ih]

theorem renderBlocks_nil : renderBlocks [] = [] := rfl

theorem renderBlocks_cons (b : Char × List Str) (bs : List (Char × List Str)) :
    renderBlocks (b :: bs) = renderBlock b ++ renderBlocks bs := by
  simp [renderBlocks]

theorem renderBlocks_append (a b : List (Char × List Str)) :
    renderBlocks (a ++ b) = renderBlocks a ++ renderBlocks b := by
  simp [renderBlocks]

theorem splitDash_ne_nil (v : Str) : splitDash v ≠ [] := by
  induction v with
  | nil => simp [splitDash]
  | cons c rest ih =>
    unfold splitDash
    split_ifs
    · simp
    · cases h : splitDash rest <;> simp

theorem joinDash_cons (c : Str) (cs : List Str) (h : cs ≠ []) :
    joinDash (c :: cs) = c ++ '-' :: joinDash cs := by
  cases cs with
  | nil => exact absurd rfl h
  | cons d ds => simp [joinDash]

theorem joinDash_splitDash (v : Str) : joinDash (splitDash v) = v := by
  induction v with
  | nil => rfl
  | cons c rest ih =>
    unfold splitDash
    split_ifs with h
    · subst h
      rw [joinDash_cons [] (splitDash rest) (splitDash_ne_nil rest)]
      simp [ih]
    · rcases hs : splitDash rest with _ | ⟨t, ts⟩
      · exact absurd hs (splitDash_ne_nil rest)
      · rw [hs] at ih
        cases ts with
        | nil => simpa [joinDash] using ih
        | cons u us =>
          rw [joinDash_cons _ _ (by simp)] at ih ⊢
          simp only [List.cons_append, List.append_eq] at ih ⊢
          rw [← ih]

theorem joinDash_eq_head_toks (c : Str) (cs : List Str) :
    joinDash (c :: cs) = c ++ renderToks cs := by
  induction cs generalizing c with
  | nil => simp [joinDash, renderToks_nil]
  | cons d ds ih =>
    rw [joinDash_cons c (d :: ds) (by simp), renderToks_cons, ih d]

theorem renderToks_eq_join (cs : List Str) (h : cs ≠ []) :
    renderToks cs = '-' :: joinDash cs := by
  cases cs with
  | nil => exact absurd rfl h
  | cons c cs => rw [renderToks_cons, joinDash_eq_head_toks]

/-! ### Scanner loop characterizations -/

theorem chr_shift1 (pre : Str) (c : Char) (W : Str) (j q : Nat) (hq : q = pre.length + 1 + j) :
    chr (pre ++ c :: W) q = chr W j := by
  have h := chr_append_right pre (c :: W) (1 + j)
  rw [show pre.length + (1 + j) = q from by omega] at h
  rw [h, show 1 + j = j + 1 from by omega, chr_cons_succ]

theorem scanDash_run : ∀ (k fuel p mx : Nat) (s : Str), k < fuel →
    (∀ i, i < k → p + i < mx ∧ chr s (p + i) ≠ '-') →
    (¬(p + k < mx) ∨ chr s (p + k) = '-') →
    scanDashF fuel s p mx = p + k := by
  intro k
  induction k with
  | zero =>
    intro fuel p mx s hf h1 h2
    cases fuel with
    | zero => omega
    | succ fuel =>
      unfold scanDashF
      split
      · next hcond =>
        simp only [Bool.and_eq_true, decide_eq_true_eq] at hcond
        rcases h2 with h2 | h2
        · exact absurd (show p + 0 < mx by simpa using hcond.1) h2
        · exact absurd (show chr s p = '-' by simpa using h2) hcond.2
      · simp
  | succ k ih =>
    intro fuel p mx s hf h1 h2
    cases fuel with
    | zero => omega
    | succ fuel =>
      unfold scanDashF
      split
      · next hcond =>
        have hrec := ih fuel (p + 1) mx s (by omega)
          (fun i hi => by
            have hh := h1 (i + 1) (by omega)
            rw [show p + (i + 1) = p + 1 + i from by omega] at hh
            exact hh)
          (by
            rcases h2 with h2 | h2
            · left
              rw [show p + 1 + k = p + (k + 1) from by omega]
              exact h2
            · right
              rw [show p + 1 + k = p + (k + 1) from by omega]
              exact h2)
        rw [hrec]
        omega
      · next hcond =>
        have h0 := h1 0 (by omega)
        exact absurd (by
          simp only [Bool.and_eq_true, decide_eq_true_eq]
          exact ⟨by simpa using h0.1, by simpa using h0.2⟩) hcond

theorem nextExt_found : ∀ (k fuel p : Nat) (s : Str), k < fuel →
    (∀ i, i < k → ¬(chr s (p + i) = '-' ∧ chr s (p + i + 2) = '-')) →
    p + k < s.length - 3 → chr s (p + k) = '-' → chr s (p + k + 2) = '-' →
    nextExtF fuel s p = p + k := by
  intro k
  induction k with
  | zero =>
    intro fuel p s hf h1 h2 h3 h4
    cases fuel with
    | zero => omega
    | succ fuel =>
      unfold nextExtF
      rw [if_pos (by simpa using h2),
        if_pos (by
          simp only [Bool.and_eq_true, decide_eq_true_eq]
          exact ⟨by simpa using h3, by simpa using h4⟩)]
      omega
  | succ k ih =>
    intro fuel p s hf h1 h2 h3 h4
    cases fuel with
    | zero => omega
    | succ fuel =>
      unfold nextExtF
      rw [if_pos (by omega),
        if_neg (by
          simp only [Bool.and_eq_true, decide_eq_true_eq, not_and]
          intro ha hb
          exact absurd ⟨by simpa using ha, by simpa using hb⟩ (h1 0 (by omega)))]
      have hrec := ih fuel (p + 1) s (by omega)
        (fun i hi => by
          have hh := h1 (i + 1) (by omega)
          rw [show p + (i + 1) = p + 1 + i from by omega] at hh
          exact hh)
        (by omega)
        (by rw [show p + 1 + k = p + (k + 1) from by omega]; exact h3)
        (by rw [show p + 1 + k + 2 = p + (k + 1) + 2 from by omega]; exact h4)
      rw [hrec]
      omega

theorem nextExt_none : ∀ (k fuel p : Nat) (s : Str), k < fuel →
    (∀ i, i < k → ¬(chr s (p + i) = '-' ∧ chr s (p + i + 2) = '-')) →
    ¬(p + k < s.length - 3) →
    nextExtF fuel s p = s.length := by
  intro k
  induction k with
  | zero =>
    intro fuel p s hf h1 h2
    cases fuel with
    | zero => omega
    | succ fuel =>
      unfold nextExtF
      rw [if_neg (by simpa using h2)]
  | succ k ih =>
    intro fuel p s hf h1 h2
    cases fuel with
    | zero => omega
    | succ fuel =>
      unfold nextExtF
      by_cases hp : p < s.length - 3
      · rw [if_pos hp,
          if_neg (by
            simp only [Bool.and_eq_true, decide_eq_true_eq, not_and]
            intro ha hb
            exact absurd ⟨by simpa using ha, by simpa using hb⟩ (h1 0 (by omega)))]
        exact ih fuel (p + 1) s (by omega)
          (fun i hi => by
            have hh := h1 (i + 1) (by omega)
            rw [show p + (i + 1) = p + 1 + i from by omega] at hh
            exact hh)
          (by omega)
      · rw [if_neg hp]

theorem toks_nb (xs : List Str) (hx : ∀ x ∈ xs, 2 ≤ x.length ∧ x.all isAN = true) :
    ∀ (pre rest : Str) (i : Nat), i < lenToks xs →
      chr (pre ++ (renderToks xs ++ rest)) (pre.length + i) = '-' →
      chr (pre ++ (renderToks xs ++ rest)) (pre.length + i + 2) ≠ '-' := by
  induction xs with
  | nil =>
    intro pre rest i hi
    simp [lenToks_nil] at hi
  | cons x xs ih =>
    intro pre rest i hi hd
    obtain ⟨hx2, hxAN⟩ := hx x (by simp)
    have hs : pre ++ (renderToks (x :: xs) ++ rest)
        = pre ++ '-' :: (x ++ (renderToks xs ++ rest)) := by
      rw [renderToks_cons]
      simp
    rcases Nat.lt_or_ge i (1 + x.length) with hlt | hge
    · cases i with
      | zero =>
        rw [hs, chr_shift1 pre '-' (x ++ (renderToks xs ++ rest)) 1 _ (by omega)]
        rw [chr_append_left _ _ 1 (by omega)]
        exact isAN_ne_dash _ (chr_tok x hxAN 1 (by omega))
      | succ j =>
        rw [hs, chr_shift1 pre '-' (x ++ (renderToks xs ++ rest)) j _ (by omega)] at hd
        rw [chr_append_left _ _ j (by omega)] at hd
        exact absurd hd (isAN_ne_dash _ (chr_tok x hxAN j (by omega)))
    · have hs2 : pre ++ (renderToks (x :: xs) ++ rest)
          = (pre ++ '-' :: x) ++ (renderToks xs ++ rest) := by
        rw [renderToks_cons]
        simp
      have hlen : (pre ++ '-' :: x).length = pre.length + 1 + x.length := by
        simp
        omega
      have hi2 : i - (1 + x.length) < lenToks xs := by
        rw [lenToks_cons] at hi
        omega
      have hd2 : chr ((pre ++ '-' :: x) ++ (renderToks xs ++ rest))
          ((pre ++ '-' :: x).length + (i - (1 + x.length))) = '-' := by
        rw [hlen, show pre.length + 1 + x.length + (i - (1 + x.length)) = pre.length + i
          from by omega, ← hs2]
        exact hd
      have hres := ih (fun y hy => hx y (by simp [hy])) (pre ++ '-' :: x) rest
        (i - (1 + x.length)) hi2 hd2
      rw [hlen, show pre.length + 1 + x.length + (i - (1 + x.length)) + 2 = pre.length + i + 2
        from by omega, ← hs2] at hres
      exact hres

theorem block_nomatch (pre : Str) (c : Char) (subs : List Str) (rest : Str)
    (hc : isAN c = true) (hsubs : ∀ x ∈ subs, 2 ≤ x.length ∧ x.all isAN = true)
    (q : Nat) (hq1 : pre.length + 1 ≤ q) (hq2 : q < pre.length + 2 + lenToks subs) :
    ¬(chr (pre ++ ('-' :: c :: (renderToks subs ++ rest))) q = '-'
      ∧ chr (pre ++ ('-' :: c :: (renderToks subs ++ rest))) (q + 2) = '-') := by
  rintro ⟨h1, h2⟩
  rcases Nat.eq_or_lt_of_le hq1 with he | hlt
  · rw [chr_shift1 pre '-' (c :: (renderToks subs ++ rest)) 0 q (by omega)] at h1
    exact absurd (by simpa using h1) (isAN_ne_dash c hc)
  · have hs : pre ++ ('-' :: c :: (renderToks subs ++ rest))
        = (pre ++ ['-', c]) ++ (renderToks subs ++ rest) := by
      simp
    have hlen : (pre ++ ['-', c]).length = pre.length + 2 := by
      simp
    rw [hs] at h1 h2
    have hidx : q = (pre ++ ['-', c]).length + (q - pre.length - 2) := by
      rw [hlen]
      omega
    rw [hidx] at h1 h2
    exact absurd h2
      (by
        rw [show (pre ++ ['-', c]).length + (q - pre.length - 2) + 2
          = (pre ++ ['-', c]).length + (q - pre.length - 2) + 2 from rfl]
        exact toks_nb subs hsubs (pre ++ ['-', c]) rest (q - pre.length - 2)
          (by rw [hlen] at *; omega) h1)

/-! ### nextExtension over a rendered block -/

theorem lenBlock_eq (c : Char) (subs : List Str) :
    (renderBlock (c, subs)).length = 2 + lenToks subs := by
  simp [renderBlock, lenToks]
  omega

theorem lenBlocks_nil : lenBlocks [] = 0 := rfl

theorem lenBlocks_cons (b : Char × List Str) (bs : List (Char × List Str)) :
    lenBlocks (b :: bs) = (renderBlock b).length + lenBlocks bs := by
  simp [lenBlocks, renderBlocks_cons]

theorem nextExt_block (pre : Str) (c : Char) (subs : List Str) (rest : Str)
    (hc : isAN c = true) (hsubs : ∀ x ∈ subs, 2 ≤ x.length ∧ x.all isAN = true)
    (hrest : rest = [] ∨ ∃ d r2, rest = '-' :: d :: '-' :: r2 ∧ r2 ≠ []) :
    nextExt (pre ++ ('-' :: c :: (renderToks subs ++ rest))) (pre.length + 1) =
      if rest = [] then (pre ++ ('-' :: c :: (renderToks subs ++ rest))).length
      else pre.length + 2 + lenToks subs := by
  have hslen : (pre ++ ('-' :: c :: (renderToks subs ++ rest))).length
      = pre.length + 2 + lenToks subs + rest.length := by
    simp [lenToks]
    omega
  rcases hrest with hr | ⟨d, r2, hr, hr2⟩
  · rw [if_pos hr]
    subst hr
    unfold nextExt
    apply nextExt_none ((pre ++ ('-' :: c :: (renderToks subs ++ []))).length - 3
      - (pre.length + 1)) _ _ _ (by omega)
    · intro i hi
      apply block_nomatch pre c subs [] hc hsubs
      · omega
      · simp only [List.length_nil] at hslen
        omega
    · omega
  · rw [if_neg (by rw [hr]; simp)]
    subst hr
    have hr2len : 1 ≤ r2.length := by
      cases r2 with
      | nil => exact absurd rfl hr2
      | cons a l => simp
    unfold nextExt
    rw [show pre.length + 2 + lenToks subs = pre.length + 1 + (1 + lenToks subs) from by omega]
    apply nextExt_found (1 + lenToks subs) _ _ _ (by omega)
    · intro i hi
      apply block_nomatch pre c subs _ hc hsubs
      · omega
      · omega
    · simp only [List.length_cons] at hslen
      omega
    · have hassoc : pre ++ ('-' :: c :: (renderToks subs ++ ('-' :: d :: '-' :: r2)))
          = (pre ++ '-' :: c :: renderToks subs) ++ '-' :: d :: '-' :: r2 := by
        simp
      rw [hassoc]
      apply chr_concat
      simp [lenToks]
      omega
    · have hassoc : pre ++ ('-' :: c :: (renderToks subs ++ ('-' :: d :: '-' :: r2)))
          = (pre ++ '-' :: c :: renderToks subs ++ ['-', d]) ++ '-' :: r2 := by
        simp
      rw [hassoc]
      apply chr_concat
      simp [lenToks]
      omega

/-! ### Shapes of rendered remainders -/

theorem renderBlocks_shape (bs : List (Char × List Str)) (h : bs ≠ [])
    (hne : ∀ b ∈ bs, b.2 ≠ [] ∧ ∀ x ∈ b.2, 1 ≤ x.length) :
    ∃ d r2, renderBlocks bs = '-' :: d :: '-' :: r2 ∧ r2 ≠ [] := by
  cases bs with
  | nil => exact absurd rfl h
  | cons b bs =>
    obtain ⟨hb1, hb2⟩ := hne b (by simp)
    rcases hsubs : b.2 with _ | ⟨x, xs⟩
    · exact absurd hsubs hb1
    · refine ⟨b.1, (x ++ renderToks xs) ++ renderBlocks bs, ?_, ?_⟩
      · rw [renderBlocks_cons]
        show renderBlock b ++ renderBlocks bs = _
        obtain ⟨c, subs⟩ := b
        simp only at hsubs
        subst hsubs
        rw [show renderBlock (c, x :: xs) = '-' :: c :: renderToks (x :: xs) from rfl,
          renderToks_cons]
        simp
      · have hx := hb2 x (by rw [hsubs]; simp)
        apply List.ne_nil_of_length_pos
        simp only [List.length_append]
        omega

theorem renderU_shape (attrs : List Str) (kvs : List (Str × List Str))
    (h : ¬(attrs = [] ∧ kvs = []))
    (hne : ∀ x ∈ attrs, 1 ≤ x.length) (hkv : ∀ kv ∈ kvs, 1 ≤ kv.1.length) :
    ∃ r2, renderU attrs kvs = '-' :: 'u' :: '-' :: r2 ∧ r2 ≠ [] := by
  have he : renderToks attrs ++ renderKVs kvs = renderToks (attrs ++ flatKVs kvs) := by
    rw [renderToks_append, renderKVs_eq_flat]
  rcases hflat : attrs ++ flatKVs kvs with _ | ⟨x, xs⟩
  · rcases List.append_eq_nil.mp hflat with ⟨ha, hf⟩
    cases kvs with
    | nil => exact absurd ⟨ha, rfl⟩ h
    | cons kv kvs => simp [flatKVs] at hf
  · have hx : 1 ≤ x.length := by
      cases attrs with
      | cons a as =>
        have : x = a := by simpa using congrArg (fun l => l.headD []) hflat.symm
        subst this
        exact hne x (by simp)
      | nil =>
        simp only [List.nil_append] at hflat
        cases kvs with
        | nil => simp [flatKVs] at hflat
        | cons kv kvs2 =>
          have : x = kv.1 := by
            simp [flatKVs] at hflat
            exact hflat.1.symm
          subst this
          exact hkv kv (by simp)
    refine ⟨x ++ renderToks xs, ?_, ?_⟩
    · unfold renderU
      rw [he, hflat, renderToks_cons]
    · apply List.ne_nil_of_length_pos
      simp only [List.length_append]
      omega

/-! ### The extension-search loop on a structured layout -/

theorem findU_step (pre : Str) (c : Char) (subs : List Str) (rest2 : Str) (fuel : Nat)
    (hAN : isAN c = true) (hlt : c < 'u') (hne : subs ≠ [])
    (htok : ∀ x ∈ subs, 2 ≤ x.length ∧ x.all isAN = true)
    (hrest2 : ∃ d r2, rest2 = '-' :: d :: '-' :: r2 ∧ r2 ≠ []) :
    findUF (fuel + 1) (pre ++ (renderBlock (c, subs) ++ rest2)) (pre.length + 1) =
      findUF fuel (pre ++ (renderBlock (c, subs) ++ rest2))
        (pre.length + (renderBlock (c, subs)).length + 1) := by
  obtain ⟨d, r2, hr, hr2⟩ := hrest2
  have hassoc : pre ++ (renderBlock (c, subs) ++ rest2)
      = pre ++ ('-' :: c :: (renderToks subs ++ rest2)) := by
    show pre ++ ('-' :: c :: renderToks subs ++ rest2) = _
    simp
  have hchr : chr (pre ++ (renderBlock (c, subs) ++ rest2)) (pre.length + 1) = c := by
    rw [hassoc]
    exact chr_shift1 pre '-' _ 0 _ (by omega)
  have hlen : (pre ++ (renderBlock (c, subs) ++ rest2)).length
      = pre.length + 2 + lenToks subs + rest2.length := by
    simp [lenBlock_eq]
    omega
  have hr2len : 1 ≤ r2.length := by
    cases r2 with
    | nil => exact absurd rfl hr2
    | cons a l => simp
  have hnx : nextExt (pre ++ (renderBlock (c, subs) ++ rest2)) (pre.length + 1)
      = pre.length + 2 + lenToks subs := by
    rw [hassoc]
    rw [nextExt_block pre c subs rest2 hAN htok (Or.inr ⟨d, r2, hr, hr2⟩)]
    rw [if_neg (by rw [hr]; simp)]
  show (if pre.length + 1 < (pre ++ (renderBlock (c, subs) ++ rest2)).length then _ else _) = _
  rw [if_pos (by rw [hlen]; omega)]
  rw [if_neg (by rw [hchr]; exact fun he => absurd he (Char.ne_of_lt hlt)),
    if_neg (by rw [hchr]; exact fun hgt => absurd hgt (Char.lt_asymm hlt))]
  rw [hnx]
  rw [if_neg (by rw [hlen, hr]; simp; try omega)]
  have hpos : pre.length + (renderBlock (c, subs)).length + 1
      = pre.length + 2 + lenToks subs + 1 := by
    rw [lenBlock_eq]
    omega
  rw [hpos]

theorem findU_u (bs : List (Char × List Str)) : ∀ (pre w : Str) (fuel : Nat),
    (∀ b ∈ bs, isAN b.1 = true ∧ b.1 < 'u' ∧ b.2 ≠ []
      ∧ ∀ x ∈ b.2, 2 ≤ x.length ∧ x.all isAN = true) →
    (∃ r2, w = '-' :: r2 ∧ r2 ≠ []) →
    bs.length < fuel →
    findUF fuel (pre ++ (renderBlocks bs ++ ('-' :: 'u' :: w))) (pre.length + 1) =
      some (Sum.inr (pre.length + lenBlocks bs + 2)) := by
  induction bs with
  | nil =>
    intro pre w fuel hwf hw hf
    cases fuel with
    | zero => omega
    | succ fuel =>
      simp only [renderBlocks_nil, List.nil_append]
      unfold findUF
      have hc : chr (pre ++ '-' :: 'u' :: w) (pre.length + 1) = 'u' := by
        rw [chr_shift1 pre '-' ('u' :: w) 0 _ (by omega)]
        rfl
      rw [if_pos (by simp), if_pos hc]
      rw [show pre.length + lenBlocks [] + 2 = pre.length + 1 + 1 from by
        rw [lenBlocks_nil]]
  | cons b bs ih =>
    intro pre w fuel hwf hw hf
    obtain ⟨c, subs⟩ := b
    obtain ⟨hAN, hlt, hne2, htok⟩ := hwf (c, subs) (by simp)
    cases fuel with
    | zero => simp at hf
    | succ fuel =>
      have hassoc : pre ++ (renderBlocks ((c, subs) :: bs) ++ ('-' :: 'u' :: w))
          = pre ++ (renderBlock (c, subs) ++ (renderBlocks bs ++ ('-' :: 'u' :: w))) := by
        rw [renderBlocks_cons]
        simp
      rw [hassoc]
      have hshape : ∃ d r2, (renderBlocks bs ++ ('-' :: 'u' :: w)) = '-' :: d :: '-' :: r2
          ∧ r2 ≠ [] := by
        cases bs with
        | nil =>
          obtain ⟨r2, hw1, hw2⟩ := hw
          exact ⟨'u', r2, by rw [renderBlocks_nil, hw1]; simp, hw2⟩
        | cons b2 bs2 =>
          obtain ⟨d, r2, hbs, hr2⟩ := renderBlocks_shape (b2 :: bs2) (by simp)
            (fun b hb => ⟨(hwf b (by simp [hb])).2.2.1, fun x hx => by
              have hx2 := (hwf b (by simp [hb])).2.2.2 x hx
              omega⟩)
          refine ⟨d, r2 ++ ('-' :: 'u' :: w), ?_, by simp⟩
          rw [hbs]
          simp
      rw [findU_step pre c subs _ fuel hAN hlt hne2 htok hshape]
      have hassoc2 : pre ++ (renderBlock (c, subs) ++ (renderBlocks bs ++ ('-' :: 'u' :: w)))
          = (pre ++ renderBlock (c, subs)) ++ (renderBlocks bs ++ ('-' :: 'u' :: w)) := by
        simp
      have hposition : pre.length + (renderBlock (c, subs)).length + 1
          = (pre ++ renderBlock (c, subs)).length + 1 := by
        simp
      rw [hassoc2, hposition]
      rw [ih (pre ++ renderBlock (c, subs)) w fuel (fun b hb => hwf b (by simp [hb])) hw
        (by simp at hf ⊢; omega)]
      have heq : (pre ++ renderBlock (c, subs)).length + lenBlocks bs + 2
          = pre.length + lenBlocks ((c, subs) :: bs) + 2 := by
        simp [lenBlocks_cons]
        omega
      rw [heq]

theorem findU_post (bs : List (Char × List Str)) : ∀ (pre : Str) (d : Char) (r2 : Str)
    (fuel : Nat),
    (∀ b ∈ bs, isAN b.1 = true ∧ b.1 < 'u' ∧ b.2 ≠ []
      ∧ ∀ x ∈ b.2, 2 ≤ x.length ∧ x.all isAN = true) →
    'u' < d → r2 ≠ [] →
    bs.length < fuel →
    findUF fuel (pre ++ (renderBlocks bs ++ ('-' :: d :: '-' :: r2))) (pre.length + 1) =
      some (Sum.inl (pre.length + lenBlocks bs, pre.length + lenBlocks bs, false)) := by
  induction bs with
  | nil =>
    intro pre d r2 fuel hwf hd hr2 hf
    cases fuel with
    | zero => omega
    | succ fuel =>
      simp only [renderBlocks_nil, List.nil_append]
      unfold findUF
      have hc : chr (pre ++ '-' :: d :: '-' :: r2) (pre.length + 1) = d := by
        rw [chr_shift1 pre '-' (d :: '-' :: r2) 0 _ (by omega)]
        rfl
      rw [if_pos (by simp),
        if_neg (by rw [hc]; exact fun he => absurd he.symm (Char.ne_of_lt hd)),
        if_pos (by rw [hc]; exact hd)]
      rw [show pre.length + lenBlocks [] = pre.length + 1 - 1 from by
        rw [lenBlocks_nil]; omega]

  | cons b bs ih =>
    intro pre d r2 fuel hwf hd hr2 hf
    obtain ⟨c, subs⟩ := b
    obtain ⟨hAN, hlt, hne2, htok⟩ := hwf (c, subs) (by simp)
    cases fuel with
    | zero => simp at hf
    | succ fuel =>
      have hassoc : pre ++ (renderBlocks ((c, subs) :: bs) ++ ('-' :: d :: '-' :: r2))
          = pre ++ (renderBlock (c, subs) ++ (renderBlocks bs ++ ('-' :: d :: '-' :: r2))) := by
        rw [renderBlocks_cons]
        simp
      rw [hassoc]
      have hshape : ∃ d2 rr, (renderBlocks bs ++ ('-' :: d :: '-' :: r2)) = '-' :: d2 :: '-' :: rr
          ∧ rr ≠ [] := by
        cases bs with
        | nil => exact ⟨d, r2, by rw [renderBlocks_nil]; simp, hr2⟩
        | cons b2 bs2 =>
          obtain ⟨d2, rr, hbs, hrr⟩ := renderBlocks_shape (b2 :: bs2) (by simp)
            (fun b hb => ⟨(hwf b (by simp [hb])).2.2.1, fun x hx => by
              have hx2 := (hwf b (by simp [hb])).2.2.2 x hx
              omega⟩)
          refine ⟨d2, rr ++ ('-' :: d :: '-' :: r2), ?_, by simp⟩
          rw [hbs]
          simp
      rw [findU_step pre c subs _ fuel hAN hlt hne2 htok hshape]
      have hassoc2 : pre ++ (renderBlock (c, subs) ++ (renderBlocks bs ++ ('-' :: d :: '-' :: r2)))
          = (pre ++ renderBlock (c, subs)) ++ (renderBlocks bs ++ ('-' :: d :: '-' :: r2)) := by
        simp
      have hposition : pre.length + (renderBlock (c, subs)).length + 1
          = (pre ++ renderBlock (c, subs)).length + 1 := by
        simp
      rw [hassoc2, hposition]
      rw [ih (pre ++ renderBlock (c, subs)) d r2 fuel (fun b hb => hwf b (by simp [hb])) hd hr2
        (by simp at hf ⊢; omega)]
      have heq : (pre ++ renderBlock (c, subs)).length + lenBlocks bs
          = pre.length + lenBlocks ((c, subs) :: bs) := by
        simp [lenBlocks_cons]
        omega
      rw [heq]

theorem findU_end (bs : List (Char × List Str)) : ∀ (pre : Str) (fuel : Nat),
    (∀ b ∈ bs, isAN b.1 = true ∧ b.1 < 'u' ∧ b.2 ≠ []
      ∧ ∀ x ∈ b.2, 2 ≤ x.length ∧ x.all isAN = true) →
    bs ≠ [] →
    bs.length < fuel →
    findUF fuel (pre ++ renderBlocks bs) (pre.length + 1) =
      some (Sum.inl ((pre ++ renderBlocks bs).length, (pre ++ renderBlocks bs).length, false)) := by
  induction bs with
  | nil =>
    intro pre fuel hwf hne hf
    exact absurd rfl hne
  | cons b bs ih =>
    intro pre fuel hwf hne hf
    obtain ⟨c, subs⟩ := b
    obtain ⟨hAN, hlt, hne2, htok⟩ := hwf (c, subs) (by simp)
    cases fuel with
    | zero => simp at hf
    | succ fuel =>
      cases bs with
      | nil =>
        have hassoc : pre ++ renderBlocks [(c, subs)]
            = pre ++ ('-' :: c :: (renderToks subs ++ [])) := by
          rw [renderBlocks_cons, renderBlocks_nil]
          show pre ++ ('-' :: c :: renderToks subs ++ []) = _
          simp
        rw [hassoc]
        unfold findUF
        have hlen : (pre ++ ('-' :: c :: (renderToks subs ++ []))).length
            = pre.length + 2 + lenToks subs := by
          simp [lenToks]
          omega
        rw [if_pos (by rw [hlen]; omega)]
        rw [if_neg (by
          rw [chr_shift1 pre '-' (c :: (renderToks subs ++ [])) 0 _ (by omega)]
          exact fun he => absurd he (Char.ne_of_lt hlt)),
          if_neg (by
          rw [chr_shift1 pre '-' (c :: (renderToks subs ++ [])) 0 _ (by omega)]
          exact fun hgt => absurd hgt (Char.lt_asymm hlt))]
        rw [nextExt_block pre c subs [] hAN htok (Or.inl rfl)]
        rw [if_pos rfl, if_pos rfl]
      | cons b2 bs2 =>
        have hassoc : pre ++ renderBlocks ((c, subs) :: b2 :: bs2)
            = pre ++ (renderBlock (c, subs) ++ renderBlocks (b2 :: bs2)) := by
          rw [renderBlocks_cons]
        rw [hassoc]
        have hshape : ∃ d2 rr, renderBlocks (b2 :: bs2) = '-' :: d2 :: '-' :: rr ∧ rr ≠ [] :=
          renderBlocks_shape (b2 :: bs2) (by simp)
            (fun b hb => ⟨(hwf b (by simp [hb])).2.2.1, fun x hx => by
              have hx2 := (hwf b (by simp [hb])).2.2.2 x hx
              omega⟩)
        rw [findU_step pre c subs _ fuel hAN hlt hne2 htok hshape]
        have hassoc2 : pre ++ (renderBlock (c, subs) ++ renderBlocks (b2 :: bs2))
            = (pre ++ renderBlock (c, subs)) ++ renderBlocks (b2 :: bs2) := by
          simp
        have hposition : pre.length + (renderBlock (c, subs)).length + 1
            = (pre ++ renderBlock (c, subs)).length + 1 := by
          simp
        rw [hassoc2, hposition]
        rw [ih (pre ++ renderBlock (c, subs)) fuel (fun b hb => hwf b (by simp [hb]))
          (by simp) (by simp at hf ⊢; omega)]

/-! ### The u-block token scan -/

theorem UToksWF_head_attr (t : Str) (ts : List Str) (h : UToksWF (t :: ts))
    (hlen : t.length ≠ 2) :
    3 ≤ t.length ∧ t.length ≤ 8 ∧ t.all isAN = true ∧ UToksWF ts := by
  cases h with
  | attr _ _ h1 h2 h3 h4 => exact ⟨h1, h2, h3, h4⟩
  | kv k c ts2 h1 h2 h3 h4 => exact absurd h1 hlen

theorem UToksWF_head_kv (t : Str) (ts : List Str) (h : UToksWF (t :: ts))
    (hlen : t.length = 2) :
    t.all isAN = true ∧ ∃ c ts2, ts = c :: ts2 ∧ 3 ≤ c.length ∧ c.length ≤ 8
      ∧ c.all isAN = true ∧ UToksWF (c :: ts2) ∧ UToksWF ts2 := by
  cases h with
  | attr _ _ h1 h2 h3 h4 => omega
  | kv k c ts2 h1 h2 h3 h4 =>
    obtain ⟨hc3, hc8, hcAN, hts2⟩ := UToksWF_head_attr c ts2 h4 (by omega)
    exact ⟨h2, c, ts2, rfl, h3, hc8, hcAN, h4, hts2⟩

theorem UToksWF_head_len (t : Str) (ts : List Str) (h : UToksWF (t :: ts)) :
    2 ≤ t.length ∧ t.all isAN = true := by
  cases h with
  | attr _ _ h1 h2 h3 h4 => exact ⟨by omega, h3⟩
  | kv k c ts2 h1 h2 h3 h4 => exact ⟨by omega, h2⟩

theorem uSearchF_unfold (fuel : Nat) (s key : Str) (p : Nat) (curKey : Str) (start : Nat) :
    uSearchF (fuel + 1) s key p curKey start =
      if p + 3 < s.length then
        if chr s (p + 3) = '-' then
          if curKey = key then some (start, p, true)
          else if strLtB key (sl s (p + 1) (p + 3)) then some (p, p, true)
          else
            if scanDashF (s.length + 1) s (p + 7) (min (p + 7 + 5) s.length) = s.length then
              if sl s (p + 1) (p + 3) = key then
                some (p + 4, scanDashF (s.length + 1) s (p + 7) (min (p + 7 + 5) s.length), true)
              else
                some (scanDashF (s.length + 1) s (p + 7) (min (p + 7 + 5) s.length),
                  scanDashF (s.length + 1) s (p + 7) (min (p + 7 + 5) s.length), true)
            else if scanDashF (s.length + 1) s (p + 7) (min (p + 7 + 5) s.length) + 2
                < s.length then
              if chr s (scanDashF (s.length + 1) s (p + 7) (min (p + 7 + 5) s.length) + 2)
                  = '-' then
                if sl s (p + 1) (p + 3) = key then
                  some (p + 4, scanDashF (s.length + 1) s (p + 7) (min (p + 7 + 5) s.length),
                    true)
                else
                  some (scanDashF (s.length + 1) s (p + 7) (min (p + 7 + 5) s.length),
                    scanDashF (s.length + 1) s (p + 7) (min (p + 7 + 5) s.length), true)
              else uSearchF fuel s key
                (scanDashF (s.length + 1) s (p + 7) (min (p + 7 + 5) s.length))
                (sl s (p + 1) (p + 3)) (p + 4)
            else none
        else
          if scanDashF (s.length + 1) s (p + 4) (min (p + 4 + 5) s.length) = s.length then
            if curKey = key then
              some (start, scanDashF (s.length + 1) s (p + 4) (min (p + 4 + 5) s.length), true)
            else
              some (scanDashF (s.length + 1) s (p + 4) (min (p + 4 + 5) s.length),
                scanDashF (s.length + 1) s (p + 4) (min (p + 4 + 5) s.length), true)
          else if scanDashF (s.length + 1) s (p + 4) (min (p + 4 + 5) s.length) + 2
              < s.length then
            if chr s (scanDashF (s.length + 1) s (p + 4) (min (p + 4 + 5) s.length) + 2)
                = '-' then
              if curKey = key then
                some (start, scanDashF (s.length + 1) s (p + 4) (min (p + 4 + 5) s.length),
                  true)
              else
                some (scanDashF (s.length + 1) s (p + 4) (min (p + 4 + 5) s.length),
                  scanDashF (s.length + 1) s (p + 4) (min (p + 4 + 5) s.length), true)
            else uSearchF fuel s key
              (scanDashF (s.length + 1) s (p + 4) (min (p + 4 + 5) s.length)) curKey start
          else none
      else none := rfl

theorem uSpec_attr (key t : Str) (ts : List Str) (p : Nat) (cur : Str) (st : Nat)
    (h : t.length ≠ 2) :
    uSpec key (t :: ts) p cur st = uSpec key ts (p + 1 + t.length) cur st := by
  cases ts with
  | nil => simp [uSpec, h]
  | cons c ts2 => simp [uSpec, h]

theorem uSpec_key_cons (key t c : Str) (ts2 : List Str) (p : Nat) (cur : Str) (st : Nat)
    (h : t.length = 2) :
    uSpec key (t :: c :: ts2) p cur st =
      if cur = key then (st, p, true)
      else if strLtB key t then (p, p, true)
      else uSpec key ts2 (p + 4 + c.length) t (p + 4) := by
  simp [uSpec, h]

theorem uSpec_nil (key : Str) (p : Nat) (cur : Str) (st : Nat) :
    uSpec key [] p cur st = if cur = key then (st, p, true) else (p, p, true) := by
  simp [uSpec]

theorem uSearch_model : ∀ (n : Nat) (toks : List Str), toks.length ≤ n →
    ∀ (pre tl cur key : Str) (st fuel : Nat),
    UToksWF toks → toks ≠ [] →
    (tl = [] ∨ ∃ d r2, tl = '-' :: d :: '-' :: r2 ∧ r2 ≠ []) →
    (pre ++ (renderToks toks ++ tl)).length - pre.length < fuel →
    uSearchF fuel (pre ++ (renderToks toks ++ tl)) key pre.length cur st =
      some (uSpec key toks pre.length cur st) := by
  intro n
  induction n with
  | zero =>
    intro toks hlen pre tl cur key st fuel hwf hne htl hfuel
    cases toks with
    | nil => exact absurd rfl hne
    | cons t ts => simp at hlen
  | succ n ihn =>
    intro toks hlen pre tl cur key st fuel hwf hne htl hfuel
    cases toks with
    | nil => exact absurd rfl hne
    | cons t ts =>
    cases fuel with
    | zero => omega
    | succ fuel =>
    by_cases hkt : t.length = 2
    · -- a key token, necessarily followed by a component
      obtain ⟨htAN, c, ts2, hts, hc3, hc8, hcAN, hwfcts, hwfts2⟩ := UToksWF_head_kv t ts hwf hkt
      subst hts
      have hsK : pre ++ (renderToks (t :: c :: ts2) ++ tl)
          = (pre ++ '-' :: t) ++ ('-' :: (c ++ (renderToks ts2 ++ tl))) := by
        rw [renderToks_cons, renderToks_cons]
        simp
      have hlenpre1 : (pre ++ '-' :: t).length = pre.length + 1 + t.length := by
        simp
        omega
      have hlenS : (pre ++ (renderToks (t :: c :: ts2) ++ tl)).length
          = pre.length + 4 + c.length + lenToks ts2 + tl.length := by
        rw [hsK]
        simp [lenToks]
        omega
      have hchr3 : chr (pre ++ (renderToks (t :: c :: ts2) ++ tl)) (pre.length + 3) = '-' := by
        rw [hsK]
        apply chr_concat
        rw [hlenpre1]
        omega
      have hsl : sl (pre ++ (renderToks (t :: c :: ts2) ++ tl)) (pre.length + 1)
          (pre.length + 3) = t := by
        have hsK2 : pre ++ (renderToks (t :: c :: ts2) ++ tl)
            = (pre ++ ['-']) ++ (t ++ ('-' :: (c ++ (renderToks ts2 ++ tl)))) := by
          rw [renderToks_cons, renderToks_cons]
          simp
        rw [hsK2]
        apply sl_exact
        · simp
        · simp
          omega
      rw [uSearchF_unfold, if_pos (by rw [hlenS]; omega), if_pos hchr3, hsl]
      by_cases hck : cur = key
      · rw [if_pos hck, uSpec_key_cons key t c ts2 pre.length cur st hkt, if_pos hck]
      rw [if_neg hck]
      by_cases hlt : strLtB key t = true
      · rw [if_pos hlt, uSpec_key_cons key t c ts2 pre.length cur st hkt, if_neg hck,
          if_pos hlt]
      rw [if_neg hlt, uSpec_key_cons key t c ts2 pre.length cur st hkt, if_neg hck,
        if_neg hlt]
      -- the component scan
      have hsK3 : pre ++ (renderToks (t :: c :: ts2) ++ tl)
          = (pre ++ '-' :: t ++ ['-']) ++ (c ++ (renderToks ts2 ++ tl)) := by
        rw [renderToks_cons, renderToks_cons]
        simp
      have hlenpre4 : (pre ++ '-' :: t ++ ['-']).length = pre.length + 4 := by
        simp
        omega
      have hchrc : ∀ j, j < c.length →
          chr (pre ++ (renderToks (t :: c :: ts2) ++ tl)) (pre.length + 4 + j) = chr c j := by
        intro j hj
        rw [hsK3, show pre.length + 4 + j = (pre ++ '-' :: t ++ ['-']).length + j from by
          rw [hlenpre4], chr_append_right, chr_append_left _ _ j hj]
      have hscan : (¬(pre.length + 4 + c.length <
            min (pre.length + 7 + 5) (pre ++ (renderToks (t :: c :: ts2) ++ tl)).length)
          ∨ chr (pre ++ (renderToks (t :: c :: ts2) ++ tl)) (pre.length + 4 + c.length)
            = '-') →
          scanDashF ((pre ++ (renderToks (t :: c :: ts2) ++ tl)).length + 1)
            (pre ++ (renderToks (t :: c :: ts2) ++ tl)) (pre.length + 7)
            (min (pre.length + 7 + 5) (pre ++ (renderToks (t :: c :: ts2) ++ tl)).length)
          = pre.length + 4 + c.length := by
        intro hstop
        rw [show pre.length + 4 + c.length = pre.length + 7 + (c.length - 3) from by omega]
        apply scanDash_run _ _ _ _ _ (by rw [hlenS]; omega)
        · intro i hi
          refine ⟨Nat.lt_min.mpr ⟨by omega, by rw [hlenS]; omega⟩, ?_⟩
          rw [show pre.length + 7 + i = pre.length + 4 + (3 + i) from by omega,
            hchrc (3 + i) (by omega)]
          exact isAN_ne_dash _ (chr_tok c hcAN (3 + i) (by omega))
        · rw [show pre.length + 7 + (c.length - 3) = pre.length + 4 + c.length from by omega]
          exact hstop
      have hpre5 : (pre ++ '-' :: t ++ '-' :: c).length = pre.length + 4 + c.length := by
        simp
        omega
      rcases hts2 : ts2 with _ | ⟨t3, ts3⟩
      · subst hts2
        rcases htl with htl0 | ⟨d, r2, htl1, htl2⟩
        · -- last pair, end of string
          subst htl0
          have hq := hscan (Or.inl (by
            intro hcontra
            have h2 := (Nat.lt_min.mp hcontra).2
            rw [hlenS] at h2
            simp only [lenToks_nil, List.length_nil] at h2
            omega))
          rw [hq, if_pos (by rw [hlenS]; simp only [lenToks_nil, List.length_nil]; omega)]
          rw [uSpec_nil]
          by_cases htk : t = key
          · rw [if_pos htk, if_pos htk]
          · rw [if_neg htk, if_neg htk]
        · -- last pair, another block follows
          subst htl1
          have hsE : pre ++ (renderToks (t :: c :: []) ++ ('-' :: d :: '-' :: r2))
              = (pre ++ '-' :: t ++ '-' :: c) ++ '-' :: d :: '-' :: r2 := by
            rw [renderToks_cons, renderToks_cons, renderToks_nil]
            simp
          have h1r2 : 1 ≤ r2.length := by
            cases r2 with
            | nil => exact absurd rfl htl2
            | cons a l => simp
          have hq := hscan (Or.inr (by
            rw [hsE]
            exact chr_concat _ '-' _ _ hpre5.symm))
          rw [hq]
          rw [if_neg (by
            rw [hlenS]
            simp only [lenToks_nil, List.length_cons]
            omega)]
          rw [if_pos (by
            rw [hlenS]
            simp only [lenToks_nil, List.length_cons]
            omega)]
          have hchrq2 : chr (pre ++ (renderToks (t :: c :: []) ++ ('-' :: d :: '-' :: r2)))
              (pre.length + 4 + c.length + 2) = '-' := by
            rw [show pre ++ (renderToks (t :: c :: []) ++ ('-' :: d :: '-' :: r2))
                = ((pre ++ '-' :: t ++ '-' :: c) ++ ['-', d]) ++ '-' :: r2 from by
              rw [renderToks_cons, renderToks_cons, renderToks_nil]
              simp]
            apply chr_concat
            simp
            omega
          rw [if_pos hchrq2, uSpec_nil]
          by_cases htk : t = key
          · rw [if_pos htk, if_pos htk]
          · rw [if_neg htk, if_neg htk]
      · -- more pairs follow after this component
        subst hts2
        obtain ⟨ht3len, ht3AN⟩ := UToksWF_head_len t3 ts3 hwfts2
        have hsK4 : pre ++ (renderToks (t :: c :: t3 :: ts3) ++ tl)
            = (pre ++ '-' :: t ++ '-' :: c) ++ ('-' :: (t3 ++ (renderToks ts3 ++ tl))) := by
          rw [renderToks_cons, renderToks_cons, renderToks_cons]
          simp
        have hq := hscan (Or.inr (by
          rw [hsK4]
          exact chr_concat _ '-' _ _ hpre5.symm))
        rw [hq]
        have hlen4 : (pre ++ (renderToks (t :: c :: t3 :: ts3) ++ tl)).length
            = pre.length + 4 + c.length + (1 + t3.length + lenToks ts3) + tl.length := by
          rw [hlenS, lenToks_cons]
          try omega
        rw [if_neg (by rw [hlen4]; omega)]
        rw [if_pos (by rw [hlen4]; omega)]
        have hchrq2 : chr (pre ++ (renderToks (t :: c :: t3 :: ts3) ++ tl))
            (pre.length + 4 + c.length + 2) = chr t3 1 := by
          rw [hsK4, chr_shift1 (pre ++ '-' :: t ++ '-' :: c) '-' _ 1 _ (by rw [hpre5]; try omega),
            chr_append_left _ _ 1 (by omega)]
        rw [if_neg (by
          rw [hchrq2]
          exact isAN_ne_dash _ (chr_tok t3 ht3AN 1 (by omega)))]
        have hsD : (pre ++ '-' :: t ++ '-' :: c) ++ (renderToks (t3 :: ts3) ++ tl)
            = pre ++ (renderToks (t :: c :: t3 :: ts3) ++ tl) := by
          simp [renderToks_cons]
        have hrec := ihn (t3 :: ts3) (by simp at hlen ⊢; omega)
          (pre ++ '-' :: t ++ '-' :: c) tl t key (pre.length + 4) fuel
          hwfts2 (by simp) htl
          (by rw [hsD, hpre5, hlen4]; omega)
        rw [hsD, hpre5] at hrec
        rw [hrec]
    · -- an attribute or type component
      obtain ⟨ht3, ht8, htAN, hwfts⟩ := UToksWF_head_attr t ts hwf hkt
      have hsA : pre ++ (renderToks (t :: ts) ++ tl)
          = pre ++ '-' :: (t ++ (renderToks ts ++ tl)) := by
        rw [renderToks_cons]
        simp
      have hlenS : (pre ++ (renderToks (t :: ts) ++ tl)).length
          = pre.length + 1 + t.length + lenToks ts + tl.length := by
        rw [hsA]
        simp [lenToks]
        omega
      have htokchr : ∀ j, j < t.length →
          chr (pre ++ (renderToks (t :: ts) ++ tl)) (pre.length + 1 + j) = chr t j := by
        intro j hj
        rw [hsA, chr_shift1 pre '-' _ j _ (by omega), chr_append_left _ _ j hj]
      have hchr3 : chr (pre ++ (renderToks (t :: ts) ++ tl)) (pre.length + 3) = chr t 2 := by
        rw [show pre.length + 3 = pre.length + 1 + 2 from by omega]
        exact htokchr 2 (by omega)
      rw [uSearchF_unfold, if_pos (by rw [hlenS]; omega)]
      rw [if_neg (by rw [hchr3]; exact isAN_ne_dash _ (chr_tok t htAN 2 (by omega)))]
      rw [uSpec_attr key t ts pre.length cur st hkt]
      have hlenpre1 : (pre ++ '-' :: t).length = pre.length + 1 + t.length := by
        simp
        omega
      have hscan : (¬(pre.length + 1 + t.length <
            min (pre.length + 4 + 5) (pre ++ (renderToks (t :: ts) ++ tl)).length)
          ∨ chr (pre ++ (renderToks (t :: ts) ++ tl)) (pre.length + 1 + t.length) = '-') →
          scanDashF ((pre ++ (renderToks (t :: ts) ++ tl)).length + 1)
            (pre ++ (renderToks (t :: ts) ++ tl)) (pre.length + 4)
            (min (pre.length + 4 + 5) (pre ++ (renderToks (t :: ts) ++ tl)).length)
          = pre.length + 1 + t.length := by
        intro hstop
        rw [show pre.length + 1 + t.length = pre.length + 4 + (t.length - 3) from by omega]
        apply scanDash_run _ _ _ _ _ (by rw [hlenS]; omega)
        · intro i hi
          refine ⟨Nat.lt_min.mpr ⟨by omega, by rw [hlenS]; omega⟩, ?_⟩
          rw [show pre.length + 4 + i = pre.length + 1 + (3 + i) from by omega,
            htokchr (3 + i) (by omega)]
          exact isAN_ne_dash _ (chr_tok t htAN (3 + i) (by omega))
        · rw [show pre.length + 4 + (t.length - 3) = pre.length + 1 + t.length from by omega]
          exact hstop
      rcases hts : ts with _ | ⟨t2, ts2⟩
      · subst hts
        rcases htl with htl0 | ⟨d, r2, htl1, htl2⟩
        · -- last token, end of string
          subst htl0
          have hq := hscan (Or.inl (by
            intro hcontra
            have h2 := (Nat.lt_min.mp hcontra).2
            rw [hlenS] at h2
            simp only [lenToks_nil, List.length_nil] at h2
            omega))
          rw [hq, if_pos (by rw [hlenS]; simp only [lenToks_nil, List.length_nil]; omega)]
          rw [uSpec_nil]
          by_cases hck : cur = key
          · rw [if_pos hck, if_pos hck]
          · rw [if_neg hck, if_neg hck]
        · -- last token, another block follows
          subst htl1
          have h1r2 : 1 ≤ r2.length := by
            cases r2 with
            | nil => exact absurd rfl htl2
            | cons a l => simp
          have hq := hscan (Or.inr (by
            rw [show pre ++ (renderToks [t] ++ ('-' :: d :: '-' :: r2))
                = (pre ++ '-' :: t) ++ '-' :: d :: '-' :: r2 from by
              rw [renderToks_cons, renderToks_nil]
              simp]
            exact chr_concat _ '-' _ _ hlenpre1.symm))
          rw [hq]
          rw [if_neg (by
            rw [hlenS]
            simp only [lenToks_nil, List.length_cons]
            omega)]
          rw [if_pos (by
            rw [hlenS]
            simp only [lenToks_nil, List.length_cons]
            omega)]
          have hchrq2 : chr (pre ++ (renderToks [t] ++ ('-' :: d :: '-' :: r2)))
              (pre.length + 1 + t.length + 2) = '-' := by
            rw [show pre ++ (renderToks [t] ++ ('-' :: d :: '-' :: r2))
                = ((pre ++ '-' :: t) ++ ['-', d]) ++ '-' :: r2 from by
              rw [renderToks_cons, renderToks_nil]
              simp]
            apply chr_concat
            simp
            omega
          rw [if_pos hchrq2, uSpec_nil]
          by_cases hck : cur = key
          · rw [if_pos hck, if_pos hck]
          · rw [if_neg hck, if_neg hck]
      · -- another u token follows
        subst hts
        obtain ⟨ht2len, ht2AN⟩ := UToksWF_head_len t2 ts2 hwfts
        have hsC : pre ++ (renderToks (t :: t2 :: ts2) ++ tl)
            = (pre ++ '-' :: t) ++ ('-' :: (t2 ++ (renderToks ts2 ++ tl))) := by
          rw [renderToks_cons, renderToks_cons]
          simp
        have hq := hscan (Or.inr (by
          rw [hsC]
          exact chr_concat _ '-' _ _ hlenpre1.symm))
        rw [hq]
        have hlen4 : (pre ++ (renderToks (t :: t2 :: ts2) ++ tl)).length
            = pre.length + 1 + t.length + (1 + t2.length + lenToks ts2) + tl.length := by
          rw [hlenS, lenToks_cons]
          try omega
        rw [if_neg (by rw [hlen4]; omega)]
        rw [if_pos (by rw [hlen4]; omega)]
        have hchrq2 : chr (pre ++ (renderToks (t :: t2 :: ts2) ++ tl))
            (pre.length + 1 + t.length + 2) = chr t2 1 := by
          rw [hsC, chr_shift1 (pre ++ '-' :: t) '-' _ 1 _ (by rw [hlenpre1]; try omega),
            chr_append_left _ _ 1 (by omega)]
        rw [if_neg (by
          rw [hchrq2]
          exact isAN_ne_dash _ (chr_tok t2 ht2AN 1 (by omega)))]
        have hsD : (pre ++ '-' :: t) ++ (renderToks (t2 :: ts2) ++ tl)
            = pre ++ (renderToks (t :: t2 :: ts2) ++ tl) := by
          simp [renderToks_cons]
        have hrec := ihn (t2 :: ts2) (by simp at hlen ⊢; omega)
          (pre ++ '-' :: t) tl cur key st fuel
          hwfts (by simp) htl
          (by rw [hsD, hlenpre1, hlen4]; omega)
        rw [hsD, hlenpre1] at hrec
        rw [hrec]

/-! ### From the flat token scan to the key/value scan -/

theorem uSpec_comps (key : Str) (cs : List Str) : ∀ (rest : List Str) (p : Nat) (cur : Str)
    (st : Nat), (∀ x ∈ cs, 3 ≤ x.length) →
    uSpec key (cs ++ rest) p cur st = uSpec key rest (p + lenToks cs) cur st := by
  induction cs with
  | nil =>
    intro rest p cur st h
    simp [lenToks_nil]
  | cons c cs ih =>
    intro rest p cur st h
    have hc := h c (by simp)
    rw [List.cons_append, uSpec_attr key c _ p cur st (by omega),
      ih rest _ cur st (fun x hx => h x (by simp [hx])),
      show p + 1 + c.length + lenToks cs = p + lenToks (c :: cs) from by
        rw [lenToks_cons]; omega]

theorem kvOK_props (kv : Str × List Str) (h : kvOK kv = true) :
    kv.1.length = 2 ∧ kv.1.all isAN = true ∧ kv.2 ≠ []
      ∧ ∀ x ∈ kv.2, 3 ≤ x.length ∧ x.length ≤ 8 ∧ x.all isAN = true := by
  unfold kvOK at h
  simp only [Bool.and_eq_true, List.all_eq_true, beq_iff_eq] at h
  obtain ⟨⟨⟨h1, h2⟩, h3⟩, h4⟩ := h
  refine ⟨h1, List.all_eq_true.mpr h2, by simpa using h3, fun x hx => ?_⟩
  have h5 := h4 x hx
  unfold tokOK at h5
  simp only [Bool.and_eq_true, decide_eq_true_eq] at h5
  exact ⟨h5.1.1, h5.1.2, h5.2⟩

theorem uSpec_kvs (key : Str) (kvs : List (Str × List Str)) : ∀ (p : Nat) (cur : Str) (st : Nat),
    (∀ kv ∈ kvs, kvOK kv = true) →
    uSpec key (flatKVs kvs) p cur st = kvScan key kvs p cur st := by
  induction kvs with
  | nil =>
    intro p cur st h
    simp [flatKVs, uSpec, kvScan]
  | cons kv kvs ih =>
    intro p cur st h
    obtain ⟨hk2, hkAN, hcs, hcs3⟩ := kvOK_props kv (h kv (by simp))
    obtain ⟨k, cs⟩ := kv
    rcases hcs' : cs with _ | ⟨c, cs2⟩
    · exact absurd hcs' hcs
    subst hcs'
    have hflat : flatKVs ((k, c :: cs2) :: kvs) = k :: c :: (cs2 ++ flatKVs kvs) := by
      simp [flatKVs]
    rw [hflat, uSpec_key_cons key k c (cs2 ++ flatKVs kvs) p cur st hk2]
    by_cases hck : cur = key
    · simp [kvScan, hck]
    by_cases hlt : strLtB key k = true
    · simp [kvScan, hck, hlt]
    · rw [if_neg hck, if_neg hlt]
      have hstep : kvScan key ((k, c :: cs2) :: kvs) p cur st
          = kvScan key kvs (p + 3 + lenToks (c :: cs2)) k (p + 4) := by
        simp [kvScan, hck, hlt]
      rw [hstep,
        uSpec_comps key cs2 (flatKVs kvs) _ k _ (fun x hx => (hcs3 x (by simp [hx])).1),
        ih _ k _ (fun kv2 hkv2 => h kv2 (by simp [hkv2])),
        show p + 4 + c.length + lenToks cs2 = p + 3 + lenToks (c :: cs2) from by
          rw [lenToks_cons]; omega]

/-! ### Well-formedness adapters -/

theorem blockOK_props (b : Char × List Str) (h : blockOK b = true) :
    isAN b.1 = true ∧ b.2 ≠ [] ∧ ∀ x ∈ b.2, 2 ≤ x.length ∧ x.length ≤ 8 ∧ x.all isAN = true := by
  unfold blockOK at h
  simp only [Bool.and_eq_true, List.all_eq_true] at h
  obtain ⟨⟨h1, h2⟩, h3⟩ := h
  refine ⟨h1, by simpa using h2, fun x hx => ?_⟩
  have h5 := h3 x hx
  unfold tokOK at h5
  simp only [Bool.and_eq_true, decide_eq_true_eq] at h5
  exact ⟨h5.1.1, h5.1.2, h5.2⟩

theorem xBlockOK_props (b : Char × List Str) (h : xBlockOK b = true) :
    isAN b.1 = true ∧ b.2 ≠ [] ∧ ∀ x ∈ b.2, 1 ≤ x.length ∧ x.length ≤ 8 ∧ x.all isAN = true := by
  unfold xBlockOK at h
  simp only [Bool.and_eq_true, List.all_eq_true] at h
  obtain ⟨⟨h1, h2⟩, h3⟩ := h
  refine ⟨h1, by simpa using h2, fun x hx => ?_⟩
  have h5 := h3 x hx
  unfold tokOK at h5
  simp only [Bool.and_eq_true, decide_eq_true_eq] at h5
  exact ⟨h5.1.1, h5.1.2, h5.2⟩

theorem UToksWF_append_comps (cs : List Str) (rest : List Str)
    (hcs : ∀ x ∈ cs, 3 ≤ x.length ∧ x.length ≤ 8 ∧ x.all isAN = true)
    (hrest : UToksWF rest) : UToksWF (cs ++ rest) := by
  induction cs with
  | nil => simpa
  | cons c cs ih =>
    obtain ⟨h1, h2, h3⟩ := hcs c (by simp)
    exact UToksWF.attr c _ h1 h2 h3 (ih (fun x hx => hcs x (by simp [hx])))

theorem UToksWF_flatKVs (kvs : List (Str × List Str))
    (h : ∀ kv ∈ kvs, kvOK kv = true) : UToksWF (flatKVs kvs) := by
  induction kvs with
  | nil => exact UToksWF.nil
  | cons kv kvs ih =>
    obtain ⟨h1, h2, h3, h4⟩ := kvOK_props kv (h kv (by simp))
    rcases hc : kv.2 with _ | ⟨c, cs2⟩
    · exact absurd hc h3
    have hflat : flatKVs (kv :: kvs) = kv.1 :: c :: (cs2 ++ flatKVs kvs) := by
      simp [flatKVs, hc]
    rw [hflat]
    apply UToksWF.kv _ c _ h1 h2 (h4 c (by rw [hc]; simp)).1
    have hrest : UToksWF ((c :: cs2) ++ flatKVs kvs) :=
      UToksWF_append_comps (c :: cs2) _ (fun x hx => h4 x (by rw [hc]; exact hx))
        (ih fun kv2 hkv2 => h kv2 (by simp [hkv2]))
    simpa using hrest

theorem blocks_count_le (bs : List (Char × List Str)) : bs.length ≤ lenBlocks bs := by
  induction bs with
  | nil => simp [lenBlocks_nil]
  | cons b bs ih =>
    rw [lenBlocks_cons]
    have hb : 1 ≤ (renderBlock b).length := by
      simp [renderBlock]
    simp only [List.length_cons]
    omega

theorem renderBlocks_shape_head (b : Char × List Str) (bs : List (Char × List Str))
    (h1 : b.2 ≠ []) (h2 : ∀ x ∈ b.2, 1 ≤ x.length) :
    ∃ r2, renderBlocks (b :: bs) = '-' :: b.1 :: '-' :: r2 ∧ r2 ≠ [] := by
  rcases hsubs : b.2 with _ | ⟨x, xs⟩
  · exact absurd hsubs h1
  refine ⟨x ++ (renderToks xs ++ renderBlocks bs), ?_, ?_⟩
  · rw [renderBlocks_cons]
    obtain ⟨c, subs⟩ := b
    simp only at hsubs
    subst hsubs
    rw [show renderBlock (c, x :: xs) = '-' :: c :: renderToks (x :: xs) from rfl,
      renderToks_cons]
    simp
  · have hx := h2 x (by rw [hsubs]; simp)
    apply List.ne_nil_of_length_pos
    simp only [List.length_append]
    omega

theorem lenBlocks_pos (b : Char × List Str) (bs : List (Char × List Str)) :
    1 ≤ lenBlocks (b :: bs) := by
  rw [lenBlocks_cons]
  have hb : 1 ≤ (renderBlock b).length := by simp [renderBlock]
  omega

/-! ### Extracting the §3 invariants from a well-formed layout -/

theorem wf_core (L : Layout) (h : L.wf = true) : 1 ≤ L.core.length := by
  unfold Layout.wf at h
  simp only [Bool.and_eq_true, decide_eq_true_eq] at h
  exact h.1.1.1.1.1.1.1.1

theorem wf_preWF (L : Layout) (h : L.wf = true) :
    ∀ b ∈ L.pre, isAN b.1 = true ∧ b.1 < 'u' ∧ b.2 ≠ []
      ∧ ∀ x ∈ b.2, 2 ≤ x.length ∧ x.all isAN = true := by
  unfold Layout.wf at h
  simp only [Bool.and_eq_true] at h
  intro b hb
  have hb3 := List.all_eq_true.mp h.1.1.1.1.1.1.2 b hb
  simp only [Bool.and_eq_true, decide_eq_true_eq] at hb3
  obtain ⟨q1, q2, q3⟩ := blockOK_props b hb3.1
  exact ⟨q1, hb3.2, q2, fun x hx => ⟨(q3 x hx).1, (q3 x hx).2.2⟩⟩

theorem wf_postWF (L : Layout) (h : L.wf = true) :
    ∀ b ∈ L.post, 'u' < b.1 ∧ b.2 ≠ [] ∧ ∀ x ∈ b.2, 1 ≤ x.length := by
  unfold Layout.wf at h
  simp only [Bool.and_eq_true] at h
  intro b hb
  have hb6 := List.all_eq_true.mp h.1.1.1.2 b hb
  simp only [Bool.and_eq_true, decide_eq_true_eq] at hb6
  refine ⟨hb6.1, ?_⟩
  have hb7 := hb6.2
  by_cases hx : b.1 = 'x'
  · rw [if_pos hx] at hb7
    obtain ⟨-, q2, q3⟩ := xBlockOK_props b hb7
    exact ⟨q2, fun y hy => (q3 y hy).1⟩
  · rw [if_neg hx] at hb7
    obtain ⟨-, q2, q3⟩ := blockOK_props b hb7
    exact ⟨q2, fun y hy => by have := (q3 y hy).1; omega⟩

theorem wf_ubWF (L : Layout) (a : List Str) (k : List (Str × List Str))
    (h : L.wf = true) (hub : L.ub = some (a, k)) :
    (∀ x ∈ a, 3 ≤ x.length ∧ x.length ≤ 8 ∧ x.all isAN = true)
      ∧ (∀ kv ∈ k, kvOK kv = true) ∧ sortedKeys k = true ∧ ¬(a = [] ∧ k = []) := by
  unfold Layout.wf at h
  rw [hub] at h
  simp only [Bool.and_eq_true] at h
  obtain ⟨⟨⟨hd1, hd2⟩, hd3⟩, hd4⟩ := h.1.1.1.1.2
  refine ⟨fun x hx => ?_, List.all_eq_true.mp hd2, hd3, ?_⟩
  · have h5 := List.all_eq_true.mp hd1 x hx
    unfold tokOK at h5
    simp only [Bool.and_eq_true, decide_eq_true_eq] at h5
    exact ⟨h5.1.1, h5.1.2, h5.2⟩
  · rintro ⟨ha, hk2⟩
    subst ha
    subst hk2
    simp [List.isEmpty] at hd4

/-! ### The master characterization of findTypeForKey on a valid layout -/

theorem find_model (t : Tag) (L : Layout) (key : Str)
    (hwf : L.wf = true) (hstr : t.str = L.render)
    (hpe : t.pExt = L.core.length + lenToks L.variants) (hk : key.length = 2) :
    findTypeForKey t key = some (findSpec L t.pExt t.str.length key) := by
  have hcore := wf_core L hwf
  have hpreWF := wf_preWF L hwf
  have hpostWF := wf_postWF L hwf
  have hpre0 : (L.core ++ renderToks L.variants).length = t.pExt := by
    rw [List.length_append, hpe]
    rfl
  have hne0 : t.pExt ≠ 0 := by omega
  rcases hub : L.ub with _ | ⟨a, k⟩
  · rcases hpostE : L.post with _ | ⟨pb, post2⟩
    · rcases hpreE : L.pre with _ | ⟨b, pre2⟩
      · -- no extension at all: the guard fires with p = len
        have hs : t.str = L.core ++ renderToks L.variants := by
          rw [hstr]
          unfold Layout.render Layout.renderSuffix
          rw [hub, hpreE, hpostE, renderBlocks_nil]
          simp
        have hlen : t.str.length = t.pExt := by rw [hs, hpre0]
        simp only [findTypeForKey]
        rw [if_pos (by simp [hlen])]
        simp [findSpec, hub, hpostE, hlen]
      · -- blocks below u only: the loop runs off the end of the string
        have hs : t.str = (L.core ++ renderToks L.variants) ++ renderBlocks L.pre := by
          rw [hstr]
          unfold Layout.render Layout.renderSuffix
          rw [hub, hpostE, renderBlocks_nil]
          simp
        have hlenB : 1 ≤ lenBlocks L.pre := by rw [hpreE]; exact lenBlocks_pos b pre2
        have hlen : t.str.length = t.pExt + lenBlocks L.pre := by
          rw [hs, List.length_append, hpre0]
          rfl
        have hlt : t.pExt < t.str.length := by omega
        simp only [findTypeForKey]
        rw [if_neg (by simp [hk]; omega)]
        have hfindE := findU_end L.pre (L.core ++ renderToks L.variants)
          (((L.core ++ renderToks L.variants) ++ renderBlocks L.pre).length + 1)
          hpreWF (by rw [hpreE]; simp) (by
            have h1 := blocks_count_le L.pre
            simp only [List.length_append]
            unfold lenBlocks at h1
            omega)
        have hfind : findUF (t.str.length + 1) t.str (t.pExt + 1)
            = some (Sum.inl (t.str.length, t.str.length, false)) := by
          rw [hs, ← hpre0]
          exact hfindE
        rw [hfind]
        show some (t.str.length, t.str.length, false) = _
        simp [findSpec, hub, hpostE]
    · -- a block above u and no u block: the loop stops just before it
      obtain ⟨hub1, hne1, hlen1⟩ := hpostWF pb (by rw [hpostE]; simp)
      obtain ⟨r2, hshape, hr2⟩ := renderBlocks_shape_head pb post2 hne1 hlen1
      have hs : t.str = (L.core ++ renderToks L.variants)
          ++ (renderBlocks L.pre ++ ('-' :: pb.1 :: '-' :: r2)) := by
        rw [hstr]
        unfold Layout.render Layout.renderSuffix
        rw [hub, hpostE, hshape]
        simp
      have hlen : t.str.length = t.pExt + (lenBlocks L.pre + (3 + r2.length)) := by
        rw [hs, List.length_append, hpre0]
        simp only [List.length_append, List.length_cons, lenBlocks]
        omega
      have hlt : t.pExt < t.str.length := by omega
      simp only [findTypeForKey]
      rw [if_neg (by simp [hk]; omega)]
      have hfindE := findU_post L.pre (L.core ++ renderToks L.variants) pb.1 r2
        (((L.core ++ renderToks L.variants)
          ++ (renderBlocks L.pre ++ ('-' :: pb.1 :: '-' :: r2))).length + 1)
        hpreWF hub1 hr2 (by
          have h1 := blocks_count_le L.pre
          simp only [List.length_append, List.length_cons]
          unfold lenBlocks at h1
          omega)
      have hfind : findUF (t.str.length + 1) t.str (t.pExt + 1)
          = some (Sum.inl (t.pExt + lenBlocks L.pre, t.pExt + lenBlocks L.pre, false)) := by
        rw [hs, ← hpre0]
        exact hfindE
      rw [hfind]
      show some (t.pExt + lenBlocks L.pre, t.pExt + lenBlocks L.pre, false) = _
      simp [findSpec, hub, hpostE]
  · -- a u block is present: the loop finds it and the key scan takes over
    obtain ⟨hattr, hkvs, hsort, hne⟩ := wf_ubWF L a k hwf hub
    have hUne : a ++ flatKVs k ≠ [] := by
      rcases a with _ | ⟨x, xs⟩
      · rcases k with _ | ⟨kv, ks⟩
        · exact absurd ⟨rfl, rfl⟩ hne
        · simp [flatKVs]
      · simp
    have hUwf : UToksWF (a ++ flatKVs k) :=
      UToksWF_append_comps a _ hattr (UToksWF_flatKVs k hkvs)
    obtain ⟨x, xs, hx⟩ : ∃ x xs, a ++ flatKVs k = x :: xs := by
      rcases hU : a ++ flatKVs k with _ | ⟨x, xs⟩
      · exact absurd hU hUne
      · exact ⟨x, xs, rfl⟩
    have hxlen : 1 ≤ x.length := by
      have hw2 := hUwf
      rw [hx] at hw2
      cases hw2 with
      | attr t2 ts h1 h2 h3 h4 => omega
      | kv k2 c ts h1 h2 h3 h4 => omega
    have hw : ∃ r2, (renderToks (a ++ flatKVs k) ++ renderBlocks L.post) = '-' :: r2 ∧ r2 ≠ [] := by
      rw [hx, renderToks_cons]
      refine ⟨(x ++ renderToks xs) ++ renderBlocks L.post, by simp, ?_⟩
      apply List.ne_nil_of_length_pos
      simp only [List.length_append]
      omega
    have hs : t.str = (L.core ++ renderToks L.variants)
        ++ (renderBlocks L.pre
          ++ ('-' :: 'u' :: (renderToks (a ++ flatKVs k) ++ renderBlocks L.post))) := by
      rw [hstr]
      unfold Layout.render Layout.renderSuffix
      rw [hub]
      simp [renderU, renderToks_append, renderKVs_eq_flat]
    have hlen : t.str.length = t.pExt
        + (lenBlocks L.pre + (2 + ((renderToks (a ++ flatKVs k)).length + lenBlocks L.post))) := by
      rw [hs, List.length_append, hpre0]
      simp only [List.length_append, List.length_cons, lenBlocks]
      omega
    have hlt : t.pExt < t.str.length := by omega
    simp only [findTypeForKey]
    rw [if_neg (by simp [hk]; omega)]
    have hfindE := findU_u L.pre (L.core ++ renderToks L.variants)
      (renderToks (a ++ flatKVs k) ++ renderBlocks L.post)
      (((L.core ++ renderToks L.variants)
        ++ (renderBlocks L.pre
          ++ ('-' :: 'u' :: (renderToks (a ++ flatKVs k) ++ renderBlocks L.post)))).length + 1)
      hpreWF hw (by
        have h1 := blocks_count_le L.pre
        simp only [List.length_append, List.length_cons]
        unfold lenBlocks at h1
        omega)
    have hfind : findUF (t.str.length + 1) t.str (t.pExt + 1)
        = some (Sum.inr (t.pExt + lenBlocks L.pre + 2)) := by
      rw [hs, ← hpre0]
      exact hfindE
    rw [hfind]
    show uSearchF (t.str.length + 1) t.str key (t.pExt + lenBlocks L.pre + 2) [] 0
      = some (findSpec L t.pExt t.str.length key)
    have hs2 : t.str = ((L.core ++ renderToks L.variants) ++ renderBlocks L.pre ++ ['-', 'u'])
        ++ (renderToks (a ++ flatKVs k) ++ renderBlocks L.post) := by
      rw [hs]
      simp
    have hp2 : ((L.core ++ renderToks L.variants) ++ renderBlocks L.pre ++ ['-', 'u']).length
        = t.pExt + lenBlocks L.pre + 2 := by
      rw [List.length_append, List.length_append, hpre0]
      rfl
    have htl : renderBlocks L.post = []
        ∨ ∃ d r2, renderBlocks L.post = '-' :: d :: '-' :: r2 ∧ r2 ≠ [] := by
      rcases hpost2 : L.post with _ | ⟨pb, post2⟩
      · exact Or.inl renderBlocks_nil
      · right
        obtain ⟨hu1, hne1, hlen1⟩ := hpostWF pb (by rw [hpost2]; simp)
        obtain ⟨r2, hshape, hr2⟩ := renderBlocks_shape_head pb post2 hne1 hlen1
        exact ⟨pb.1, r2, hshape, hr2⟩
    have hsearchE := uSearch_model (a ++ flatKVs k).length (a ++ flatKVs k) le_rfl
      ((L.core ++ renderToks L.variants) ++ renderBlocks L.pre ++ ['-', 'u'])
      (renderBlocks L.post) [] key 0
      ((((L.core ++ renderToks L.variants) ++ renderBlocks L.pre ++ ['-', 'u'])
        ++ (renderToks (a ++ flatKVs k) ++ renderBlocks L.post)).length + 1)
      hUwf hUne htl (by omega)
    rw [show t.pExt + lenBlocks L.pre + 2
        = ((L.core ++ renderToks L.variants) ++ renderBlocks L.pre ++ ['-', 'u']).length
      from hp2.symm]
    rw [hs2]
    rw [hsearchE]
    rw [hp2]
    rw [uSpec_comps key a (flatKVs k) _ [] 0 (fun x2 hx2 => (hattr x2 hx2).1)]
    rw [uSpec_kvs key k _ [] 0 hkvs]
    simp [findSpec, hub]

/-! ### Byte-wise string order -/

theorem strLtB_irrefl (a : Str) : strLtB a a = false := by
  induction a with
  | nil => rfl
  | cons c as ih => simp [strLtB, ih]

theorem strLtB_ne (a b : Str) (h : strLtB a b = true) : a ≠ b := by
  intro he
  subst he
  rw [strLtB_irrefl] at h
  simp at h

theorem strLtB_cons_iff (x y : Char) (as bs : Str) :
    strLtB (x :: as) (y :: bs) = true ↔ x < y ∨ (x = y ∧ strLtB as bs = true) := by
  show (if x < y then true else if y < x then false else strLtB as bs) = true ↔ _
  rcases lt_trichotomy x y with h | h | h
  · simp [h]
  · simp [h, lt_irrefl]
  · rw [if_neg (asymm h), if_pos h]
    simp [asymm h, ne_of_gt h]

theorem strLtB_trans (a : Str) : ∀ (b c : Str), strLtB a b = true → strLtB b c = true →
    strLtB a c = true := by
  induction a with
  | nil =>
    intro b c hab hbc
    cases b with
    | nil => simp [strLtB] at hab
    | cons y bs =>
      cases c with
      | nil => simp [strLtB] at hbc
      | cons z cs => simp [strLtB]
  | cons x as ih =>
    intro b c hab hbc
    cases b with
    | nil => simp [strLtB] at hab
    | cons y bs =>
      cases c with
      | nil => simp [strLtB] at hbc
      | cons z cs =>
        rw [strLtB_cons_iff] at hab hbc ⊢
        rcases hab with h1 | ⟨h1, h1b⟩
        · rcases hbc with h2 | ⟨h2, h2b⟩
          · exact Or.inl (lt_trans h1 h2)
          · exact Or.inl (by rw [← h2]; exact h1)
        · rcases hbc with h2 | ⟨h2, h2b⟩
          · exact Or.inl (by rw [h1]; exact h2)
          · exact Or.inr ⟨h1.trans h2, ih bs cs h1b h2b⟩

theorem strLtB_asymm (a b : Str) (h : strLtB a b = true) : strLtB b a = false := by
  cases hba : strLtB b a with
  | false => rfl
  | true =>
    have h2 := strLtB_trans a b a h hba
    rw [strLtB_irrefl] at h2
    simp at h2

theorem strLtB_connex (a : Str) : ∀ (b : Str), a ≠ b → strLtB a b = false →
    strLtB b a = true := by
  induction a with
  | nil =>
    intro b hne h
    cases b with
    | nil => exact absurd rfl hne
    | cons y bs => simp [strLtB] at h
  | cons x as ih =>
    intro b hne h
    cases b with
    | nil => simp [strLtB]
    | cons y bs =>
      rw [strLtB_cons_iff]
      rcases lt_trichotomy x y with h1 | h1 | h1
      · exfalso
        have h2 : strLtB (x :: as) (y :: bs) = true :=
          (strLtB_cons_iff x y as bs).mpr (Or.inl h1)
        rw [h] at h2
        simp at h2
      · subst h1
        have has : strLtB as bs = false := by
          cases hab : strLtB as bs with
          | false => rfl
          | true =>
            have h2 : strLtB (x :: as) (x :: bs) = true :=
              (strLtB_cons_iff x x as bs).mpr (Or.inr ⟨rfl, hab⟩)
            rw [h] at h2
            simp at h2
        have hasne : as ≠ bs := fun he => hne (by rw [he])
        exact Or.inr ⟨rfl, ih bs hasne has⟩
      · exact Or.inl h1

/-! ### Sorted key lists -/

theorem sortedKeys_tail (kv : Str × List Str) (l : List (Str × List Str))
    (h : sortedKeys (kv :: l) = true) : sortedKeys l = true := by
  cases l with
  | nil => rfl
  | cons b rest =>
    rw [show sortedKeys (kv :: b :: rest) = (strLtB kv.1 b.1 && sortedKeys (b :: rest))
      from rfl, Bool.and_eq_true] at h
    exact h.2

theorem sortedKeys_head_lt (kv : Str × List Str) (l : List (Str × List Str))
    (h : sortedKeys (kv :: l) = true) : ∀ b ∈ l, strLtB kv.1 b.1 = true := by
  induction l generalizing kv with
  | nil =>
    intro b hb
    simp at hb
  | cons c rest ih =>
    intro b hb
    have h1 : strLtB kv.1 c.1 = true := by
      rw [show sortedKeys (kv :: c :: rest) = (strLtB kv.1 c.1 && sortedKeys (c :: rest))
        from rfl, Bool.and_eq_true] at h
      exact h.1
    rcases List.mem_cons.mp hb with hb | hb
    · rw [hb]
      exact h1
    · exact strLtB_trans kv.1 c.1 b.1 h1 (ih c (sortedKeys_tail kv (c :: rest) h) b hb)

theorem sortedKeys_cons (kv : Str × List Str) (l : List (Str × List Str))
    (hl : sortedKeys l = true) (hlt : ∀ b ∈ l, strLtB kv.1 b.1 = true) :
    sortedKeys (kv :: l) = true := by
  cases l with
  | nil => rfl
  | cons b rest =>
    rw [show sortedKeys (kv :: b :: rest) = (strLtB kv.1 b.1 && sortedKeys (b :: rest)) from rfl,
      Bool.and_eq_true]
    exact ⟨hlt b (by simp), hl⟩

theorem sortedKeys_append (as : List (Str × List Str)) : ∀ (bs : List (Str × List Str)),
    sortedKeys (as ++ bs) = true → sortedKeys bs = true := by
  induction as with
  | nil =>
    intro bs h
    exact h
  | cons a as ih =>
    intro bs h
    exact ih bs (sortedKeys_tail a (as ++ bs) h)

theorem sortedKeys_middle (key : Str) (cs : List Str) : ∀ (as bs : List (Str × List Str)),
    sortedKeys (as ++ (key, cs) :: bs) = true →
    (∀ a ∈ as, strLtB a.1 key = true) ∧ (∀ b ∈ bs, strLtB key b.1 = true) := by
  intro as
  induction as with
  | nil =>
    intro bs h
    exact ⟨fun a ha => by simp at ha, sortedKeys_head_lt (key, cs) bs h⟩
  | cons a2 as2 ih =>
    intro bs h
    obtain ⟨ih1, ih2⟩ := ih bs (sortedKeys_tail a2 _ h)
    refine ⟨?_, ih2⟩
    intro a ha
    rcases List.mem_cons.mp ha with ha | ha
    · rw [ha]
      exact sortedKeys_head_lt a2 _ h (key, cs) (by simp)
    · exact ih1 a ha

theorem sortedKeys_insert (key : Str) (cs : List Str) : ∀ (as bs : List (Str × List Str)),
    sortedKeys (as ++ bs) = true →
    (∀ a ∈ as, strLtB a.1 key = true) → (∀ b ∈ bs, strLtB key b.1 = true) →
    sortedKeys (as ++ (key, cs) :: bs) = true := by
  intro as
  induction as with
  | nil =>
    intro bs hs ha hb
    exact sortedKeys_cons (key, cs) bs hs hb
  | cons a2 as2 ih =>
    intro bs hs ha hb
    apply sortedKeys_cons
    · exact ih bs (sortedKeys_tail a2 _ hs) (fun a hx => ha a (by simp [hx])) hb
    · intro b hbmem
      rcases List.mem_append.mp hbmem with hm | hm
      · exact sortedKeys_head_lt a2 (as2 ++ bs) hs b (List.mem_append_left bs hm)
      · rcases List.mem_cons.mp hm with hm | hm
        · rw [hm]
          exact ha a2 (by simp)
        · exact sortedKeys_head_lt a2 (as2 ++ bs) hs b (List.mem_append_right as2 hm)

theorem keys_split (key : Str) (kvs : List (Str × List Str)) (hsort : sortedKeys kvs = true) :
    (∃ as cs bs, kvs = as ++ (key, cs) :: bs ∧ ∀ a ∈ as, strLtB a.1 key = true)
    ∨ ((∀ kv ∈ kvs, kv.1 ≠ key) ∧ ∃ as bs, kvs = as ++ bs
        ∧ (∀ a ∈ as, strLtB a.1 key = true) ∧ (∀ b ∈ bs, strLtB key b.1 = true)) := by
  induction kvs with
  | nil =>
    exact Or.inr ⟨fun kv h => by simp at h, [], [], rfl,
      fun a h => by simp at h, fun b h => by simp at h⟩
  | cons kv rest ih =>
    by_cases hk : kv.1 = key
    · left
      exact ⟨[], kv.2, rest, by rw [← hk]; simp, fun a ha => by simp at ha⟩
    · by_cases hlt : strLtB key kv.1 = true
      · right
        refine ⟨?_, [], kv :: rest, rfl, fun a ha => by simp at ha, ?_⟩
        · intro kv2 hm
          rcases List.mem_cons.mp hm with hm | hm
          · rw [hm]
            exact hk
          · have h3 := strLtB_trans key kv.1 kv2.1 hlt (sortedKeys_head_lt kv rest hsort kv2 hm)
            exact fun he => (strLtB_ne key kv2.1 h3) he.symm
        · intro b hb
          rcases List.mem_cons.mp hb with hb | hb
          · rw [hb]
            exact hlt
          · exact strLtB_trans key kv.1 b.1 hlt (sortedKeys_head_lt kv rest hsort b hb)
      · have hklt : strLtB kv.1 key = true :=
          strLtB_connex key kv.1 (fun he => hk he.symm)
            (by cases h2 : strLtB key kv.1 with
                | false => rfl
                | true => exact absurd h2 hlt)
        rcases ih (sortedKeys_tail kv rest hsort) with ⟨as, cs, bs, heq, hlt2⟩
            | ⟨hne2, as, bs, heq, h1, h2⟩
        · left
          refine ⟨kv :: as, cs, bs, by rw [heq]; simp, ?_⟩
          intro a ha
          rcases List.mem_cons.mp ha with ha | ha
          · rw [ha]
            exact hklt
          · exact hlt2 a ha
        · right
          refine ⟨?_, kv :: as, bs, by rw [heq]; simp, ?_, h2⟩
          · intro kv2 hm
            rcases List.mem_cons.mp hm with hm | hm
            · rw [hm]
              exact hk
            · exact hne2 kv2 hm
          · intro a ha
            rcases List.mem_cons.mp ha with ha | ha
            · rw [ha]
              exact hklt
            · exact h1 a ha

/-! ### The key/value scan: found and not-found results -/

theorem lenKVs_nil : lenKVs [] = 0 := rfl

theorem lenKVs_cons (k : Str) (cs : List Str) (rest : List (Str × List Str)) :
    lenKVs ((k, cs) :: rest) = 1 + k.length + lenToks cs + lenKVs rest := by
  simp [lenKVs, renderKVs_cons, renderKV, lenToks]
  omega

theorem lenKVs_append (a b : List (Str × List Str)) :
    lenKVs (a ++ b) = lenKVs a + lenKVs b := by
  simp [lenKVs, renderKVs_append]

theorem kvScan_cur (key : Str) (kvs : List (Str × List Str)) (p st : Nat) :
    kvScan key kvs p key st = (st, p, true) := by
  cases kvs with
  | nil => simp [kvScan]
  | cons kv rest =>
    obtain ⟨k, cs⟩ := kv
    simp [kvScan]

theorem kvScan_step (key k : Str) (cs : List Str) (rest : List (Str × List Str))
    (p st : Nat) (cur : Str) (hcur : cur ≠ key) (hlt : strLtB key k = false) :
    kvScan key ((k, cs) :: rest) p cur st = kvScan key rest (p + 3 + lenToks cs) k (p + 4) := by
  simp [kvScan, hcur, hlt]

theorem kvScan_found (key : Str) (cs : List Str) : ∀ (as : List (Str × List Str))
    (bs : List (Str × List Str)) (p st : Nat) (cur : Str), cur ≠ key →
    (∀ a ∈ as, a.1 ≠ key ∧ strLtB key a.1 = false) →
    (∀ a ∈ as, a.1.length = 2) →
    kvScan key (as ++ (key, cs) :: bs) p cur st
      = (p + lenKVs as + 4, p + lenKVs as + 3 + lenToks cs, true) := by
  intro as
  induction as with
  | nil =>
    intro bs p st cur hcur ha hl
    rw [List.nil_append, kvScan_step key key cs bs p st cur hcur (strLtB_irrefl key),
      kvScan_cur, lenKVs_nil]
  | cons a2 as2 ih =>
    intro bs p st cur hcur ha hl
    obtain ⟨k2, cs2⟩ := a2
    rw [List.cons_append,
      kvScan_step key k2 cs2 _ p st cur hcur ((ha (k2, cs2) (by simp)).2),
      ih bs _ _ k2 (ha (k2, cs2) (by simp)).1
        (fun a h => ha a (by simp [h])) (fun a h => hl a (by simp [h])),
      lenKVs_cons]
    have hk2 : (k2 : Str).length = 2 := hl (k2, cs2) (by simp)
    simp only [Prod.mk.injEq]
    refine ⟨by omega, by omega, trivial⟩

theorem kvScan_notfound (key : Str) : ∀ (as : List (Str × List Str))
    (bs : List (Str × List Str)) (p st : Nat) (cur : Str), cur ≠ key →
    (∀ a ∈ as, a.1 ≠ key ∧ strLtB key a.1 = false) →
    (∀ a ∈ as, a.1.length = 2) →
    (bs = [] ∨ ∃ b bs2, bs = b :: bs2 ∧ strLtB key b.1 = true) →
    kvScan key (as ++ bs) p cur st = (p + lenKVs as, p + lenKVs as, true) := by
  intro as
  induction as with
  | nil =>
    intro bs p st cur hcur ha hl hbs
    rcases hbs with hbs | ⟨b, bs2, hbs, hblt⟩
    · subst hbs
      simp [kvScan, hcur, lenKVs_nil]
    · subst hbs
      obtain ⟨k2, cs2⟩ := b
      rw [List.nil_append, lenKVs_nil]
      simp only at hblt
      simp [kvScan, hcur, hblt]
  | cons a2 as2 ih =>
    intro bs p st cur hcur ha hl hbs
    obtain ⟨k2, cs2⟩ := a2
    rw [List.cons_append,
      kvScan_step key k2 cs2 _ p st cur hcur ((ha (k2, cs2) (by simp)).2),
      ih bs _ _ k2 (ha (k2, cs2) (by simp)).1
        (fun a h => ha a (by simp [h])) (fun a h => hl a (by simp [h])) hbs,
      lenKVs_cons]
    have hk2 : (k2 : Str).length = 2 := hl (k2, cs2) (by simp)
    simp only [Prod.mk.injEq]
    refine ⟨by omega, by omega, trivial⟩

/-! ### Branch equations for SetTypeForKey -/

theorem slChk_all (s : Str) : slChk s 0 s.length = some s := by
  unfold slChk sl
  simp

theorem layout_not_private (t : Tag) (L : Layout) (hwf : L.wf = true)
    (hpv : t.pVariant = L.core.length) : t.privateUseOnly = false := by
  have hc := wf_core L hwf
  unfold Tag.privateUseOnly
  have h0 : (t.pVariant == 0) = false := by
    rw [hpv]
    simp only [beq_eq_false_iff_ne, ne_eq]
    omega
  rw [h0, Bool.and_false]

theorem render_ne_nil (L : Layout) (hwf : L.wf = true) : L.render ≠ [] := by
  have hc := wf_core L hwf
  unfold Layout.render
  intro h
  rcases List.append_eq_nil.mp h with ⟨h1, h2⟩
  rw [h1] at hc
  simp at hc

theorem SetTypeForKey_fresh_eq (T : Tables) (t : Tag) (key value : Str)
    (hpriv : t.privateUseOnly = false) (hk : key.length = 2)
    (hv3 : 3 ≤ value.length) (hv8 : value.length ≤ 8)
    (hvf : validFragment key value = true) (hstr : t.str = []) :
    SetTypeForKey T t key value = some (⟨t.lang, t.script, t.region,
      (genCoreBytes T t).length % 256, (genCoreBytes T t).length % 65536,
      genCoreBytes T t ++ '-' :: 'u' :: '-' :: (key ++ '-' :: value)⟩, none) := by
  unfold SetTypeForKey
  rw [if_neg (by rw [hpriv]; simp),
    if_neg (by rw [hk]; simp),
    if_neg (by intro h; rw [h] at hv3; simp at hv3),
    if_neg (by simp only [Bool.or_eq_true, decide_eq_true_eq]; omega),
    if_neg (by simp [hvf]),
    if_pos hstr]
  rfl

theorem SetTypeForKey_value_eq (T : Tables) (t : Tag) (key value : Str) (start e : Nat)
    (hasExt : Bool) (hpriv : t.privateUseOnly = false) (hk : key.length = 2)
    (hv3 : 3 ≤ value.length) (hv8 : value.length ≤ 8) (hvf : validFragment key value = true)
    (hstr : t.str ≠ []) (hfind : findTypeForKey t key = some (start, e, hasExt)) :
    SetTypeForKey T t key value =
      (if start = e then
        match slChk t.str 0 start, slChk t.str e t.str.length with
        | some a, some c => some ({ t with str := a ++ '-' ::
            ((if hasExt then key ++ '-' :: value else 'u' :: '-' :: (key ++ '-' :: value)) ++ c) },
            none)
        | _, _ => none
      else
        match slChk t.str 0 start, slChk t.str e t.str.length with
        | some a, some c => some ({ t with str := a ++ value ++ c }, none)
        | _, _ => none) := by
  unfold SetTypeForKey
  rw [if_neg (by rw [hpriv]; simp),
    if_neg (by rw [hk]; simp),
    if_neg (by intro h; rw [h] at hv3; simp at hv3),
    if_neg (by simp only [Bool.or_eq_true, decide_eq_true_eq]; omega),
    if_neg (by simp [hvf]),
    if_neg hstr,
    hfind]

theorem SetTypeForKey_remove_eq (T : Tables) (t : Tag) (key : Str) (start e : Nat)
    (hasExt : Bool) (hpriv : t.privateUseOnly = false) (hk : key.length = 2)
    (hfind : findTypeForKey t key = some (start, e, hasExt)) :
    SetTypeForKey T t key [] =
      (if start ≠ e then
        if e ≠ t.str.length ∧ ¬ e + 2 < t.str.length then none
        else
          let c1 : Bool := e == t.str.length || chr t.str (e + 2) == '-'
          if c1 = true ∧ ¬(2 ≤ start - 4 ∧ start - 4 - 2 < t.str.length) then none
          else
            let c2 : Bool := c1 && (chr t.str (start - 4 - 2) == '-')
            let start2 := if c2 then start - 4 - 2 else start - 4
            if start2 = t.pVariant ∧ e = t.str.length then
              some ({ t with str := [], pVariant := 0, pExt := 0 }, none)
            else
              match slChk t.str 0 start2, slChk t.str e t.str.length with
              | some a, some b => some ({ t with str := a ++ b }, none)
              | _, _ => none
      else some (t, none)) := by
  unfold SetTypeForKey
  rw [if_neg (by rw [hpriv]; simp),
    if_neg (by rw [hk]; simp),
    if_pos rfl,
    hfind]

/-! ### SetTypeForKey on a structured layout: the four splice shapes -/

theorem lenToks_eq_join (cs : List Str) (h : cs ≠ []) :
    lenToks cs = 1 + (joinDash cs).length := by
  unfold lenToks
  rw [renderToks_eq_join cs h]
  simp
  omega

theorem set_value_no_u (T : Tables) (t : Tag) (L : Layout) (key value : Str)
    (hwf : L.wf = true) (hstr : t.str = L.render)
    (hpv : t.pVariant = L.core.length)
    (hpe : t.pExt = L.core.length + lenToks L.variants)
    (hub : L.ub = none) (hk : key.length = 2)
    (hv3 : 3 ≤ value.length) (hv8 : value.length ≤ 8)
    (hvf : validFragment key value = true) :
    SetTypeForKey T t key value
      = some ({ t with str := (Layout.mk L.core L.variants L.pre
          (some ([], [(key, splitDash value)])) L.post).render }, none) := by
  have hpriv := layout_not_private t L hwf hpv
  rcases hpost : L.post with _ | ⟨pb, post2⟩
  · have hfind : findTypeForKey t key = some (t.str.length, t.str.length, false) := by
      rw [find_model t L key hwf hstr hpe hk]
      simp [findSpec, hub, hpost]
    rw [SetTypeForKey_value_eq T t key value t.str.length t.str.length false hpriv hk hv3 hv8 hvf
      (by rw [hstr]; exact render_ne_nil L hwf) hfind]
    rw [if_pos rfl, slChk_all, slChk_suffix t.str t.str.length le_rfl, List.drop_length]
    have hstr2 : t.str ++ '-' :: (('u' :: '-' :: (key ++ '-' :: value)) ++ ([] : Str))
        = (Layout.mk L.core L.variants L.pre
            (some ([], [(key, splitDash value)])) []).render := by
      rw [hstr]
      simp [Layout.render, Layout.renderSuffix, hub, hpost, renderU, renderKVs_cons, renderKVs_nil,
        renderKV, renderBlocks_nil, renderToks_nil,
        renderToks_eq_join (splitDash value) (splitDash_ne_nil value), joinDash_splitDash]
    exact congrArg (fun s => some ({ t with str := s }, (none : Option GoErr))) hstr2
  · have hfind : findTypeForKey t key
        = some (t.pExt + lenBlocks L.pre, t.pExt + lenBlocks L.pre, false) := by
      rw [find_model t L key hwf hstr hpe hk]
      simp [findSpec, hub, hpost]
    have hsq : t.str = ((L.core ++ renderToks L.variants) ++ renderBlocks L.pre)
        ++ renderBlocks L.post := by
      rw [hstr]
      simp [Layout.render, Layout.renderSuffix, hub]
    have hPlen : ((L.core ++ renderToks L.variants) ++ renderBlocks L.pre).length
        = t.pExt + lenBlocks L.pre := by
      simp only [List.length_append]
      rw [hpe]
      rfl
    have hA : slChk t.str 0 (t.pExt + lenBlocks L.pre)
        = some ((L.core ++ renderToks L.variants) ++ renderBlocks L.pre) := by
      rw [hsq, ← hPlen, slChk_prefix _ _ (by simp),
        take_at _ (renderBlocks L.post) _ rfl]
    have hB : slChk t.str (t.pExt + lenBlocks L.pre) t.str.length
        = some (renderBlocks L.post) := by
      rw [hsq, ← hPlen, slChk_suffix _ _ (by simp),
        drop_at _ (renderBlocks L.post) _ rfl]
    rw [SetTypeForKey_value_eq T t key value (t.pExt + lenBlocks L.pre)
      (t.pExt + lenBlocks L.pre) false hpriv hk hv3 hv8 hvf
      (by rw [hstr]; exact render_ne_nil L hwf) hfind]
    rw [if_pos rfl, hA, hB]
    have hstr2 : ((L.core ++ renderToks L.variants) ++ renderBlocks L.pre)
          ++ '-' :: (('u' :: '-' :: (key ++ '-' :: value)) ++ renderBlocks L.post)
        = (Layout.mk L.core L.variants L.pre
            (some ([], [(key, splitDash value)])) (pb :: post2)).render := by
      simp [Layout.render, Layout.renderSuffix, hpost, renderU, renderKVs_cons, renderKVs_nil,
        renderKV, renderToks_nil,
        renderToks_eq_join (splitDash value) (splitDash_ne_nil value), joinDash_splitDash]
    exact congrArg (fun s => some ({ t with str := s }, (none : Option GoErr))) hstr2

theorem set_value_insert (T : Tables) (t : Tag) (L : Layout) (key value : Str)
    (attrs : List Str) (as bs : List (Str × List Str))
    (hwf : L.wf = true) (hstr : t.str = L.render)
    (hpv : t.pVariant = L.core.length)
    (hpe : t.pExt = L.core.length + lenToks L.variants)
    (hub : L.ub = some (attrs, as ++ bs)) (hk : key.length = 2)
    (ha : ∀ a ∈ as, strLtB a.1 key = true)
    (hb : ∀ b ∈ bs, strLtB key b.1 = true)
    (hv3 : 3 ≤ value.length) (hv8 : value.length ≤ 8)
    (hvf : validFragment key value = true) :
    SetTypeForKey T t key value
      = some ({ t with str := (Layout.mk L.core L.variants L.pre
          (some (attrs, as ++ (key, splitDash value) :: bs)) L.post).render }, none) := by
  have hpriv := layout_not_private t L hwf hpv
  obtain ⟨hattr, hkvs, hsort, hnee⟩ := wf_ubWF L attrs (as ++ bs) hwf hub
  have hcur : ([] : Str) ≠ key := by
    intro h
    rw [← h] at hk
    simp at hk
  have hscanA : ∀ a ∈ as, a.1 ≠ key ∧ strLtB key a.1 = false := by
    intro a hx
    exact ⟨fun he => strLtB_ne a.1 key (ha a hx) he, strLtB_asymm a.1 key (ha a hx)⟩
  have hlenA : ∀ a ∈ as, a.1.length = 2 := by
    intro a hx
    exact (kvOK_props a (hkvs a (List.mem_append_left bs hx))).1
  have hbs : bs = [] ∨ ∃ b bs2, bs = b :: bs2 ∧ strLtB key b.1 = true := by
    cases hbse : bs with
    | nil => exact Or.inl rfl
    | cons b bs2 => exact Or.inr ⟨b, bs2, rfl, hb b (by rw [hbse]; simp)⟩
  have hfind : findTypeForKey t key
      = some (t.pExt + lenBlocks L.pre + 2 + lenToks attrs + lenKVs as,
          t.pExt + lenBlocks L.pre + 2 + lenToks attrs + lenKVs as, true) := by
    rw [find_model t L key hwf hstr hpe hk]
    have hscan := kvScan_notfound key as bs (t.pExt + lenBlocks L.pre + 2 + lenToks attrs) 0 []
      hcur hscanA hlenA hbs
    simp only [findSpec, hub, hscan]
  have hsq : t.str = (((L.core ++ renderToks L.variants) ++ renderBlocks L.pre)
        ++ ('-' :: 'u' :: renderToks attrs) ++ renderKVs as)
      ++ (renderKVs bs ++ renderBlocks L.post) := by
    rw [hstr]
    simp [Layout.render, Layout.renderSuffix, hub, renderU, renderKVs_append]
  have hPlen : ((((L.core ++ renderToks L.variants) ++ renderBlocks L.pre)
        ++ ('-' :: 'u' :: renderToks attrs) ++ renderKVs as)).length
      = t.pExt + lenBlocks L.pre + 2 + lenToks attrs + lenKVs as := by
    simp only [List.length_append, List.length_cons]
    rw [hpe]
    simp only [lenToks, lenKVs, lenBlocks]
    omega
  have hA : slChk t.str 0 (t.pExt + lenBlocks L.pre + 2 + lenToks attrs + lenKVs as)
      = some (((L.core ++ renderToks L.variants) ++ renderBlocks L.pre)
          ++ ('-' :: 'u' :: renderToks attrs) ++ renderKVs as) := by
    rw [hsq, ← hPlen, slChk_prefix _ _ (by simp), take_at _ _ _ rfl]
  have hB : slChk t.str (t.pExt + lenBlocks L.pre + 2 + lenToks attrs + lenKVs as) t.str.length
      = some (renderKVs bs ++ renderBlocks L.post) := by
    rw [hsq, ← hPlen, slChk_suffix _ _ (by simp), drop_at _ _ _ rfl]
  rw [SetTypeForKey_value_eq T t key value
    (t.pExt + lenBlocks L.pre + 2 + lenToks attrs + lenKVs as)
    (t.pExt + lenBlocks L.pre + 2 + lenToks attrs + lenKVs as) true hpriv hk hv3 hv8 hvf
    (by rw [hstr]; exact render_ne_nil L hwf) hfind]
  rw [if_pos rfl, hA, hB]
  have hstr2 : ((((L.core ++ renderToks L.variants) ++ renderBlocks L.pre)
        ++ ('-' :: 'u' :: renderToks attrs) ++ renderKVs as))
        ++ '-' :: ((key ++ '-' :: value) ++ (renderKVs bs ++ renderBlocks L.post))
      = (Layout.mk L.core L.variants L.pre
          (some (attrs, as ++ (key, splitDash value) :: bs)) L.post).render := by
    simp [Layout.render, Layout.renderSuffix, renderU, renderKVs_append, renderKVs_cons,
      renderKV, renderToks_eq_join (splitDash value) (splitDash_ne_nil value), joinDash_splitDash]
  exact congrArg (fun s => some ({ t with str := s }, (none : Option GoErr))) hstr2

theorem set_value_replace (T : Tables) (t : Tag) (L : Layout) (key value : Str)
    (attrs : List Str) (as bs : List (Str × List Str)) (cs : List Str)
    (hwf : L.wf = true) (hstr : t.str = L.render)
    (hpv : t.pVariant = L.core.length)
    (hpe : t.pExt = L.core.length + lenToks L.variants)
    (hub : L.ub = some (attrs, as ++ (key, cs) :: bs)) (hk : key.length = 2)
    (hv3 : 3 ≤ value.length) (hv8 : value.length ≤ 8)
    (hvf : validFragment key value = true) :
    SetTypeForKey T t key value
      = some ({ t with str := (Layout.mk L.core L.variants L.pre
          (some (attrs, as ++ (key, splitDash value) :: bs)) L.post).render }, none) := by
  have hpriv := layout_not_private t L hwf hpv
  obtain ⟨hattr, hkvs, hsort, hnee⟩ := wf_ubWF L attrs (as ++ (key, cs) :: bs) hwf hub
  obtain ⟨ha, hb⟩ := sortedKeys_middle key cs as bs hsort
  have hcur : ([] : Str) ≠ key := by
    intro h
    rw [← h] at hk
    simp at hk
  have hscanA : ∀ a ∈ as, a.1 ≠ key ∧ strLtB key a.1 = false := by
    intro a hx
    exact ⟨fun he => strLtB_ne a.1 key (ha a hx) he, strLtB_asymm a.1 key (ha a hx)⟩
  have hlenA : ∀ a ∈ as, a.1.length = 2 := by
    intro a hx
    exact (kvOK_props a (hkvs a (List.mem_append_left _ hx))).1
  obtain ⟨hkey2, hkeyAN, hcsne, hcs⟩ := kvOK_props (key, cs)
    (hkvs (key, cs) (List.mem_append_right as (by simp)))
  have hcsj : lenToks cs = 1 + (joinDash cs).length := lenToks_eq_join cs hcsne
  have hcs4 : 4 ≤ lenToks cs := by
    rcases hcse : cs with _ | ⟨c, cs2⟩
    · exact absurd hcse hcsne
    · have h3 := (hcs c (by rw [hcse]; simp)).1
      rw [lenToks_cons]
      omega
  have hfind : findTypeForKey t key
      = some (t.pExt + lenBlocks L.pre + 2 + lenToks attrs + lenKVs as + 4,
          t.pExt + lenBlocks L.pre + 2 + lenToks attrs + lenKVs as + 3 + lenToks cs, true) := by
    rw [find_model t L key hwf hstr hpe hk]
    have hscan := kvScan_found key cs as bs (t.pExt + lenBlocks L.pre + 2 + lenToks attrs) 0 []
      hcur hscanA hlenA
    simp only [findSpec, hub, hscan]
  have hsq : t.str = ((((L.core ++ renderToks L.variants) ++ renderBlocks L.pre)
        ++ ('-' :: 'u' :: renderToks attrs) ++ renderKVs as) ++ ('-' :: key ++ ['-']))
      ++ (joinDash cs ++ (renderKVs bs ++ renderBlocks L.post)) := by
    rw [hstr]
    simp [Layout.render, Layout.renderSuffix, hub, renderU, renderKVs_append, renderKVs_cons,
      renderKV, renderToks_eq_join cs hcsne]
  have hPlen : (((((L.core ++ renderToks L.variants) ++ renderBlocks L.pre)
        ++ ('-' :: 'u' :: renderToks attrs) ++ renderKVs as) ++ ('-' :: key ++ ['-']))).length
      = t.pExt + lenBlocks L.pre + 2 + lenToks attrs + lenKVs as + 4 := by
    simp only [List.length_append, List.length_cons, List.length_nil]
    rw [hpe, hk]
    simp only [lenToks, lenKVs, lenBlocks]
    omega
  have hMlen : (((((L.core ++ renderToks L.variants) ++ renderBlocks L.pre)
        ++ ('-' :: 'u' :: renderToks attrs) ++ renderKVs as) ++ ('-' :: key ++ ['-']))
          ++ joinDash cs).length
      = t.pExt + lenBlocks L.pre + 2 + lenToks attrs + lenKVs as + 3 + lenToks cs := by
    rw [List.length_append, hPlen, hcsj]
    omega
  have hA : slChk t.str 0 (t.pExt + lenBlocks L.pre + 2 + lenToks attrs + lenKVs as + 4)
      = some ((((L.core ++ renderToks L.variants) ++ renderBlocks L.pre)
          ++ ('-' :: 'u' :: renderToks attrs) ++ renderKVs as) ++ ('-' :: key ++ ['-'])) := by
    rw [hsq, ← hPlen, slChk_prefix _ _ (by simp), take_at _ _ _ rfl]
  have hB : slChk t.str
        (t.pExt + lenBlocks L.pre + 2 + lenToks attrs + lenKVs as + 3 + lenToks cs) t.str.length
      = some (renderKVs bs ++ renderBlocks L.post) := by
    have hsq2 : t.str = (((((L.core ++ renderToks L.variants) ++ renderBlocks L.pre)
          ++ ('-' :: 'u' :: renderToks attrs) ++ renderKVs as) ++ ('-' :: key ++ ['-']))
            ++ joinDash cs)
        ++ (renderKVs bs ++ renderBlocks L.post) := by
      rw [hsq]
      simp
    rw [hsq2, ← hMlen, slChk_suffix _ _ (by simp), drop_at _ _ _ rfl]
  rw [SetTypeForKey_value_eq T t key value
    (t.pExt + lenBlocks L.pre + 2 + lenToks attrs + lenKVs as + 4)
    (t.pExt + lenBlocks L.pre + 2 + lenToks attrs + lenKVs as + 3 + lenToks cs) true
    hpriv hk hv3 hv8 hvf
    (by rw [hstr]; exact render_ne_nil L hwf) hfind]
  rw [if_neg (by omega), hA, hB]
  have hstr2 : (((((L.core ++ renderToks L.variants) ++ renderBlocks L.pre)
        ++ ('-' :: 'u' :: renderToks attrs) ++ renderKVs as) ++ ('-' :: key ++ ['-'])))
        ++ value ++ (renderKVs bs ++ renderBlocks L.post)
      = (Layout.mk L.core L.variants L.pre
          (some (attrs, as ++ (key, splitDash value) :: bs)) L.post).render := by
    simp [Layout.render, Layout.renderSuffix, renderU, renderKVs_append, renderKVs_cons,
      renderKV, renderToks_eq_join (splitDash value) (splitDash_ne_nil value), joinDash_splitDash]
  exact congrArg (fun s => some ({ t with str := s }, (none : Option GoErr))) hstr2

/-! ### Well-formedness of the spliced layouts -/

theorem kvOK_of_fragment (key value : Str) (hk : key.length = 2)
    (hvf : validFragment key value = true) :
    kvOK (key, splitDash value) = true := by
  unfold validFragment at hvf
  rw [Bool.and_eq_true] at hvf
  unfold kvOK
  simp only [Bool.and_eq_true, beq_iff_eq]
  refine ⟨⟨⟨hk, hvf.1⟩, ?_⟩, ?_⟩
  · simp [splitDash_ne_nil value]
  · exact hvf.2

theorem genCoreBytes_len (T : Tables) (t : Tag) (hT : T.WF) :
    2 ≤ (genCoreBytes T t).length ∧ (genCoreBytes T t).length ≤ 12 := by
  obtain ⟨hl, hs, hr⟩ := hT
  obtain ⟨hl1, hl2, -⟩ := hl t.lang
  obtain ⟨hs1, -⟩ := hs t.script
  obtain ⟨hr1, hr2, -⟩ := hr t.region
  unfold genCoreBytes
  by_cases h1 : t.script ≠ 0 <;> by_cases h2 : t.region ≠ 0 <;>
    simp [h1, h2, List.length_append] <;> omega

theorem wf_fresh (core : Str) (key value : Str) (hc : 1 ≤ core.length)
    (hk : key.length = 2) (hvf : validFragment key value = true) :
    (Layout.mk core [] [] (some ([], [(key, splitDash value)])) []).wf = true := by
  unfold Layout.wf
  simp [hc, kvOK_of_fragment key value hk hvf, sortedTyps, sortedKeys]

theorem wf_set_ub (L : Layout) (attrs : List Str) (kvs : List (Str × List Str))
    (hwf : L.wf = true)
    (hattr : attrs.all (tokOK 3 8) = true) (hkv : kvs.all kvOK = true)
    (hsort : sortedKeys kvs = true) (hne : (!(attrs.isEmpty && kvs.isEmpty)) = true) :
    (Layout.mk L.core L.variants L.pre (some (attrs, kvs)) L.post).wf = true := by
  unfold Layout.wf at hwf ⊢
  simp only [Bool.and_eq_true] at hwf ⊢
  obtain ⟨⟨⟨⟨⟨⟨⟨⟨h1, h2⟩, h3⟩, h4⟩, h5⟩, h6⟩, h7⟩, h8⟩, h9⟩ := hwf
  refine ⟨⟨⟨⟨⟨⟨⟨⟨h1, h2⟩, h3⟩, h4⟩, ?_⟩, h6⟩, h7⟩, h8⟩, ?_⟩
  · exact ⟨⟨⟨hattr, hkv⟩, hsort⟩, hne⟩
  · simp

/-! ### TypeForKey on a layout containing the key -/

theorem TypeForKey_eval (t : Tag) (key : Str) (start e : Nat) (hx : Bool)
    (hfind : findTypeForKey t key = some (start, e, hx)) (hne : e ≠ start) :
    TypeForKey t key = slChk t.str start e := by
  unfold TypeForKey
  rw [hfind]
  show (if e ≠ start then slChk t.str start e else some []) = slChk t.str start e
  rw [if_pos hne]

theorem typeForKey_found (t : Tag) (L : Layout) (key value : Str)
    (attrs : List Str) (as bs : List (Str × List Str))
    (hwf : L.wf = true) (hstr : t.str = L.render)
    (hpe : t.pExt = L.core.length + lenToks L.variants)
    (hub : L.ub = some (attrs, as ++ (key, splitDash value) :: bs))
    (hk : key.length = 2) (hv3 : 3 ≤ value.length) :
    TypeForKey t key = some value := by
  obtain ⟨hattr, hkvs, hsort, hnee⟩ := wf_ubWF L attrs (as ++ (key, splitDash value) :: bs) hwf hub
  obtain ⟨ha, hb⟩ := sortedKeys_middle key (splitDash value) as bs hsort
  have hcur : ([] : Str) ≠ key := by
    intro h
    rw [← h] at hk
    simp at hk
  have hscanA : ∀ a ∈ as, a.1 ≠ key ∧ strLtB key a.1 = false := by
    intro a hx
    exact ⟨fun he => strLtB_ne a.1 key (ha a hx) he, strLtB_asymm a.1 key (ha a hx)⟩
  have hlenA : ∀ a ∈ as, a.1.length = 2 := by
    intro a hx
    exact (kvOK_props a (hkvs a (List.mem_append_left _ hx))).1
  have hcsne : splitDash value ≠ [] := splitDash_ne_nil value
  have hcsj : lenToks (splitDash value) = 1 + (joinDash (splitDash value)).length :=
    lenToks_eq_join _ hcsne
  have hjlen : (joinDash (splitDash value)).length = value.length := by
    rw [joinDash_splitDash]
  have hcs4 : 4 ≤ lenToks (splitDash value) := by
    omega
  have hfind : findTypeForKey t key
      = some (t.pExt + lenBlocks L.pre + 2 + lenToks attrs + lenKVs as + 4,
          t.pExt + lenBlocks L.pre + 2 + lenToks attrs + lenKVs as + 3
            + lenToks (splitDash value), true) := by
    rw [find_model t L key hwf hstr hpe hk]
    have hscan := kvScan_found key (splitDash value) as bs
      (t.pExt + lenBlocks L.pre + 2 + lenToks attrs) 0 [] hcur hscanA hlenA
    simp only [findSpec, hub, hscan]
  rw [TypeForKey_eval t key _ _ true hfind (by omega)]
  have hsq : t.str = ((((L.core ++ renderToks L.variants) ++ renderBlocks L.pre)
        ++ ('-' :: 'u' :: renderToks attrs) ++ renderKVs as) ++ ('-' :: key ++ ['-']))
      ++ (joinDash (splitDash value) ++ (renderKVs bs ++ renderBlocks L.post)) := by
    rw [hstr]
    simp [Layout.render, Layout.renderSuffix, hub, renderU, renderKVs_append, renderKVs_cons,
      renderKV, renderToks_eq_join (splitDash value) hcsne]
  have hPlen : (((((L.core ++ renderToks L.variants) ++ renderBlocks L.pre)
        ++ ('-' :: 'u' :: renderToks attrs) ++ renderKVs as) ++ ('-' :: key ++ ['-']))).length
      = t.pExt + lenBlocks L.pre + 2 + lenToks attrs + lenKVs as + 4 := by
    simp only [List.length_append, List.length_cons, List.length_nil]
    rw [hpe, hk]
    simp only [lenToks, lenKVs, lenBlocks]
    omega
  rw [hsq, slChk_exact _ _ _ _ _ hPlen.symm (by rw [hPlen]; omega), joinDash_splitDash]

theorem SetTypeForKey_malformed_eq (T : Tables) (t : Tag) (key value : Str)
    (hpriv : t.privateUseOnly = false) (hk : key.length = 2)
    (hv3 : 3 ≤ value.length) (hv8 : value.length ≤ 8)
    (hvf : validFragment key value = false) :
    SetTypeForKey T t key value = some (t, some GoErr.malformed) := by
  unfold SetTypeForKey
  rw [if_neg (by rw [hpriv]; simp),
    if_neg (by rw [hk]; simp),
    if_neg (by intro h; rw [h] at hv3; simp at hv3),
    if_neg (by simp only [Bool.or_eq_true, decide_eq_true_eq]; omega),
    if_pos (by simp [hvf])]

theorem wf_ub_bool (L : Layout) (attrs : List Str) (kvs : List (Str × List Str))
    (h : L.wf = true) (hub : L.ub = some (attrs, kvs)) :
    attrs.all (tokOK 3 8) = true ∧ kvs.all kvOK = true ∧ sortedKeys kvs = true
      ∧ (!(attrs.isEmpty && kvs.isEmpty)) = true := by
  unfold Layout.wf at h
  rw [hub] at h
  simp only [Bool.and_eq_true] at h
  exact ⟨h.1.1.1.1.2.1.1.1, h.1.1.1.1.2.1.1.2, h.1.1.1.1.2.1.2, h.1.1.1.1.2.2⟩

theorem sortedKeys_delete (x : Str × List Str) : ∀ (as bs : List (Str × List Str)),
    sortedKeys (as ++ x :: bs) = true → sortedKeys (as ++ bs) = true := by
  intro as
  induction as with
  | nil =>
    intro bs h
    exact sortedKeys_tail x bs h
  | cons a as2 ih =>
    intro bs h
    have htail := ih bs (sortedKeys_tail a _ h)
    apply sortedKeys_cons a _ htail
    intro b hbmem
    apply sortedKeys_head_lt a _ h
    rcases List.mem_append.mp hbmem with hm | hm
    · exact List.mem_append_left _ hm
    · exact List.mem_append_right _ (List.mem_cons_of_mem x hm)

/-- C1 (amended form): whenever SetTypeForKey succeeds with a nil error on a
valid tag with a 2-byte key and a 3–8-byte value, TypeForKey on the result
returns exactly that value. -/
theorem C1_set_then_get (T : Tables) (t t' : Tag) (key value : Str)
    (hT : T.WF) (hv : ValidTag t) (hk : key.length = 2)
    (hv3 : 3 ≤ value.length) (hv8 : value.length ≤ 8)
    (hset : SetTypeForKey T t key value = some (t', none)) :
    TypeForKey t' key = some value := by
  rcases hv with ⟨hstr, hpv, hpe⟩ | ⟨hhead, hpv, hpe⟩ | ⟨L, hwf, hstr, hpv, hpe⟩
  · -- core-only tag: fresh synthesis of the whole u extension
    have hpriv : t.privateUseOnly = false := by
      unfold Tag.privateUseOnly
      rw [hstr]
      simp
    by_cases hvf : validFragment key value = true
    · rw [SetTypeForKey_fresh_eq T t key value hpriv hk hv3 hv8 hvf hstr] at hset
      simp only [Option.some.injEq, Prod.mk.injEq, and_true] at hset
      obtain ⟨hc2, hc12⟩ := genCoreBytes_len T t hT
      have hmod : (genCoreBytes T t).length % 65536 = (genCoreBytes T t).length :=
        Nat.mod_eq_of_lt (by omega)
      exact typeForKey_found t'
        (Layout.mk (genCoreBytes T t) [] [] (some ([], [(key, splitDash value)])) [])
        key value [] [] []
        (wf_fresh _ key value (by omega) hk hvf)
        (by
          rw [← hset]
          show genCoreBytes T t ++ '-' :: 'u' :: '-' :: (key ++ '-' :: value) = _
          simp [Layout.render, Layout.renderSuffix, renderU, renderKVs_cons, renderKVs_nil,
            renderKV, renderToks_nil, renderBlocks_nil,
            renderToks_eq_join (splitDash value) (splitDash_ne_nil value), joinDash_splitDash])
        (by
          rw [← hset]
          show (genCoreBytes T t).length % 65536 = (genCoreBytes T t).length + lenToks []
          rw [hmod]
          rfl)
        rfl hk hv3
    · have hvf2 : validFragment key value = false := by
        cases h2 : validFragment key value with
        | false => rfl
        | true => exact absurd h2 hvf
      rw [SetTypeForKey_malformed_eq T t key value hpriv hk hv3 hv8 hvf2] at hset
      simp at hset
  · -- private-use-only tag: SetTypeForKey errors, contradicting the nil error
    have hpriv : t.privateUseOnly = true := by
      unfold Tag.privateUseOnly
      rw [hpv]
      cases hstr2 : t.str with
      | nil => rw [hstr2] at hhead; simp at hhead
      | cons c rest => simp
    unfold SetTypeForKey at hset
    rw [if_pos hpriv] at hset
    simp at hset
  · -- layout tag: splice into the rendered string
    have hpriv := layout_not_private t L hwf hpv
    by_cases hvf : validFragment key value = true
    · rcases hub : L.ub with _ | ⟨attrs, kvs⟩
      · rw [set_value_no_u T t L key value hwf hstr hpv hpe hub hk hv3 hv8 hvf] at hset
        simp only [Option.some.injEq, Prod.mk.injEq, and_true] at hset
        exact typeForKey_found t'
          (Layout.mk L.core L.variants L.pre (some ([], [(key, splitDash value)])) L.post)
          key value [] [] []
          (wf_set_ub L [] [(key, splitDash value)] hwf rfl
            (by simp [kvOK_of_fragment key value hk hvf]) rfl (by simp))
          (by rw [← hset])
          (by rw [← hset]; exact hpe)
          rfl hk hv3
      · obtain ⟨hattrB, hkvB, hsortB, hneB⟩ := wf_ub_bool L attrs kvs hwf hub
        rcases keys_split key kvs hsortB with ⟨as, cs, bs, hkeq, hlt2⟩
            | ⟨hnemem, as, bs, hkeq, h1, h2⟩
        · -- the key is present: replacement
          rw [hkeq] at hub hkvB hsortB
          rw [set_value_replace T t L key value attrs as bs cs hwf hstr hpv hpe hub hk
            hv3 hv8 hvf] at hset
          simp only [Option.some.injEq, Prod.mk.injEq, and_true] at hset
          obtain ⟨hmid1, hmid2⟩ := sortedKeys_middle key cs as bs hsortB
          exact typeForKey_found t'
            (Layout.mk L.core L.variants L.pre
              (some (attrs, as ++ (key, splitDash value) :: bs)) L.post)
            key value attrs as bs
            (wf_set_ub L attrs (as ++ (key, splitDash value) :: bs) hwf hattrB
              (by
                simp only [List.all_append, List.all_cons, Bool.and_eq_true] at hkvB ⊢
                exact ⟨hkvB.1, kvOK_of_fragment key value hk hvf, hkvB.2.2⟩)
              (sortedKeys_insert key (splitDash value) as bs
                (sortedKeys_delete (key, cs) as bs hsortB) hmid1 hmid2)
              (by simp))
            (by rw [← hset])
            (by rw [← hset]; exact hpe)
            rfl hk hv3
        · -- the key is absent: sorted insertion
          rw [hkeq] at hub hkvB hsortB
          rw [set_value_insert T t L key value attrs as bs hwf hstr hpv hpe hub hk
            h1 h2 hv3 hv8 hvf] at hset
          simp only [Option.some.injEq, Prod.mk.injEq, and_true] at hset
          exact typeForKey_found t'
            (Layout.mk L.core L.variants L.pre
              (some (attrs, as ++ (key, splitDash value) :: bs)) L.post)
            key value attrs as bs
            (wf_set_ub L attrs (as ++ (key, splitDash value) :: bs) hwf hattrB
              (by
                simp only [List.all_append, List.all_cons, Bool.and_eq_true] at hkvB ⊢
                exact ⟨hkvB.1, kvOK_of_fragment key value hk hvf, hkvB.2⟩)
              (sortedKeys_insert key (splitDash value) as bs hsortB h1 h2)
              (by simp))
            (by rw [← hset])
            (by rw [← hset]; exact hpe)
            rfl hk hv3
    · have hvf2 : validFragment key value = false := by
        cases h2 : validFragment key value with
        | false => rfl
        | true => exact absurd h2 hvf
      rw [SetTypeForKey_malformed_eq T t key value hpriv hk hv3 hv8 hvf2] at hset
      simp at hset

/-- C1, literal form, refuted: the tag "x-abc" is valid (private-use only), the
key "co" and value "foo" are well-formed, yet SetTypeForKey refuses private-use
tags, returns the tag unchanged, and TypeForKey then reads back "", not "foo". -/
theorem C1_counterexample :
    ValidTag ⟨0, 0, 0, 0, 0, ['x', '-', 'a', 'b', 'c']⟩
    ∧ SetTypeForKey demoTables ⟨0, 0, 0, 0, 0, ['x', '-', 'a', 'b', 'c']⟩ ['c', 'o']
        ['f', 'o', 'o']
      = some (⟨0, 0, 0, 0, 0, ['x', '-', 'a', 'b', 'c']⟩, some GoErr.privateUse)
    ∧ TypeForKey ⟨0, 0, 0, 0, 0, ['x', '-', 'a', 'b', 'c']⟩ ['c', 'o']
      ≠ some ['f', 'o', 'o'] := by
  refine ⟨Or.inr (Or.inl ⟨rfl, rfl, rfl⟩), by decide, by decide⟩

/-- C1 witness: setting co=foo on the bare language tag "en" and reading it
back through TypeForKey. -/
theorem C1_witness :
    TypeForKey ⟨1, 0, 0, 2, 2,
      ['e', 'n', '-', 'u', '-', 'c', 'o', '-', 'f', 'o', 'o']⟩ ['c', 'o']
      = some ['f', 'o', 'o'] :=
  C1_set_then_get demoTables ⟨1, 0, 0, 0, 0, []⟩
    ⟨1, 0, 0, 2, 2, ['e', 'n', '-', 'u', '-', 'c', 'o', '-', 'f', 'o', 'o']⟩
    ['c', 'o'] ['f', 'o', 'o'] demoTables_wf (Or.inl ⟨rfl, rfl, rfl⟩)
    (by decide) (by decide) (by decide) (by decide)

/-! ### Auxiliary bounds and characters for the removal path -/

theorem lenToks_zero (xs : List Str) (h : lenToks xs = 0) : xs = [] := by
  cases xs with
  | nil => rfl
  | cons x xs2 =>
    rw [lenToks_cons] at h
    omega

theorem lenBlocks_zero (bs : List (Char × List Str)) (h : lenBlocks bs = 0) : bs = [] := by
  cases bs with
  | nil => rfl
  | cons b bs2 =>
    have := lenBlocks_pos b bs2
    omega

theorem lenKVs_ge7 (b : Str × List Str) (bs2 : List (Str × List Str))
    (hb : kvOK b = true) : 7 ≤ lenKVs (b :: bs2) := by
  obtain ⟨h1, h2, h3, h4⟩ := kvOK_props b hb
  obtain ⟨k, cs⟩ := b
  rcases hc : cs with _ | ⟨c, cs2⟩
  · exact absurd hc h3
  · have hcl := (h4 c (by rw [hc]; simp)).1
    rw [lenKVs_cons, lenToks_cons]
    simp only at h1
    omega

theorem lenBlocks_ge4 (b : Char × List Str) (bs2 : List (Char × List Str))
    (hne : b.2 ≠ []) (hx : ∀ x ∈ b.2, 1 ≤ x.length) : 4 ≤ lenBlocks (b :: bs2) := by
  obtain ⟨c, subs⟩ := b
  rcases hs : subs with _ | ⟨x, xs⟩
  · exact absurd hs hne
  · have hxl := hx x (by rw [hs]; simp)
    rw [lenBlocks_cons, lenBlock_eq, lenToks_cons]
    omega

theorem chr_toks_back2 (xs : List Str) : ∀ (pre rest : Str), xs ≠ [] →
    (∀ x ∈ xs, 2 ≤ x.length ∧ x.all isAN = true) →
    isAN (chr (pre ++ (renderToks xs ++ rest)) (pre.length + lenToks xs - 2)) = true := by
  induction xs with
  | nil =>
    intro pre rest hne hx
    exact absurd rfl hne
  | cons x xs2 ih =>
    intro pre rest hne hx
    obtain ⟨hx2, hxAN⟩ := hx x (by simp)
    cases xs2 with
    | nil =>
      have hs : pre ++ (renderToks [x] ++ rest) = (pre ++ ['-']) ++ (x ++ rest) := by
        simp [renderToks_cons, renderToks_nil]
      have hpos : pre.length + lenToks [x] - 2
          = (pre ++ ['-']).length + (x.length - 2) := by
        rw [lenToks_cons, lenToks_nil]
        simp only [List.length_append, List.length_cons, List.length_nil]
        omega
      rw [hs, hpos, chr_in_mid (pre ++ ['-']) x rest (x.length - 2) _ (by omega) rfl]
      exact chr_tok x hxAN (x.length - 2) (by omega)
    | cons y ys =>
      have hy2 := (hx y (by simp)).1
      have hrec := ih (pre ++ ('-' :: x)) rest (by simp) (fun z hz => hx z (by simp [hz]))
      have hs : (pre ++ ('-' :: x)) ++ (renderToks (y :: ys) ++ rest)
          = pre ++ (renderToks (x :: y :: ys) ++ rest) := by
        simp [renderToks_cons]
      have hpos : (pre ++ ('-' :: x)).length + lenToks (y :: ys) - 2
          = pre.length + lenToks (x :: y :: ys) - 2 := by
        rw [lenToks_cons x (y :: ys), lenToks_cons y ys]
        simp only [List.length_append, List.length_cons]
        omega
      rw [hs, hpos] at hrec
      exact hrec

theorem chr_kv_head2 (Pfx rest : Str) (k2 : Str) (cs2 : List Str)
    (bs2 : List (Str × List Str)) (hk2 : k2.length = 2) (hAN : k2.all isAN = true) :
    isAN (chr (Pfx ++ (renderKVs ((k2, cs2) :: bs2) ++ rest)) (Pfx.length + 2)) = true := by
  obtain ⟨x1, x2, hx⟩ := List.length_eq_two.mp hk2
  subst hx
  have hs : Pfx ++ (renderKVs (([x1, x2], cs2) :: bs2) ++ rest)
      = Pfx ++ ('-' :: x1 :: x2 :: (renderToks cs2 ++ (renderKVs bs2 ++ rest))) := by
    simp [renderKVs_cons, renderKV]
  rw [hs, chr_append_right Pfx _ 2, chr_cons_succ, chr_cons_succ, chr_cons_zero]
  simp only [List.all_cons, Bool.and_eq_true, List.all_nil] at hAN
  exact hAN.2.1

theorem lenKVs_eq_flat (kvs : List (Str × List Str)) :
    lenKVs kvs = lenToks (flatKVs kvs) := by
  simp [lenKVs, lenToks, renderKVs_eq_flat]

theorem flatKVs_tok (as : List (Str × List Str)) (h : ∀ kv ∈ as, kvOK kv = true) :
    ∀ x ∈ flatKVs as, 2 ≤ x.length ∧ x.all isAN = true := by
  intro x hx
  rw [flatKVs, List.mem_flatMap] at hx
  obtain ⟨kv, hkv, hm⟩ := hx
  obtain ⟨h1, h2, h3, h4⟩ := kvOK_props kv (h kv hkv)
  rcases List.mem_cons.mp hm with hm | hm
  · subst hm
    exact ⟨by omega, h2⟩
  · obtain ⟨q1, q2, q3⟩ := h4 x hm
    exact ⟨by omega, q3⟩

theorem set_remove_key_eq (T : Tables) (t : Tag) (L : Layout) (key : Str) (attrs : List Str)
    (as bs : List (Str × List Str)) (cs : List Str)
    (hwf : L.wf = true) (hstr : t.str = L.render) (hpv : t.pVariant = L.core.length)
    (hpe : t.pExt = L.core.length + lenToks L.variants)
    (hub : L.ub = some (attrs, as ++ (key, cs) :: bs)) (hk : key.length = 2) :
    SetTypeForKey T t key []
      = some ((if attrs = [] ∧ as = [] ∧ bs = [] then
            (if L.variants = [] ∧ L.pre = [] ∧ L.post = [] then
              { t with str := [], pVariant := 0, pExt := 0 }
            else { t with str := (Layout.mk L.core L.variants L.pre none L.post).render })
          else { t with str :=
            (Layout.mk L.core L.variants L.pre (some (attrs, as ++ bs)) L.post).render }),
        none) := by
  have hpriv := layout_not_private t L hwf hpv
  obtain ⟨hattr, hkvs, hsort, hnee⟩ := wf_ubWF L attrs (as ++ (key, cs) :: bs) hwf hub
  obtain ⟨ha, hb⟩ := sortedKeys_middle key cs as bs hsort
  have hcur : ([] : Str) ≠ key := fun h => by rw [← h] at hk; simp at hk
  have hscanA : ∀ a ∈ as, a.1 ≠ key ∧ strLtB key a.1 = false := fun a hx =>
    ⟨fun he => strLtB_ne a.1 key (ha a hx) he, strLtB_asymm a.1 key (ha a hx)⟩
  have hlenA : ∀ a ∈ as, a.1.length = 2 := fun a hx =>
    (kvOK_props a (hkvs a (List.mem_append_left _ hx))).1
  obtain ⟨hkey2, hkeyAN, hcsne, hcsc⟩ := kvOK_props (key, cs)
    (hkvs (key, cs) (List.mem_append_right as (by simp)))
  simp only at hkey2 hkeyAN hcsne hcsc
  have hcs4 : 4 ≤ lenToks cs := by
    rcases cs with _ | ⟨c, cs2⟩
    · exact absurd rfl hcsne
    · have h3 := (hcsc c (by simp)).1
      rw [lenToks_cons]
      omega
  have hcsj : lenToks cs = 1 + (joinDash cs).length := lenToks_eq_join cs hcsne
  have hpost1 : ∀ b ∈ L.post, b.2 ≠ [] ∧ ∀ x ∈ b.2, 1 ≤ x.length := by
    intro b hbm
    obtain ⟨-, h2, h3⟩ := wf_postWF L hwf b hbm
    exact ⟨h2, h3⟩
  have hfind : findTypeForKey t key
      = some (t.pExt + lenBlocks L.pre + 2 + lenToks attrs + lenKVs as + 4, t.pExt + lenBlocks L.pre + 2 + lenToks attrs + lenKVs as + 3 + lenToks cs, true) := by
    rw [find_model t L key hwf hstr hpe hk]
    have hscan := kvScan_found key cs as bs (t.pExt + lenBlocks L.pre + 2 + lenToks attrs) 0 []
      hcur hscanA hlenA
    simp only [findSpec, hub, hscan]
  have hlen : t.str.length = t.pExt + lenBlocks L.pre + 2 + lenToks attrs + lenKVs as + 3 + lenToks cs + (lenKVs bs + lenBlocks L.post) := by
    rw [hstr]
    simp only [Layout.render, Layout.renderSuffix, hub, renderU, renderKVs_append,
      renderKVs_cons, renderKV, List.length_append, List.length_cons]
    rw [hpe, hk]
    simp only [lenToks, lenKVs, lenBlocks]
    omega
  have hsq : t.str = (((((L.core ++ renderToks L.variants) ++ renderBlocks L.pre)
        ++ ('-' :: 'u' :: renderToks attrs) ++ renderKVs as) ++ ('-' :: key ++ ['-']))
        ++ joinDash cs)
      ++ (renderKVs bs ++ renderBlocks L.post) := by
    have h1 : t.str = ((((L.core ++ renderToks L.variants) ++ renderBlocks L.pre)
        ++ ('-' :: 'u' :: renderToks attrs) ++ renderKVs as) ++ ('-' :: key ++ ['-']))
        ++ (joinDash cs ++ (renderKVs bs ++ renderBlocks L.post)) := by
      rw [hstr]
      simp [Layout.render, Layout.renderSuffix, hub, renderU, renderKVs_append, renderKVs_cons,
        renderKV, renderToks_eq_join cs hcsne]
    rw [h1]
    simp
  have hP0len : ((((L.core ++ renderToks L.variants) ++ renderBlocks L.pre)
        ++ ('-' :: 'u' :: renderToks attrs) ++ renderKVs as)).length = t.pExt + lenBlocks L.pre + 2 + lenToks attrs + lenKVs as := by
    simp only [List.length_append, List.length_cons]
    rw [hpe]
    simp only [lenToks, lenKVs, lenBlocks]
    omega
  have hPKlen : ((((L.core ++ renderToks L.variants) ++ renderBlocks L.pre)
        ++ ('-' :: 'u' :: renderToks attrs) ++ renderKVs as) ++ ('-' :: key ++ ['-'])).length = t.pExt + lenBlocks L.pre + 2 + lenToks attrs + lenKVs as + 4 := by
    simp only [List.length_append, List.length_cons, List.length_nil]
    rw [hpe, hk]
    simp only [lenToks, lenKVs, lenBlocks]
    omega
  have hMlen : (((((L.core ++ renderToks L.variants) ++ renderBlocks L.pre)
        ++ ('-' :: 'u' :: renderToks attrs) ++ renderKVs as) ++ ('-' :: key ++ ['-'])) ++ joinDash cs).length = t.pExt + lenBlocks L.pre + 2 + lenToks attrs + lenKVs as + 3 + lenToks cs := by
    rw [List.length_append, hPKlen, hcsj]
    omega
  have hA0 : slChk t.str 0 (t.pExt + lenBlocks L.pre + 2 + lenToks attrs + lenKVs as)
      = some ((((L.core ++ renderToks L.variants) ++ renderBlocks L.pre)
        ++ ('-' :: 'u' :: renderToks attrs) ++ renderKVs as)) := by
    have hsq3 : t.str = ((((L.core ++ renderToks L.variants) ++ renderBlocks L.pre)
        ++ ('-' :: 'u' :: renderToks attrs) ++ renderKVs as))
        ++ (('-' :: key ++ ['-']) ++ (joinDash cs ++ (renderKVs bs ++ renderBlocks L.post))) := by
      rw [hsq]
      simp
    rw [hsq3, ← hP0len, slChk_prefix _ _ (by simp), take_at _ _ _ rfl]
  have hB : slChk t.str (t.pExt + lenBlocks L.pre + 2 + lenToks attrs + lenKVs as + 3 + lenToks cs) t.str.length
      = some (renderKVs bs ++ renderBlocks L.post) := by
    rw [hsq, ← hMlen, slChk_suffix _ _ (by simp), drop_at _ _ _ rfl]
  have hse : (t.pExt + lenBlocks L.pre + 2 + lenToks attrs + lenKVs as + 4) ≠ t.pExt + lenBlocks L.pre + 2 + lenToks attrs + lenKVs as + 3 + lenToks cs := by omega
  have hEbound : t.str.length = t.pExt + lenBlocks L.pre + 2 + lenToks attrs + lenKVs as + 3 + lenToks cs
      ∨ t.pExt + lenBlocks L.pre + 2 + lenToks attrs + lenKVs as + 3 + lenToks cs + 4 ≤ t.str.length := by
    cases bs with
    | nil =>
      cases hpostE : L.post with
      | nil =>
        rw [hpostE, lenKVs_nil, lenBlocks_nil] at hlen
        left
        omega
      | cons p1 post2 =>
        right
        have h4 := lenBlocks_ge4 p1 post2 (hpost1 p1 (by rw [hpostE]; simp)).1
          (hpost1 p1 (by rw [hpostE]; simp)).2
        rw [hpostE, lenKVs_nil] at hlen
        omega
    | cons b2 bs2 =>
      right
      have h7 := lenKVs_ge7 b2 bs2 (hkvs b2 (List.mem_append_right as (by simp)))
      omega
  have hguard1 : ¬((t.pExt + lenBlocks L.pre + 2 + lenToks attrs + lenKVs as + 3 + lenToks cs) ≠ t.str.length
      ∧ ¬ (t.pExt + lenBlocks L.pre + 2 + lenToks attrs + lenKVs as + 3 + lenToks cs) + 2 < t.str.length) := by
    rintro ⟨hne1, hge⟩
    rcases hEbound with h | h
    · exact hne1 h.symm
    · omega
  have hq2 : 2 ≤ t.pExt + lenBlocks L.pre + 2 + lenToks attrs + lenKVs as + 4 - 4 ∧ t.pExt + lenBlocks L.pre + 2 + lenToks attrs + lenKVs as + 4 - 4 - 2 < t.str.length := by omega
  rw [SetTypeForKey_remove_eq T t key (t.pExt + lenBlocks L.pre + 2 + lenToks attrs + lenKVs as + 4) (t.pExt + lenBlocks L.pre + 2 + lenToks attrs + lenKVs as + 3 + lenToks cs) true hpriv hk hfind]
  rw [if_pos hse, if_neg hguard1]
  simp only []
  rw [if_neg (fun hc => hc.2 hq2)]
  by_cases hAAE : attrs = [] ∧ as = [] ∧ bs = []
  · obtain ⟨hA1, hA2, hA3⟩ := hAAE
    subst hA1
    subst hA2
    subst hA3
    have h0t : lenToks ([] : List Str) = 0 := rfl
    have h0k : lenKVs ([] : List (Str × List Str)) = 0 := rfl
    have hc1T : (t.pExt + lenBlocks L.pre + 2 + lenToks [] + lenKVs [] + 3 + lenToks cs == t.str.length
        || chr t.str ((t.pExt + lenBlocks L.pre + 2 + lenToks [] + lenKVs [] + 3 + lenToks cs) + 2) == '-') = true := by
      cases hpostE : L.post with
      | nil =>
        rw [hpostE, lenKVs_nil, lenBlocks_nil] at hlen
        have hbeq : (t.pExt + lenBlocks L.pre + 2 + lenToks [] + lenKVs [] + 3 + lenToks cs == t.str.length) = true := by
          simp only [beq_iff_eq]
          omega
        rw [hbeq, Bool.true_or]
      | cons p1 post2 =>
        obtain ⟨r2, hshape, hr2⟩ := renderBlocks_shape_head p1 post2
          (hpost1 p1 (by rw [hpostE]; simp)).1 (hpost1 p1 (by rw [hpostE]; simp)).2
        have hsqe : t.str = (((((L.core ++ renderToks L.variants) ++ renderBlocks L.pre)
        ++ ('-' :: 'u' :: renderToks []) ++ renderKVs []) ++ ('-' :: key ++ ['-']))
              ++ joinDash cs)
            ++ ('-' :: p1.1 :: '-' :: r2) := by
          rw [hsq, hpostE, hshape]
          simp [renderKVs_nil]
        have hchr : chr t.str ((t.pExt + lenBlocks L.pre + 2 + lenToks [] + lenKVs [] + 3 + lenToks cs) + 2) = '-' := by
          rw [hsqe, show (t.pExt + lenBlocks L.pre + 2 + lenToks [] + lenKVs [] + 3 + lenToks cs) + 2
              = (((((L.core ++ renderToks L.variants) ++ renderBlocks L.pre)
        ++ ('-' :: 'u' :: renderToks []) ++ renderKVs []) ++ ('-' :: key ++ ['-'])) ++ joinDash cs).length + 2 from by rw [hMlen]]
          rw [chr_append_right _ _ 2, chr_cons_succ, chr_cons_succ, chr_cons_zero]
        rw [hchr]
        simp
    have hc2T : ((t.pExt + lenBlocks L.pre + 2 + lenToks [] + lenKVs [] + 3 + lenToks cs == t.str.length
        || chr t.str ((t.pExt + lenBlocks L.pre + 2 + lenToks [] + lenKVs [] + 3 + lenToks cs) + 2) == '-')
        && (chr t.str (t.pExt + lenBlocks L.pre + 2 + lenToks [] + lenKVs [] + 4 - 4 - 2) == '-')) = true := by
      rw [hc1T, Bool.true_and]
      have hchr : chr t.str (t.pExt + lenBlocks L.pre + 2 + lenToks [] + lenKVs [] + 4 - 4 - 2) = '-' := by
        have hsq4 : t.str = ((L.core ++ renderToks L.variants) ++ renderBlocks L.pre)
            ++ ('-' :: ('u' :: (renderToks [] ++ renderKVs ([] ++ (key, cs) :: [])))
              ++ renderBlocks L.post) := by
          rw [hstr]
          simp [Layout.render, Layout.renderSuffix, hub, renderU]
        rw [hsq4, show t.pExt + lenBlocks L.pre + 2 + lenToks [] + lenKVs [] + 4 - 4 - 2 = (((L.core ++ renderToks L.variants) ++ renderBlocks L.pre)).length from by
          simp only [List.length_append, h0t, h0k]
          rw [hpe]
          simp only [lenToks, lenBlocks]
          omega]
        exact chr_concat _ '-' _ _ rfl
      rw [hchr]
      simp
    rw [hc2T, if_pos rfl]
    rw [if_pos (show ([] : List Str) = [] ∧ ([] : List (Str × List Str)) = []
      ∧ ([] : List (Str × List Str)) = [] from ⟨rfl, rfl, rfl⟩)]
    by_cases hVPP : L.variants = [] ∧ L.pre = [] ∧ L.post = []
    · obtain ⟨hV1, hV2, hV3⟩ := hVPP
      have hrst : t.pExt + lenBlocks L.pre + 2 + lenToks [] + lenKVs [] + 4 - 4 - 2 = t.pVariant ∧ t.pExt + lenBlocks L.pre + 2 + lenToks [] + lenKVs [] + 3 + lenToks cs = t.str.length := by
        constructor
        · rw [hpv, hpe, hV1, hV2]
          simp only [lenToks_nil, lenBlocks_nil, h0t, h0k]
          omega
        · rw [hV3, lenKVs_nil, lenBlocks_nil] at hlen
          omega
      rw [if_pos hrst, if_pos (show L.variants = [] ∧ L.pre = [] ∧ L.post = []
        from ⟨hV1, hV2, hV3⟩)]
    · rw [if_neg hVPP]
      have hrstF : ¬(t.pExt + lenBlocks L.pre + 2 + lenToks [] + lenKVs [] + 4 - 4 - 2 = t.pVariant ∧ t.pExt + lenBlocks L.pre + 2 + lenToks [] + lenKVs [] + 3 + lenToks cs = t.str.length) := by
        rintro ⟨hr1, hr2⟩
        apply hVPP
        have hpost0 : L.post = [] := by
          apply lenBlocks_zero L.post
          omega
        have hvp0 : lenToks L.variants = 0 ∧ lenBlocks L.pre = 0 := by
          rw [hpv, hpe] at hr1
          constructor <;> omega
        exact ⟨lenToks_zero L.variants hvp0.1, lenBlocks_zero L.pre hvp0.2, hpost0⟩
      rw [if_neg hrstF]
      have hA00 : slChk t.str 0 (t.pExt + lenBlocks L.pre + 2 + lenToks [] + lenKVs [] + 4 - 4 - 2)
          = some (((L.core ++ renderToks L.variants) ++ renderBlocks L.pre)) := by
        have hsq5 : t.str = ((L.core ++ renderToks L.variants) ++ renderBlocks L.pre)
            ++ (('-' :: ('u' :: (renderToks [] ++ renderKVs ([] ++ (key, cs) :: []))))
              ++ renderBlocks L.post) := by
          rw [hstr]
          simp [Layout.render, Layout.renderSuffix, hub, renderU]
        have hP00len : (((L.core ++ renderToks L.variants) ++ renderBlocks L.pre)).length = t.pExt + lenBlocks L.pre + 2 + lenToks [] + lenKVs [] + 4 - 4 - 2 := by
          simp only [List.length_append, h0t, h0k]
          rw [hpe]
          simp only [lenToks, lenBlocks]
          omega
        rw [hsq5, hP00len.symm, slChk_prefix _ _ (by simp), take_at _ _ _ rfl]
      rw [hA00, hB]
      have hstr2 : (((L.core ++ renderToks L.variants) ++ renderBlocks L.pre)) ++ (renderKVs [] ++ renderBlocks L.post)
          = (Layout.mk L.core L.variants L.pre none L.post).render := by
        simp [Layout.render, Layout.renderSuffix, renderKVs_nil]
      exact congrArg (fun s => some ({ t with str := s }, (none : Option GoErr))) hstr2
  · rw [if_neg hAAE]
    have hc2F : ((t.pExt + lenBlocks L.pre + 2 + lenToks attrs + lenKVs as + 3 + lenToks cs == t.str.length
        || chr t.str ((t.pExt + lenBlocks L.pre + 2 + lenToks attrs + lenKVs as + 3 + lenToks cs) + 2) == '-')
        && (chr t.str (t.pExt + lenBlocks L.pre + 2 + lenToks attrs + lenKVs as + 4 - 4 - 2) == '-')) = false := by
      cases hbse : bs with
      | cons b2 bs2 =>
        obtain ⟨k2, cs2⟩ := b2
        have hb2OK := hkvs (k2, cs2) (List.mem_append_right as (by rw [hbse]; simp))
        obtain ⟨hb21, hb22, hb23, hb24⟩ := kvOK_props (k2, cs2) hb2OK
        have h7 := lenKVs_ge7 (k2, cs2) bs2 hb2OK
        have hsqe : t.str = (((((L.core ++ renderToks L.variants) ++ renderBlocks L.pre)
        ++ ('-' :: 'u' :: renderToks attrs) ++ renderKVs as) ++ ('-' :: key ++ ['-']))
              ++ joinDash cs)
            ++ (renderKVs ((k2, cs2) :: bs2) ++ renderBlocks L.post) := by
          rw [hsq, hbse]
        have hchr : isAN (chr t.str ((t.pExt + lenBlocks L.pre + 2 + lenToks attrs + lenKVs as + 3 + lenToks cs) + 2)) = true := by
          rw [hsqe, show (t.pExt + lenBlocks L.pre + 2 + lenToks attrs + lenKVs as + 3 + lenToks cs) + 2
              = (((((L.core ++ renderToks L.variants) ++ renderBlocks L.pre)
        ++ ('-' :: 'u' :: renderToks attrs) ++ renderKVs as) ++ ('-' :: key ++ ['-'])) ++ joinDash cs).length + 2 from by rw [hMlen]]
          exact chr_kv_head2 _ _ k2 cs2 bs2 hb21 hb22
        have hbeq : (t.pExt + lenBlocks L.pre + 2 + lenToks attrs + lenKVs as + 3 + lenToks cs == t.str.length) = false := by
          simp only [beq_eq_false_iff_ne, ne_eq]
          rw [hbse] at hlen
          omega
        have hbeq2 : (chr t.str ((t.pExt + lenBlocks L.pre + 2 + lenToks attrs + lenKVs as + 3 + lenToks cs) + 2) == '-') = false := by
          simp only [beq_eq_false_iff_ne, ne_eq]
          exact isAN_ne_dash _ hchr
        rw [hbeq, hbeq2, Bool.false_or, Bool.false_and]
      | nil =>
        have hne2 : attrs ++ flatKVs as ≠ [] := by
          intro hcontra
          rcases List.append_eq_nil.mp hcontra with ⟨ha1, ha2⟩
          apply hAAE
          refine ⟨ha1, ?_, hbse⟩
          cases as with
          | nil => rfl
          | cons a2 as2 => simp [flatKVs] at ha2
        have htoks : ∀ x ∈ attrs ++ flatKVs as, 2 ≤ x.length ∧ x.all isAN = true := by
          intro x hx
          rcases List.mem_append.mp hx with hm | hm
          · obtain ⟨h1, h2, h3⟩ := hattr x hm
            exact ⟨by omega, h3⟩
          · exact flatKVs_tok as (fun kv hkv => hkvs kv (List.mem_append_left _ hkv)) x hm
        have hsq0 : t.str = (((L.core ++ renderToks L.variants) ++ renderBlocks L.pre) ++ ['-', 'u'])
            ++ (renderToks (attrs ++ flatKVs as)
              ++ (('-' :: key ++ ['-']) ++ (joinDash cs
                ++ (renderKVs bs ++ renderBlocks L.post)))) := by
          rw [hsq]
          simp [renderToks_append, renderKVs_eq_flat]
        have hchr0 : isAN (chr t.str (t.pExt + lenBlocks L.pre + 2 + lenToks attrs + lenKVs as + 4 - 4 - 2)) = true := by
          have hrec := chr_toks_back2 (attrs ++ flatKVs as)
            (((L.core ++ renderToks L.variants) ++ renderBlocks L.pre) ++ ['-', 'u'])
            (('-' :: key ++ ['-']) ++ (joinDash cs ++ (renderKVs bs ++ renderBlocks L.post)))
            hne2 htoks
          rw [← hsq0] at hrec
          rw [show t.pExt + lenBlocks L.pre + 2 + lenToks attrs + lenKVs as + 4 - 4 - 2
              = (((L.core ++ renderToks L.variants) ++ renderBlocks L.pre) ++ ['-', 'u']).length + lenToks (attrs ++ flatKVs as) - 2 from by
            simp only [lenToks, lenKVs, lenBlocks, renderToks_append, renderKVs_eq_flat,
              List.length_append, List.length_cons, List.length_nil]
            rw [hpe]
            simp only [lenToks]
            omega]
          exact hrec
        have hbeq3 : (chr t.str (t.pExt + lenBlocks L.pre + 2 + lenToks attrs + lenKVs as + 4 - 4 - 2) == '-') = false := by
          simp only [beq_eq_false_iff_ne, ne_eq]
          exact isAN_ne_dash _ hchr0
        rw [hbeq3, Bool.and_false]
    have hstart2 : (if ((t.pExt + lenBlocks L.pre + 2 + lenToks attrs + lenKVs as + 3 + lenToks cs == t.str.length
          || chr t.str ((t.pExt + lenBlocks L.pre + 2 + lenToks attrs + lenKVs as + 3 + lenToks cs) + 2) == '-')
          && (chr t.str (t.pExt + lenBlocks L.pre + 2 + lenToks attrs + lenKVs as + 4 - 4 - 2) == '-')) = true
        then t.pExt + lenBlocks L.pre + 2 + lenToks attrs + lenKVs as + 4 - 4 - 2 else t.pExt + lenBlocks L.pre + 2 + lenToks attrs + lenKVs as + 4 - 4) = t.pExt + lenBlocks L.pre + 2 + lenToks attrs + lenKVs as := by
      rw [hc2F, if_neg Bool.false_ne_true]
      omega
    rw [hstart2]
    have hrstF : ¬(t.pExt + lenBlocks L.pre + 2 + lenToks attrs + lenKVs as = t.pVariant ∧ t.pExt + lenBlocks L.pre + 2 + lenToks attrs + lenKVs as + 3 + lenToks cs = t.str.length) := by
      rintro ⟨hr1, -⟩
      rw [hpv, hpe] at hr1
      omega
    rw [if_neg hrstF]
    rw [hA0, hB]
    have hstr2 : ((((L.core ++ renderToks L.variants) ++ renderBlocks L.pre)
        ++ ('-' :: 'u' :: renderToks attrs) ++ renderKVs as)) ++ (renderKVs bs ++ renderBlocks L.post)
        = (Layout.mk L.core L.variants L.pre (some (attrs, as ++ bs)) L.post).render := by
      simp [Layout.render, Layout.renderSuffix, renderU, renderKVs_append]
    exact congrArg (fun s => some ({ t with str := s }, (none : Option GoErr))) hstr2
/-- C3: with an empty value, SetTypeForKey excises an existing key/type pair
together with its preceding dash; when the u block thereby loses its last key
and has no attributes, the "-u" marker goes too; and when the whole suffix
empties, the tag resets to str = "" with both offsets zero. -/
theorem C3_remove_key (T : Tables) (t : Tag) (L : Layout) (key : Str) (attrs : List Str)
    (as bs : List (Str × List Str)) (cs : List Str)
    (hwf : L.wf = true) (hstr : t.str = L.render) (hpv : t.pVariant = L.core.length)
    (hpe : t.pExt = L.core.length + lenToks L.variants)
    (hub : L.ub = some (attrs, as ++ (key, cs) :: bs)) (hk : key.length = 2) :
    SetTypeForKey T t key []
      = some ((if attrs = [] ∧ as = [] ∧ bs = [] then
            (if L.variants = [] ∧ L.pre = [] ∧ L.post = [] then
              { t with str := [], pVariant := 0, pExt := 0 }
            else { t with str := (Layout.mk L.core L.variants L.pre none L.post).render })
          else { t with str :=
            (Layout.mk L.core L.variants L.pre (some (attrs, as ++ bs)) L.post).render }),
        none) :=
  set_remove_key_eq T t L key attrs as bs cs hwf hstr hpv hpe hub hk

/-- C3 witness: removing co from "en-u-co-phonebk" empties the whole suffix and
resets the tag to its core-only form. -/
theorem C3_witness :
    SetTypeForKey demoTables
      ⟨1, 0, 0, 2, 2,
        ['e', 'n', '-', 'u', '-', 'c', 'o', '-', 'p', 'h', 'o', 'n', 'e', 'b', 'k']⟩
      ['c', 'o'] [] = some (⟨1, 0, 0, 0, 0, []⟩, none) := by
  have h := C3_remove_key demoTables
    ⟨1, 0, 0, 2, 2,
      ['e', 'n', '-', 'u', '-', 'c', 'o', '-', 'p', 'h', 'o', 'n', 'e', 'b', 'k']⟩
    (Layout.mk ['e', 'n'] [] []
      (some ([], [(['c', 'o'], [['p', 'h', 'o', 'n', 'e', 'b', 'k']])])) [])
    ['c', 'o'] [] [] [] [['p', 'h', 'o', 'n', 'e', 'b', 'k']]
    (by decide) (by decide) (by decide) (by decide) (by decide) (by decide)
  simpa using h

/-! ### Totality of the scanning operations (C9) -/

theorem find_pext_zero (t : Tag) (key : Str) (h : t.pExt = 0) :
    findTypeForKey t key = some (t.pExt, t.pExt, false) := by
  unfold findTypeForKey
  rw [if_pos (by simp [h])]

theorem find_badkey (t : Tag) (key : Str) (h : key.length ≠ 2) :
    findTypeForKey t key = some (t.pExt, t.pExt, false) := by
  unfold findTypeForKey
  rw [if_pos (by simp [h])]

theorem TypeForKey_same (t : Tag) (key : Str) (q : Nat) (hx : Bool)
    (hfind : findTypeForKey t key = some (q, q, hx)) : TypeForKey t key = some [] := by
  unfold TypeForKey
  rw [hfind]
  show (if q ≠ q then slChk t.str q q else some []) = some []
  rw [if_neg (fun h => h rfl)]

theorem slChk_isSome (s : Str) (i j : Nat) (h1 : i ≤ j) (h2 : j ≤ s.length) :
    (slChk s i j).isSome = true := by
  unfold slChk
  rw [if_pos ⟨h1, h2⟩]
  rfl

theorem SetTypeForKey_private_eq (T : Tables) (t : Tag) (key value : Str)
    (hpriv : t.privateUseOnly = true) :
    SetTypeForKey T t key value = some (t, some GoErr.privateUse) := by
  unfold SetTypeForKey
  rw [if_pos hpriv]

theorem SetTypeForKey_badkey_eq (T : Tables) (t : Tag) (key value : Str)
    (hpriv : t.privateUseOnly = false) (hk : key.length ≠ 2) :
    SetTypeForKey T t key value = some (t, some GoErr.invalidArguments) := by
  unfold SetTypeForKey
  rw [if_neg (by rw [hpriv]; simp), if_pos hk]

theorem SetTypeForKey_badvalue_eq (T : Tables) (t : Tag) (key value : Str)
    (hpriv : t.privateUseOnly = false) (hk : key.length = 2) (hne : value ≠ [])
    (hbad : value.length < 3 ∨ 8 < value.length) :
    SetTypeForKey T t key value = some (t, some GoErr.invalidArguments) := by
  unfold SetTypeForKey
  rw [if_neg (by rw [hpriv]; simp), if_neg (by rw [hk]; simp), if_neg hne,
    if_pos (by simp only [Bool.or_eq_true, decide_eq_true_eq]; omega)]

theorem SetTypeForKey_remove_same (T : Tables) (t : Tag) (key : Str) (q : Nat) (hx : Bool)
    (hpriv : t.privateUseOnly = false) (hk : key.length = 2)
    (hfind : findTypeForKey t key = some (q, q, hx)) :
    SetTypeForKey T t key [] = some (t, none) := by
  rw [SetTypeForKey_remove_eq T t key q q hx hpriv hk hfind]
  rw [if_neg (fun h => h rfl)]

end XText
